import Mathlib

/-!
Verification development for the per-column hashing and value-id engine
(`velox/exec/VectorHasher.cpp`).  The scalar value universe, the decoded-view
abstraction and the hasher state are embedded shallowly; machine integers are
modelled as `Int`/`Nat` with explicit `% 2^64` where 64-bit overflow matters.
Functions present in `VectorHasher.cpp` are translated from that source;
functions that live only in the (absent) header `VectorHasher.h` are modelled
from the specification and carry a doc comment starting `Modelled from the
spec:`.
-/

set_option maxRecDepth 40000

namespace Velox

/-- Designated hash of NULL and the uncached-marker of the hash cache. -/
def kNullHash : Nat := 0

/-- Sentinel id meaning "value is not in the current domain" (all-ones u64). -/
def kUnmappable : Nat := 2 ^ 64 - 1

/-- Cardinality sentinel (all-ones u64). -/
def kRangeTooLarge : Nat := 2 ^ 64 - 1

/-- Smallest `int64_t` value. -/
def i64Min : Int := -(2 ^ 63)

/-- Largest `int64_t` value. -/
def i64Max : Int := 2 ^ 63 - 1

/-- Modelled from the spec: `kMaxRange = 2^63 - 1 - small_pad`; the pad's
exact value is left open by the spec, we fix a small pad of 2. -/
def kMaxRange : Int := 2 ^ 63 - 1 - 2

/-- Modelled from the spec: cap on the number of distinct values
(design default 10 000). -/
def kMaxDistinct : Nat := 10000

/-- Modelled from the spec: byte budget for owned distinct strings (1 MiB). -/
def kMaxDistinctStringsBytes : Nat := 1048576

/-- Modelled from the spec: growth unit of the string backing store (1 KiB). -/
def kStringBufferUnitSize : Nat := 1024

/-- Modelled from the spec: strings up to 7 bytes map reversibly to `i64`. -/
def kStringASRangeMaxSize : Nat := 7

/-- Bit pattern of an `int64_t` value reinterpreted as `uint64_t`. -/
def u64wrap (x : Int) : Nat := (x % (2 ^ 64 : Int)).toNat

/-- Scalar type kinds the value-id engine dispatches over. -/
inductive TypeKind where
  | boolean
  | tinyint
  | smallint
  | integer
  | bigint
  | varchar
deriving DecidableEq, Repr

/-- Logical scalar value of a column: an integer (covering the `i8..i64`
kinds) or a string given by its byte sequence. -/
inductive VHValue where
  | int : Int → VHValue
  | str : List Nat → VHValue
deriving DecidableEq, Repr

/-- Modelled from the spec: `string_as_number` maps a string of at most 7
bytes to an `i64` by zero-padding and little-endian interpretation. -/
def stringAsNumber (bytes : List Nat) : Int :=
  Int.ofNat (bytes.foldr (fun b acc => b + 256 * acc) 0)

/-- Modelled from the spec: `to_i64` of a value — identity for integers,
`string_as_number` for strings of length at most `kStringASRangeMaxSize`,
undefined (none) for longer strings. -/
def VHValue.asNumber : VHValue → Option Int
  | .int v => some v
  | .str s => if s.length ≤ kStringASRangeMaxSize then some (stringAsNumber s) else none

/-- Entry of the distinct table: a logical value with its assigned 1-based id. -/
structure UniqueValue where
  value : VHValue
  id : Nat
deriving DecidableEq, Repr

/-- Set-membership of a logical value in the distinct table (entries compare
by logical value, the id is ignored). -/
def containsValue (t : List UniqueValue) (v : VHValue) : Bool :=
  t.any (fun u => u.value == v)

/-- Lookup of a logical value in the distinct table. -/
def findValue (t : List UniqueValue) (v : VHValue) : Option UniqueValue :=
  t.find? (fun u => u.value == v)

/-- One backing buffer of the distinct-string storage, tracked by capacity
and number of bytes used. -/
structure StrBuffer where
  capacity : Nat
  used : Nat
deriving DecidableEq, Repr

/-- State of one `VectorHasher` (`VectorHasher.h` field list, as described by
the spec's data model): analysis state (range and distinct set) plus the
encoding state set by the `enable*` calls.  The distinct table is modelled as
an insertion-ordered list, matching the spec's DistinctTable contract. -/
structure Hasher where
  typeKind_ : TypeKind
  hasRange_ : Bool
  rangeOverflow_ : Bool
  min_ : Int
  max_ : Int
  distinctOverflow_ : Bool
  uniqueValues_ : List UniqueValue
  distinctStringsBytes_ : Nat
  uniqueValuesStorage_ : List StrBuffer
  isRange_ : Bool
  multiplier_ : Nat
  rangeSize_ : Nat
deriving DecidableEq, Repr

/-- Freshly constructed hasher for a column of kind `k`. -/
def initHasher (k : TypeKind) : Hasher :=
  { typeKind_ := k
    hasRange_ := false
    rangeOverflow_ := false
    min_ := 0
    max_ := 0
    distinctOverflow_ := false
    uniqueValues_ := []
    distinctStringsBytes_ := 0
    uniqueValuesStorage_ := []
    isRange_ := false
    multiplier_ := 1
    rangeSize_ := 0 }

/-- Modelled from the spec: the header's `valueId(v)`.  Range mode: a value
whose `to_i64` image lies outside `[min, max]` is `kUnmappable`, otherwise the
id is `v - min + 1` (64-bit arithmetic).  Distinct mode: table lookup; a miss
is `kUnmappable`, a hit returns the stored id. -/
def valueId (h : Hasher) (v : VHValue) : Nat :=
  if h.isRange_ then
    match v.asNumber with
    | none => kUnmappable
    | some n => if n < h.min_ ∨ n > h.max_ then kUnmappable else u64wrap (n - h.min_ + 1)
  else
    match findValue h.uniqueValues_ v with
    | none => kUnmappable
    | some u => u.id

/-- Modelled from the spec: the header's `lookupValueId`, the read-only
variant of `valueId`; it maps exactly like `valueId` and never touches the
hasher state. -/
def lookupValueId (h : Hasher) (v : VHValue) : Nat := valueId h v

/-- Modelled from the spec: the header's `updateRange` — widen the observed
`[min, max]` envelope by one number, establishing it on the first value. -/
def updateRange (h : Hasher) (n : Int) : Hasher :=
  if h.hasRange_ then { h with min_ := min h.min_ n, max_ := max h.max_ n }
  else { h with hasRange_ := true, min_ := n, max_ := n }

/-- Fresh backing buffer for a string of `size` bytes
(`VectorHasher::copyStringToLocal`, reserve step). -/
def newBuffer (size : Nat) : StrBuffer :=
  { capacity := max kStringBufferUnitSize size, used := 0 }

/-- Record `size` bytes as appended to the last backing buffer. -/
def bumpLast (bufs : List StrBuffer) (size : Nat) : List StrBuffer :=
  bufs.dropLast ++ [{ bufs.getLastD ⟨0, 0⟩ with used := (bufs.getLastD ⟨0, 0⟩).used + size }]

/-- Translation of `VectorHasher::copyStringToLocal`: short strings stay
inline; otherwise the byte budget is checked (setting `distinctOverflow_`
when exhausted) and the bytes are appended to the backing store, growing it
in `kStringBufferUnitSize` units. -/
def copyStringToLocal (h : Hasher) (size : Nat) : Hasher :=
  if size ≤ 8 then h
  else if h.distinctStringsBytes_ > kMaxDistinctStringsBytes then
    { h with distinctOverflow_ := true }
  else
    let h1 :=
      if h.uniqueValuesStorage_.isEmpty then
        { h with
          uniqueValuesStorage_ := [newBuffer size]
          distinctStringsBytes_ := h.distinctStringsBytes_ + (newBuffer size).capacity }
      else h
    let str := h1.uniqueValuesStorage_.getLastD ⟨0, 0⟩
    if str.used + size > str.capacity then
      let h2 :=
        { h1 with
          uniqueValuesStorage_ := h1.uniqueValuesStorage_ ++ [newBuffer size]
          distinctStringsBytes_ := h1.distinctStringsBytes_ + (newBuffer size).capacity }
      { h2 with uniqueValuesStorage_ := bumpLast h2.uniqueValuesStorage_ size }
    else
      { h1 with uniqueValuesStorage_ := bumpLast h1.uniqueValuesStorage_ size }

/-- Distinct-table part of `analyzeValue` for non-string values: insert with
candidate id `|unique_values| + 1` unless `distinct_overflow`, flagging
overflow past `kMaxDistinct` entries. -/
def insertDistinct (h : Hasher) (v : VHValue) : Hasher :=
  if !h.distinctOverflow_ then
    if containsValue h.uniqueValues_ v then h
    else
      let h2 :=
        { h with
          uniqueValues_ :=
            h.uniqueValues_ ++ [{ value := v, id := h.uniqueValues_.length + 1 }] }
      if h2.uniqueValues_.length > kMaxDistinct then { h2 with distinctOverflow_ := true }
      else h2
  else h

/-- Distinct-table part of the `StringView` `analyzeValue`: like
`insertDistinct`, but a freshly inserted string is copied to the local
backing store. -/
def insertDistinctStr (h : Hasher) (s : List Nat) : Hasher :=
  if !h.distinctOverflow_ then
    if containsValue h.uniqueValues_ (.str s) then h
    else
      let h2 :=
        { h with
          uniqueValues_ :=
            h.uniqueValues_ ++ [{ value := .str s, id := h.uniqueValues_.length + 1 }] }
      if h2.uniqueValues_.length > kMaxDistinct then { h2 with distinctOverflow_ := true }
      else copyStringToLocal h2 s.length
  else h

/-- Modelled from the spec: the header's generic (integer) `analyzeValue` —
update the range envelope unless `range_overflow`, then insert into the
distinct table. -/
def analyzeValueInt (h : Hasher) (n : Int) : Hasher :=
  insertDistinct (if !h.rangeOverflow_ then updateRange h n else h) (.int n)

/-- Translation of the `StringView` specialization of
`VectorHasher::analyzeValue` (VectorHasher.cpp lines 478-502): overlong
strings overflow the range, short ones feed `stringAsNumber` into the range;
then the string is inserted into the distinct table with a copy of fresh
entries to the local backing store. -/
def analyzeValueStr (h : Hasher) (s : List Nat) : Hasher :=
  insertDistinctStr
    (if !h.rangeOverflow_ then
      if s.length > kStringASRangeMaxSize then { h with rangeOverflow_ := true }
      else updateRange h (stringAsNumber s)
    else h) s

/-- Dispatch of `analyzeValue` over the value universe: the integer kinds use
the generic template, strings the `StringView` specialization. -/
def analyzeValue (h : Hasher) (v : VHValue) : Hasher :=
  match v with
  | .int n => analyzeValueInt h n
  | .str s => analyzeValueStr h s

/-- Write of one id into the packed result slot
(`result[row] = multiplier_ == 1 ? id : result[row] + multiplier_ * id`,
with 64-bit wrap-around on the accumulate). -/
def applyMult (h : Hasher) (old id : Nat) : Nat :=
  if h.multiplier_ = 1 then id else (old + h.multiplier_ * id) % 2 ^ 64

/-- Application of a per-row write `result[row] = f row result[row]` over the
selected rows in order (the shape of every `applyToSelected` loop whose body
only writes the current row). -/
def writeRows (f : Nat → Nat → Nat) (rows : List Nat) (result : Nat → Nat) : Nat → Nat :=
  match rows with
  | [] => result
  | r :: rest => writeRows f rest (Function.update result r (f r (result r)))

/-- Decoded view over one batch of a column vector (the `DecodedVector`
consumed interface of spec section 6): constant / identity / dictionary
mapping flags, base values, per-row base indices and per-row null flags. -/
structure Decoded where
  constantMapping : Bool
  identityMapping : Bool
  mayHaveNulls : Bool
  baseValues : List VHValue
  indices : List Nat
  nulls : List Bool
deriving Repr

/-- Null flag of a top-level row (`DecodedVector::isNullAt`). -/
def Decoded.isNullAt (d : Decoded) (row : Nat) : Bool := d.nulls.getD row false

/-- Base index of a top-level row (`DecodedVector::index`). -/
def Decoded.index (d : Decoded) (row : Nat) : Nat := d.indices.getD row 0

/-- Entry of the base-value array (`decoded_.values<T>()[i]`). -/
def Decoded.baseAt (d : Decoded) (i : Nat) : VHValue := d.baseValues.getD i (VHValue.int 0)

/-- Value of a top-level row (`DecodedVector::valueAt`). -/
def Decoded.valueAt (d : Decoded) (row : Nat) : VHValue := d.baseAt (d.index row)

/-- Well-formedness of a decoded view on a set of rows: identity mappings
index each row to itself, constant mappings show one value/null flag on all
rows, and `mayHaveNulls = false` means no row is null. -/
def Decoded.wfOn (d : Decoded) (rows : List Nat) : Prop :=
  (d.identityMapping = true → ∀ r ∈ rows, d.index r = r) ∧
  (d.constantMapping = true →
    ∀ r ∈ rows, ∀ r' ∈ rows, d.isNullAt r = d.isNullAt r' ∧ d.valueAt r = d.valueAt r') ∧
  (d.mayHaveNulls = false → ∀ r ∈ rows, d.isNullAt r = false)

instance (d : Decoded) (rows : List Nat) : Decidable (d.wfOn rows) := by
  unfold Decoded.wfOn
  infer_instance

/-- Constant-mapping branch of `VectorHasher::makeValueIds`
(VectorHasher.cpp lines 117-129): map the single value once (null maps to 0),
analyze and fail if it is unmappable, otherwise broadcast the id into every
selected row. -/
def makeValueIdsConstant (h : Hasher) (d : Decoded) (rows : List Nat) (result : Nat → Nat) :
    Hasher × (Nat → Nat) × Bool :=
  let b := rows.headD 0
  let id := if d.isNullAt b then 0 else valueId h (d.valueAt b)
  if id = kUnmappable then
    (analyzeValue h (d.valueAt b), result, false)
  else
    (h, writeRows (fun _ old => applyMult h old id) rows result, true)

/-- Modelled from the spec: the header's `tryMapToRange` fast path of the
flat no-nulls case — when every selected value lies in the active range the
ids are written for all selected rows and the call succeeds, otherwise the
scalar loop takes over. -/
def tryMapToRange (h : Hasher) (d : Decoded) (rows : List Nat) (result : Nat → Nat) :
    (Nat → Nat) × Bool :=
  if rows.all (fun r => valueId h (d.baseAt r) != kUnmappable) then
    (writeRows (fun r old => applyMult h old (valueId h (d.baseAt r))) rows result, true)
  else (result, false)

/-- Scalar loop of `VectorHasher::makeValueIdsFlatNoNulls` (VectorHasher.cpp
lines 188-206): on the first unmappable value the success flag drops and the
remaining values are only analyzed. -/
def flatNoNullsLoop (h : Hasher) (d : Decoded) (rows : List Nat) (success : Bool)
    (result : Nat → Nat) : Hasher × (Nat → Nat) × Bool :=
  match rows with
  | [] => (h, result, success)
  | r :: rest =>
    let value := d.baseAt r
    if success = false then flatNoNullsLoop (analyzeValue h value) d rest false result
    else
      let id := valueId h value
      if id = kUnmappable then flatNoNullsLoop (analyzeValue h value) d rest false result
      else flatNoNullsLoop h d rest true (Function.update result r (applyMult h (result r) id))

/-- Translation of `VectorHasher::makeValueIdsFlatNoNulls` (VectorHasher.cpp
lines 179-207): the range fast path when `isRange_`, else the scalar loop. -/
def makeValueIdsFlatNoNulls (h : Hasher) (d : Decoded) (rows : List Nat) (result : Nat → Nat) :
    Hasher × (Nat → Nat) × Bool :=
  if h.isRange_ then
    match tryMapToRange h d rows result with
    | (res, true) => (h, res, true)
    | (_, false) => flatNoNullsLoop h d rows true result
  else flatNoNullsLoop h d rows true result

/-- Translation of `VectorHasher::makeValueIdsFlatWithNulls` (VectorHasher.cpp
lines 209-240): nulls write id 0 when the multiplier is 1 and are skipped
otherwise; the non-null handling matches the no-nulls scalar loop. -/
def flatWithNullsLoop (h : Hasher) (d : Decoded) (rows : List Nat) (success : Bool)
    (result : Nat → Nat) : Hasher × (Nat → Nat) × Bool :=
  match rows with
  | [] => (h, result, success)
  | r :: rest =>
    if d.isNullAt r then
      let res := if h.multiplier_ = 1 then Function.update result r 0 else result
      flatWithNullsLoop h d rest success res
    else
      let value := d.baseAt r
      if success = false then flatWithNullsLoop (analyzeValue h value) d rest false result
      else
        let id := valueId h value
        if id = kUnmappable then flatWithNullsLoop (analyzeValue h value) d rest false result
        else flatWithNullsLoop h d rest true (Function.update result r (applyMult h (result r) id))

/-- Translation of `VectorHasher::makeValueIdsDecoded` (VectorHasher.cpp
lines 242-284): ids of base entries are cached under the base index with
sentinel 0; cache misses consult `valueId` and analyze on failure, cache hits
write the cached id directly. -/
def decodedLoop (h : Hasher) (d : Decoded) (mayNulls : Bool) (rows : List Nat) (success : Bool)
    (cache : Nat → Nat) (result : Nat → Nat) : Hasher × (Nat → Nat) × Bool :=
  match rows with
  | [] => (h, result, success)
  | r :: rest =>
    if mayNulls && d.isNullAt r then
      let res := if h.multiplier_ = 1 then Function.update result r 0 else result
      decodedLoop h d mayNulls rest success cache res
    else
      let b := d.index r
      let id0 := cache b
      if id0 = 0 then
        let value := d.baseAt b
        if success = false then decodedLoop (analyzeValue h value) d mayNulls rest false cache result
        else
          let id := valueId h value
          if id = kUnmappable then
            decodedLoop (analyzeValue h value) d mayNulls rest false cache result
          else
            decodedLoop h d mayNulls rest true (Function.update cache b id)
              (Function.update result r (applyMult h (result r) id))
      else decodedLoop h d mayNulls rest success cache
        (Function.update result r (applyMult h (result r) id0))

/-- Entry of the decoded (dictionary) path with a fresh zero-filled cache. -/
def makeValueIdsDecoded (h : Hasher) (d : Decoded) (rows : List Nat) (result : Nat → Nat) :
    Hasher × (Nat → Nat) × Bool :=
  decodedLoop h d d.mayHaveNulls rows true (fun _ => 0) result

/-- Translation of `VectorHasher::makeValueIds` (VectorHasher.cpp lines
111-144) for the non-BOOLEAN kinds: dispatch on the decoded view's mapping
(the bit-packed BOOLEAN specializations of the source are not modelled). -/
def makeValueIds (h : Hasher) (d : Decoded) (rows : List Nat) (result : Nat → Nat) :
    Hasher × (Nat → Nat) × Bool :=
  if d.constantMapping then makeValueIdsConstant h d rows result
  else if d.identityMapping then
    if d.mayHaveNulls then flatWithNullsLoop h d rows true result
    else makeValueIdsFlatNoNulls h d rows result
  else makeValueIdsDecoded h d rows result

/-- Translation of `VectorHasher::computeValueIds` (VectorHasher.cpp lines
323-329); the decode step belongs to the out-of-scope vector layer, so the
model consumes the decoded view directly. -/
def computeValueIds (h : Hasher) (d : Decoded) (rows : List Nat) (result : Nat → Nat) :
    Hasher × (Nat → Nat) × Bool :=
  makeValueIds h d rows result

/-- Translation of `VectorHasher::enableValueRange` (VectorHasher.cpp lines
595-620): halve the reserve, pad `min`/`max` by it saturating at the `i64`
extremes, set `rangeSize_ = (max_ - min_) + 2` (64-bit arithmetic, the
subtraction is not overflow-checked in the source), and return
`multiplier * rangeSize_` or `kRangeTooLarge` if that product overflows.
The source `VELOX_CHECK(hasRange_)` precondition appears as a hypothesis of
the theorems. -/
def enableValueRange (h : Hasher) (multiplier : Nat) (reserve : Int) : Hasher × Nat :=
  let reserve2 := Int.tdiv reserve 2
  let h1 := { h with multiplier_ := multiplier }
  let h2 :=
    if i64Min + reserve2 + 1 > h1.min_ then { h1 with min_ := i64Min }
    else { h1 with min_ := h1.min_ - reserve2 }
  let h3 :=
    if i64Max - reserve2 < h2.max_ then { h2 with max_ := i64Max }
    else { h2 with max_ := h2.max_ + reserve2 }
  let h4 := { h3 with isRange_ := true, rangeSize_ := u64wrap (h3.max_ - h3.min_ + 2) }
  if h4.multiplier_ * h4.rangeSize_ ≥ 2 ^ 64 then (h4, kRangeTooLarge)
  else (h4, h4.multiplier_ * h4.rangeSize_)

/-- Detection of `__builtin_sub_overflow` on two `int64_t` operands. -/
def subOverflows (a b : Int) : Bool :=
  decide (a - b < i64Min) || decide (a - b > i64Max)

/-- Translation of `VectorHasher::cardinality` (VectorHasher.cpp lines
555-582), returning the possibly updated hasher together with `asRange` and
`asDistincts`. -/
def cardinality (h : Hasher) : Hasher × Nat × Nat :=
  if h.typeKind_ = TypeKind.boolean then
    ({ h with hasRange_ := true }, 3, 3)
  else
    let p :=
      if !h.hasRange_ || h.rangeOverflow_ then (h, kRangeTooLarge)
      else if subOverflows h.max_ h.min_ then ({ h with rangeOverflow_ := true }, kRangeTooLarge)
      else if h.max_ - h.min_ < kMaxRange then (h, u64wrap (h.max_ - h.min_ + 2))
      else ({ h with rangeOverflow_ := true }, kRangeTooLarge)
    if p.1.distinctOverflow_ then (p.1, p.2, kRangeTooLarge)
    else (p.1, p.2, p.1.uniqueValues_.length + 1)

/-- Insertion step of `VectorHasher::merge` (VectorHasher.cpp lines 637-643):
a foreign value gets the candidate id `|uniqueValues_| + 1` and is inserted
only if its logical value is absent. -/
def insertForMerge (t : List UniqueValue) (v : VHValue) : List UniqueValue :=
  if containsValue t v then t else t ++ [{ value := v, id := t.length + 1 }]

/-- Range block of `VectorHasher::merge` (VectorHasher.cpp lines 626-633):
combine the envelopes when both sides are valid, otherwise flag overflow. -/
def mergeRangeStep (h other : Hasher) : Hasher :=
  if h.hasRange_ && other.hasRange_ && !h.rangeOverflow_ && !other.rangeOverflow_ then
    { h with min_ := min h.min_ other.min_, max_ := max h.max_ other.max_ }
  else { h with hasRange_ := false, rangeOverflow_ := true }

/-- Distinct block of `VectorHasher::merge` (VectorHasher.cpp lines 634-646):
fold the foreign entries into the local table when neither side overflowed,
otherwise flag overflow. -/
def mergeDistinctStep (h other : Hasher) : Hasher :=
  if !h.distinctOverflow_ && !other.distinctOverflow_ then
    { h with
      uniqueValues_ := other.uniqueValues_.foldl (fun t u => insertForMerge t u.value)
        h.uniqueValues_ }
  else { h with distinctOverflow_ := true }

/-- Translation of `VectorHasher::merge` (VectorHasher.cpp lines 622-647). -/
def merge (h : Hasher) (other : Hasher) : Hasher :=
  if h.typeKind_ = TypeKind.boolean then h
  else mergeDistinctStep (mergeRangeStep h other) other

/-- Hasher obtained by analyzing a list of integer values in order. -/
def analyzeInts (h : Hasher) (ns : List Int) : Hasher :=
  ns.foldl analyzeValueInt h

/-- The concrete i32 batch of end-to-end scenario 1: values
`[10, 12, 11, null, 13]` as a flat (identity) vector with nulls. -/
def scenario1Decoded : Decoded :=
  { constantMapping := false
    identityMapping := true
    mayHaveNulls := true
    baseValues := [.int 10, .int 12, .int 11, .int 0, .int 13]
    indices := [0, 1, 2, 3, 4]
    nulls := [false, false, false, true, false] }

/-- Hasher of scenario 1 after analyzing the non-null values. -/
def scenario1Analyzed : Hasher :=
  analyzeInts (initHasher TypeKind.integer) [10, 12, 11, 13]

/-- Hasher and returned product of scenario 1 after `enable_value_range(1, 0)`. -/
def scenario1Enabled : Hasher × Nat :=
  enableValueRange scenario1Analyzed 1 0

/-- Contiguity of the 1-based ids stored in a distinct table. -/
def idsContiguous (t : List UniqueValue) : Prop :=
  ∀ i, i < t.length → (t.getD i ⟨.int 0, 0⟩).id = i + 1

/-- Hasher that has observed both `i64` extremes: the range envelope is the
whole `int64_t` domain with no overflow flag set. -/
def extremeHasher : Hasher :=
  analyzeInts (initHasher TypeKind.bigint) [i64Min, i64Max]

/-- Padded lower range bound of `enableValueRange`, saturating at `i64Min`. -/
def paddedMin (m reserve2 : Int) : Int :=
  if i64Min + reserve2 + 1 > m then i64Min else m - reserve2

/-- Padded upper range bound of `enableValueRange`, saturating at `i64Max`. -/
def paddedMax (m reserve2 : Int) : Int :=
  if i64Max - reserve2 < m then i64Max else m + reserve2

/-- Hasher A of merge scenario 5: observed `{7, 9}`. -/
def hasherA : Hasher := analyzeInts (initHasher TypeKind.bigint) [7, 9]

/-- Hasher B of merge scenario 5: observed `{9, 11}`. -/
def hasherB : Hasher := analyzeInts (initHasher TypeKind.bigint) [9, 11]

/-- Result of `A.merge(B)` in merge scenario 5. -/
def mergedAB : Hasher := merge hasherA hasherB

/-- Distinct-table fragment holding the integers `start, …, start + n - 1`
with ids `1, …, n`. -/
def rangeUVs (start n : Nat) : List UniqueValue :=
  (List.range n).map (fun i => { value := VHValue.int ((start + i : Nat) : Int), id := i + 1 })

/-- Hasher that has absorbed 6000 distinct integers `0..5999`. -/
def bulkHasherA : Hasher :=
  { initHasher TypeKind.bigint with
      hasRange_ := true, min_ := 0, max_ := 5999, uniqueValues_ := rangeUVs 0 6000 }

/-- Hasher that has absorbed 6000 distinct integers `6000..11999`. -/
def bulkHasherB : Hasher :=
  { initHasher TypeKind.bigint with
      hasRange_ := true, min_ := 6000, max_ := 11999, uniqueValues_ := rangeUVs 6000 6000 }

/-- Mix step of `hashValues`: `mix ? hashMix(old, h) : h`. -/
def mixOrSet (M : Nat → Nat → Nat) (mix : Bool) (old hv : Nat) : Nat :=
  if mix then M old hv else hv

/-- Dictionary path of `VectorHasher::hashValues` (VectorHasher.cpp lines
92-108): hashes of base entries are cached under the base index with
`kNullHash` as the uncached marker. -/
def hashDictLoop (H : VHValue → Nat) (M : Nat → Nat → Nat) (d : Decoded) (mix : Bool)
    (rows : List Nat) (cache : Nat → Nat) (result : Nat → Nat) : Nat → Nat :=
  match rows with
  | [] => result
  | r :: rest =>
    if d.isNullAt r then
      hashDictLoop H M d mix rest cache (Function.update result r (mixOrSet M mix (result r) kNullHash))
    else
      let b := d.index r
      let hv := cache b
      if hv = kNullHash then
        let hv2 := H (d.valueAt r)
        hashDictLoop H M d mix rest (Function.update cache b hv2)
          (Function.update result r (mixOrSet M mix (result r) hv2))
      else
        hashDictLoop H M d mix rest cache (Function.update result r (mixOrSet M mix (result r) hv))

/-- Translation of `VectorHasher::hashValues` (VectorHasher.cpp lines 70-109),
parametric in the scalar hash function `H` (`folly::hasher` via `hashOne`) and
the 64-bit combiner `M` (`bits::hashMix`), both external to the source slice:
constant views hash once and broadcast, identity views hash row by row
honoring nulls, dictionary views cache hashes per base index. -/
def hashValues (H : VHValue → Nat) (M : Nat → Nat → Nat) (d : Decoded) (rows : List Nat)
    (mix : Bool) (result : Nat → Nat) : Nat → Nat :=
  if d.constantMapping then
    let hv := if d.isNullAt (rows.headD 0) then kNullHash else H (d.valueAt (rows.headD 0))
    writeRows (fun _ old => mixOrSet M mix old hv) rows result
  else if d.identityMapping then
    writeRows (fun r old =>
      mixOrSet M mix old (if d.isNullAt r then kNullHash else H (d.valueAt r))) rows result
  else hashDictLoop H M d mix rows (fun _ => kNullHash) result

/-- Translation of the `VARCHAR` specialization of
`VectorHasher::makeValueIdsForRows` (VectorHasher.cpp lines 349-373).  A row
is modelled as an optional byte string (the null byte/mask test becomes the
`none` case, and `HashStringAllocator::contiguousString` materializes the
row's logical bytes, which the model holds directly).  On an unmappable value
the function returns `false` immediately. -/
def makeValueIdsForRowsVarcharLoop (h : Hasher) (groups : List (Option (List Nat))) (i : Nat)
    (result : Nat → Nat) : Hasher × (Nat → Nat) × Bool :=
  match groups with
  | [] => (h, result, true)
  | none :: rest =>
    let res := if h.multiplier_ = 1 then Function.update result i 0 else result
    makeValueIdsForRowsVarcharLoop h rest (i + 1) res
  | some s :: rest =>
    let id := valueId h (.str s)
    if id = kUnmappable then (h, result, false)
    else makeValueIdsForRowsVarcharLoop h rest (i + 1)
      (Function.update result i (applyMult h (result i) id))

/-- Entry point of the `VARCHAR` row-keyed value-id path, starting at row 0. -/
def makeValueIdsForRowsVarchar (h : Hasher) (groups : List (Option (List Nat)))
    (result : Nat → Nat) : Hasher × (Nat → Nat) × Bool :=
  makeValueIdsForRowsVarcharLoop h groups 0 result

/-- Expected packed-id write of one row-keyed value (`0` for null under
multiplier 1, untouched otherwise, `applyMult` of the looked-up id else). -/
def varcharRowSpec (h : Hasher) (g : Option (List Nat)) (old : Nat) : Nat :=
  match g with
  | none => if h.multiplier_ = 1 then 0 else old
  | some s => applyMult h old (valueId h (.str s))

/-- String hasher in distinct mode that has analyzed the single string
`[2, 2]`. -/
def strHasher : Hasher := analyzeValueStr (initHasher TypeKind.varchar) [2, 2]

/-- Integer hasher in range mode over `[10, 13]` (analysis of 10 and 13, then
`enable_value_range(1, 0)`); the value 11 is mappable but was never analyzed,
so it is absent from the distinct set. -/
def rangeHasher : Hasher := (enableValueRange (analyzeInts (initHasher TypeKind.integer) [10, 13]) 1 0).1

/-- Dictionary-encoded view with base `[11, 99]` and indices `[0, 1, 0]`
(logical values `11, 99, 11`, no nulls). -/
def dictView3 : Decoded :=
  { constantMapping := false
    identityMapping := false
    mayHaveNulls := false
    baseValues := [.int 11, .int 99]
    indices := [0, 1, 0]
    nulls := [false, false, false] }

/-- Flat view with the same logical values `11, 99, 11` as `dictView3`. -/
def flatView3 : Decoded :=
  { constantMapping := false
    identityMapping := true
    mayHaveNulls := false
    baseValues := [.int 11, .int 99, .int 11]
    indices := [0, 1, 2]
    nulls := [false, false, false] }

/-- Sequential analysis of a list of values (the state evolution of the
post-failure portions of the `makeValueIds` loops). -/
def foldAnalyze (h : Hasher) (vs : List VHValue) : Hasher :=
  vs.foldl analyzeValue h

/-- Invariant of the id cache of `makeValueIdsDecoded`: a nonzero entry holds
exactly the (mappable) id of its base value. -/
def CacheOK (h : Hasher) (d : Decoded) (cache : Nat → Nat) : Prop :=
  ∀ b, cache b ≠ 0 →
    cache b = valueId h (d.baseAt b) ∧ valueId h (d.baseAt b) ≠ kUnmappable

/-- Expected packed-id write of `compute_value_ids` on an all-mapped batch:
selected null rows hold 0 under multiplier 1 and are untouched otherwise,
selected non-null rows hold their accumulated id, unselected rows are
untouched. -/
def idWriteSpec (h : Hasher) (d : Decoded) (rows : List Nat) (res : Nat → Nat) (j : Nat) : Nat :=
  if j ∈ rows then
    if d.isNullAt j then (if h.multiplier_ = 1 then 0 else res j)
    else applyMult h (res j) (valueId h (d.valueAt j))
  else res j

/-- Expected hash write of `hashValues`: selected rows hold the (possibly
mixed) hash of their logical value, with `kNullHash` for nulls. -/
def hashWriteSpec (H : VHValue → Nat) (M : Nat → Nat → Nat) (d : Decoded) (mix : Bool)
    (rows : List Nat) (res : Nat → Nat) (j : Nat) : Nat :=
  if j ∈ rows then
    mixOrSet M mix (res j) (if d.isNullAt j then kNullHash else H (d.valueAt j))
  else res j

/-- Modelled from the spec: the caller's live selection (the consumed
`SelectivityVector` interface of spec section 6) — a bit per row plus the
`[begin, end)` bounds that `applyToSelected` iterates. -/
structure SelectivityVector where
  bits : List Bool
  beginRow : Nat
  endRow : Nat
deriving DecidableEq, Repr

/-- Bit of row `r` (`SelectivityVector::isValid`); rows beyond the bit
vector are invalid. -/
def SelectivityVector.isValid (s : SelectivityVector) (r : Nat) : Bool :=
  s.bits.getD r false

/-- The rows `applyToSelected` visits, in order: the valid rows inside
`[begin, end)`. -/
def SelectivityVector.selectedRows (s : SelectivityVector) : List Nat :=
  (List.range s.endRow).filter (fun r => decide (s.beginRow ≤ r) && s.isValid r)

/-- `SelectivityVector::setValid`: set one row's bit. -/
def SelectivityVector.setValid (s : SelectivityVector) (r : Nat) (v : Bool) :
    SelectivityVector :=
  { s with bits := s.bits.set r v }

/-- `SelectivityVector::clearAll`: drop every row and collapse the bounds. -/
def SelectivityVector.clearAll (s : SelectivityVector) : SelectivityVector :=
  { s with bits := List.replicate s.bits.length false, beginRow := 0, endRow := 0 }

/-- `SelectivityVector::updateBounds`: rebound `[begin, end)` to the tightest
window around the remaining valid bits. -/
def SelectivityVector.updateBounds (s : SelectivityVector) : SelectivityVector :=
  let l := (List.range s.bits.length).filter (fun r => s.isValid r)
  if l = [] then { s with beginRow := 0, endRow := 0 }
  else { s with beginRow := l.headD 0, endRow := l.getLastD 0 + 1 }

/-- Identity-mapping loop of `VectorHasher::lookupValueIdsTyped`
(VectorHasher.cpp lines 400-414): nulls write 0 under multiplier 1, a
`lookupValueId` miss clears the row's bit, a hit accumulates the id. -/
def lookupIdentityLoop (h : Hasher) (d : Decoded) (rows : List Nat) (s : SelectivityVector)
    (result : Nat → Nat) : SelectivityVector × (Nat → Nat) :=
  match rows with
  | [] => (s, result)
  | r :: rest =>
    if d.isNullAt r then
      lookupIdentityLoop h d rest s
        (if h.multiplier_ = 1 then Function.update result r 0 else result)
    else
      let id := lookupValueId h (d.valueAt r)
      if id = kUnmappable then lookupIdentityLoop h d rest (s.setValid r false) result
      else lookupIdentityLoop h d rest s
        (Function.update result r (applyMult h (result r) id))

/-- Dictionary loop of `VectorHasher::lookupValueIdsTyped` (VectorHasher.cpp
lines 419-438): looked-up ids are cached under the base index with sentinel
0; a miss clears the row's bit without touching the cache. -/
def lookupDecodedLoop (h : Hasher) (d : Decoded) (rows : List Nat) (s : SelectivityVector)
    (cache : Nat → Nat) (result : Nat → Nat) : SelectivityVector × (Nat → Nat) :=
  match rows with
  | [] => (s, result)
  | r :: rest =>
    if d.isNullAt r then
      lookupDecodedLoop h d rest s cache
        (if h.multiplier_ = 1 then Function.update result r 0 else result)
    else
      let b := d.index r
      if cache b = 0 then
        let id := lookupValueId h (d.valueAt r)
        if id = kUnmappable then lookupDecodedLoop h d rest (s.setValid r false) cache result
        else lookupDecodedLoop h d rest s (Function.update cache b id)
          (Function.update result r (applyMult h (result r) id))
      else
        lookupDecodedLoop h d rest s cache
          (Function.update result r (applyMult h (result r) (cache b)))

/-- Translation of `VectorHasher::lookupValueIdsTyped` (VectorHasher.cpp
lines 375-441).  The method is `const` in the source; the model threads the
hasher through unchanged to state that fact.  Constant views: a null
constant only zeroes the outputs under multiplier 1, an unmappable constant
clears the whole selection, a mapped one broadcasts its id; the identity and
dictionary loops clear the bit of each unmappable row and rebound the
selection afterwards. -/
def lookupValueIdsTyped (h : Hasher) (d : Decoded) (s : SelectivityVector)
    (result : Nat → Nat) : Hasher × SelectivityVector × (Nat → Nat) :=
  let rows := s.selectedRows
  if d.constantMapping then
    if d.isNullAt (rows.headD 0) then
      (h, s, if h.multiplier_ = 1 then writeRows (fun _ _ => 0) rows result else result)
    else
      let id := lookupValueId h (d.valueAt (rows.headD 0))
      if id = kUnmappable then (h, s.clearAll, result)
      else (h, s, writeRows (fun _ old => applyMult h old id) rows result)
  else if d.identityMapping then
    let p := lookupIdentityLoop h d rows s result
    (h, p.1.updateBounds, p.2)
  else
    let p := lookupDecodedLoop h d rows s (fun _ => 0) result
    (h, p.1.updateBounds, p.2)

/-- Integer hasher in range mode over `[10, 99]`: both 11 and 99 are
mappable, so `compute_value_ids` succeeds on the `11, 99, 11` views. -/
def wideHasher : Hasher :=
  (enableValueRange (analyzeInts (initHasher TypeKind.integer) [10, 99]) 1 0).1

/-- Probe-side flat view `[11, 200]` for the lookup scenario: 11 is inside
the `[10, 99]` domain of `wideHasher`, 200 is not. -/
def lookupView : Decoded :=
  { constantMapping := false
    identityMapping := true
    mayHaveNulls := false
    baseValues := [.int 11, .int 200]
    indices := [0, 1]
    nulls := [false, false] }

/-- Probe-side selection holding both rows of `lookupView`. -/
def lookupSel : SelectivityVector :=
  { bits := [true, true], beginRow := 0, endRow := 2 }

theorem mergeRangeStep_distinctOverflow (h other : Hasher) :
    (mergeRangeStep h other).distinctOverflow_ = h.distinctOverflow_ := by
  unfold mergeRangeStep
  split_ifs <;> rfl

theorem mergeRangeStep_uniqueValues (h other : Hasher) :
    (mergeRangeStep h other).uniqueValues_ = h.uniqueValues_ := by
  unfold mergeRangeStep
  split_ifs <;> rfl

theorem mergeRangeStep_valid {h other : Hasher} (ha : h.hasRange_ = true)
    (hb : other.hasRange_ = true) (hra : h.rangeOverflow_ = false)
    (hrb : other.rangeOverflow_ = false) :
    (mergeRangeStep h other).min_ = min h.min_ other.min_ ∧
    (mergeRangeStep h other).max_ = max h.max_ other.max_ := by
  unfold mergeRangeStep
  rw [ha, hb, hra, hrb]
  exact ⟨rfl, rfl⟩

theorem mergeDistinctStep_valid {h other : Hasher} (hda : h.distinctOverflow_ = false)
    (hdb : other.distinctOverflow_ = false) :
    mergeDistinctStep h other =
      { h with
        uniqueValues_ := other.uniqueValues_.foldl (fun t u => insertForMerge t u.value)
          h.uniqueValues_ } := by
  unfold mergeDistinctStep
  rw [hda, hdb]
  rfl

theorem mergeDistinctStep_min (h other : Hasher) :
    (mergeDistinctStep h other).min_ = h.min_ := by
  unfold mergeDistinctStep
  split_ifs <;> rfl

theorem mergeDistinctStep_max (h other : Hasher) :
    (mergeDistinctStep h other).max_ = h.max_ := by
  unfold mergeDistinctStep
  split_ifs <;> rfl

/-- C1: End-to-end integer range mode — for an i32 column with values
`[10, 12, 11, null, 13]` (all rows selected), analysis yields `min = 10` and
`max = 13`; `enable_value_range(1, 0)` sets `range_size = 5` and returns `5`;
`compute_value_ids` on the same batch writes `[1, 3, 2, 0, 4]` and returns
`true`; and `value_id(20)` returns `kUnmappable`. -/
theorem C1_integer_range_mode :
    scenario1Analyzed.min_ = 10 ∧ scenario1Analyzed.max_ = 13 ∧
    (scenario1Enabled.1.rangeSize_ = 5 ∧ scenario1Enabled.2 = 5) ∧
    (let out := computeValueIds scenario1Enabled.1 scenario1Decoded [0, 1, 2, 3, 4] fun _ => 0
     out.2.1 0 = 1 ∧ out.2.1 1 = 3 ∧ out.2.1 2 = 2 ∧ out.2.1 3 = 0 ∧ out.2.1 4 = 4 ∧
       out.2.2 = true) ∧
    valueId scenario1Enabled.1 (.int 20) = kUnmappable := by
  decide

/-! Basic lemmas about the embedded operations. -/

theorem u64wrap_eq_self {x : Int} (h0 : 0 ≤ x) (h1 : x < 2 ^ 64) : (u64wrap x : Int) = x := by
  unfold u64wrap
  rw [Int.emod_eq_of_lt h0 h1, Int.toNat_of_nonneg h0]

theorem containsValue_eq_true_iff {t : List UniqueValue} {v : VHValue} :
    containsValue t v = true ↔ ∃ u ∈ t, u.value = v := by
  unfold containsValue
  simp [List.any_eq_true]

theorem containsValue_append {t₁ t₂ : List UniqueValue} {v : VHValue} :
    containsValue (t₁ ++ t₂) v = (containsValue t₁ v || containsValue t₂ v) := by
  unfold containsValue
  simp [List.any_append]

theorem containsValue_insertForMerge_self (t : List UniqueValue) (v : VHValue) :
    containsValue (insertForMerge t v) v = true := by
  unfold insertForMerge
  by_cases hc : containsValue t v = true
  · simp [hc]
  · simp only [hc]
    simp only [Bool.false_eq_true, if_false, containsValue_append]
    apply Bool.or_eq_true_iff.mpr
    right
    simp [containsValue]

theorem containsValue_insertForMerge_mono {t : List UniqueValue} {v w : VHValue}
    (h : containsValue t v = true) : containsValue (insertForMerge t w) v = true := by
  unfold insertForMerge
  by_cases hc : containsValue t w = true
  · simp [hc, h]
  · simp only [hc, Bool.false_eq_true, if_false, containsValue_append, h, Bool.true_or]

theorem insertForMerge_of_contains {t : List UniqueValue} {v : VHValue}
    (hc : containsValue t v = true) : insertForMerge t v = t := by
  unfold insertForMerge
  simp [hc]

theorem insertForMerge_of_fresh {t : List UniqueValue} {v : VHValue}
    (hc : containsValue t v = false) :
    insertForMerge t v = t ++ [{ value := v, id := t.length + 1 }] := by
  unfold insertForMerge
  simp [hc]

/-- Folding merge insertions over a list only ever appends entries. -/
theorem foldl_insertForMerge_append (vs : List UniqueValue) (t : List UniqueValue) :
    ∃ ext, vs.foldl (fun acc u => insertForMerge acc u.value) t = t ++ ext := by
  induction vs generalizing t with
  | nil => exact ⟨[], by simp⟩
  | cons v rest ih =>
    simp only [List.foldl_cons]
    cases hc : containsValue t v.value with
    | true =>
      rw [insertForMerge_of_contains hc]
      exact ih t
    | false =>
      rw [insertForMerge_of_fresh hc]
      rcases ih (t ++ [{ value := v.value, id := t.length + 1 }]) with ⟨ext, hext⟩
      exact ⟨{ value := v.value, id := t.length + 1 } :: ext, by rw [hext]; simp⟩

theorem containsValue_foldl_insertForMerge_mono {t : List UniqueValue} {v : VHValue}
    (vs : List UniqueValue) (h : containsValue t v = true) :
    containsValue (vs.foldl (fun acc u => insertForMerge acc u.value) t) v = true := by
  induction vs generalizing t with
  | nil => simpa using h
  | cons w rest ih =>
    simp only [List.foldl_cons]
    exact ih (containsValue_insertForMerge_mono h)

theorem containsValue_foldl_insertForMerge_of_mem {vs : List UniqueValue} {u : UniqueValue}
    (t : List UniqueValue) (hu : u ∈ vs) :
    containsValue (vs.foldl (fun acc w => insertForMerge acc w.value) t) u.value = true := by
  induction vs generalizing t with
  | nil => cases hu
  | cons w rest ih =>
    simp only [List.foldl_cons]
    rcases List.mem_cons.mp hu with h | h
    · subst h
      exact containsValue_foldl_insertForMerge_mono rest (containsValue_insertForMerge_self t u.value)
    · exact ih (insertForMerge t w.value) h

theorem idsContiguous_insertForMerge {t : List UniqueValue} (v : VHValue)
    (h : idsContiguous t) : idsContiguous (insertForMerge t v) := by
  unfold insertForMerge
  by_cases hc : containsValue t v = true
  · simpa [hc] using h
  · simp only [hc, Bool.false_eq_true, if_false]
    intro i hi
    simp only [List.length_append, List.length_cons, List.length_nil] at hi
    rcases Nat.lt_or_ge i t.length with hlt | hge
    · rw [List.getD_append _ _ _ _ hlt]
      exact h i hlt
    · have : i = t.length := by omega
      subst this
      rw [List.getD_append_right _ _ _ _ hge]
      simp

theorem idsContiguous_foldl_insertForMerge {t : List UniqueValue}
    (vs : List UniqueValue) (h : idsContiguous t) :
    idsContiguous (vs.foldl (fun acc u => insertForMerge acc u.value) t) := by
  induction vs generalizing t with
  | nil => simpa using h
  | cons w rest ih =>
    simp only [List.foldl_cons]
    exact ih (idsContiguous_insertForMerge w.value h)

/-- Length of the merge fold when every foreign value is fresh and the
foreign values are pairwise distinct. -/
theorem foldl_insertForMerge_length {vs : List UniqueValue} (t : List UniqueValue)
    (hfresh : ∀ u ∈ vs, containsValue t u.value = false)
    (hnd : (vs.map UniqueValue.value).Nodup) :
    (vs.foldl (fun acc u => insertForMerge acc u.value) t).length = t.length + vs.length := by
  induction vs generalizing t with
  | nil => simp
  | cons v rest ih =>
    simp only [List.foldl_cons]
    have hc : containsValue t v.value = false := hfresh v (List.mem_cons_self v rest)
    have hins : insertForMerge t v.value = t ++ [{ value := v.value, id := t.length + 1 }] := by
      unfold insertForMerge
      simp [hc]
    rw [hins]
    simp only [List.map_cons, List.nodup_cons] at hnd
    have hfresh' : ∀ u ∈ rest, containsValue (t ++ [{ value := v.value, id := t.length + 1 }]) u.value = false := by
      intro u hu
      rw [containsValue_append]
      apply Bool.or_eq_false_iff.mpr
      constructor
      · exact hfresh u (List.mem_cons_of_mem v hu)
      · have hne : u.value ≠ v.value := by
          intro he
          exact hnd.1 (he ▸ List.mem_map_of_mem UniqueValue.value hu)
        simp [containsValue]
        exact fun he => hne he.symm
    have := ih (t ++ [{ value := v.value, id := t.length + 1 }]) hfresh' hnd.2
    rw [this]
    simp
    omega

/-! Claim C4 — `enable_value_range` arithmetic. -/

/-- C4 counterexample: the claim says every arithmetic step, including the
subtraction `max − min` after padding, is overflow-checked so that overflow
reports `kRangeTooLarge`.  On a hasher whose envelope is the full `i64`
domain (reachable by analyzing `INT64_MIN` and `INT64_MAX`, with
`range_overflow` still false), `enable_value_range(1, 0)` performs the
subtraction `max − min`, which overflows `i64` (it exceeds `i64Max`), yet the
call returns `1` — not `kRangeTooLarge` — with the wrapped `range_size = 1`. -/
theorem C4_counterexample :
    extremeHasher.hasRange_ = true ∧ extremeHasher.rangeOverflow_ = false ∧
    (enableValueRange extremeHasher 1 0).1.max_ - (enableValueRange extremeHasher 1 0).1.min_ >
      i64Max ∧
    (enableValueRange extremeHasher 1 0).1.rangeSize_ = 1 ∧
    (enableValueRange extremeHasher 1 0).2 = 1 ∧
    (enableValueRange extremeHasher 1 0).2 ≠ kRangeTooLarge := by
  decide

/-- Closed-form characterization of `enableValueRange`. -/
theorem enableValueRange_eq (h : Hasher) (multiplier : Nat) (reserve : Int) :
    enableValueRange h multiplier reserve =
      ({ h with
          min_ := paddedMin h.min_ (Int.tdiv reserve 2)
          max_ := paddedMax h.max_ (Int.tdiv reserve 2)
          isRange_ := true
          multiplier_ := multiplier
          rangeSize_ := u64wrap (paddedMax h.max_ (Int.tdiv reserve 2) -
            paddedMin h.min_ (Int.tdiv reserve 2) + 2) },
        if 2 ^ 64 ≤ multiplier * u64wrap (paddedMax h.max_ (Int.tdiv reserve 2) -
            paddedMin h.min_ (Int.tdiv reserve 2) + 2) then kRangeTooLarge
        else multiplier * u64wrap (paddedMax h.max_ (Int.tdiv reserve 2) -
            paddedMin h.min_ (Int.tdiv reserve 2) + 2)) := by
  simp only [enableValueRange, paddedMin, paddedMax]
  split_ifs <;> rfl

/-- C4 (amended): `enable_value_range` halves `reserve` and adds it below
`min` and above `max` saturating at the `i64` extremes, sets
`range_size = max − min + 2` interpreted in 64-bit arithmetic, and returns
`multiplier · range_size`, or `kRangeTooLarge` when the
multiplier-times-range product overflows a `u64`.  The subtraction
`max − min` after padding is not overflow-checked: `range_size` is exact
whenever the padded `max − min + 2` fits in `i64` (the source's assumption),
and wraps otherwise instead of reporting `kRangeTooLarge`. -/
theorem C4_enableValueRange_amended (h : Hasher) (multiplier : Nat) (reserve : Int)
    (hr : h.hasRange_ = true) (hres : 0 ≤ reserve)
    (hlo : i64Min ≤ h.min_) (hord : h.min_ ≤ h.max_) (hhi : h.max_ ≤ i64Max) :
    (enableValueRange h multiplier reserve).1.min_ = paddedMin h.min_ (Int.tdiv reserve 2) ∧
    (enableValueRange h multiplier reserve).1.max_ = paddedMax h.max_ (Int.tdiv reserve 2) ∧
    (enableValueRange h multiplier reserve).1.isRange_ = true ∧
    (enableValueRange h multiplier reserve).1.multiplier_ = multiplier ∧
    (enableValueRange h multiplier reserve).1.rangeSize_ =
      u64wrap (paddedMax h.max_ (Int.tdiv reserve 2) - paddedMin h.min_ (Int.tdiv reserve 2) + 2) ∧
    (paddedMax h.max_ (Int.tdiv reserve 2) - paddedMin h.min_ (Int.tdiv reserve 2) + 2 ≤ i64Max →
      ((enableValueRange h multiplier reserve).1.rangeSize_ : Int) =
        paddedMax h.max_ (Int.tdiv reserve 2) - paddedMin h.min_ (Int.tdiv reserve 2) + 2) ∧
    (2 ^ 64 ≤ multiplier * (enableValueRange h multiplier reserve).1.rangeSize_ →
      (enableValueRange h multiplier reserve).2 = kRangeTooLarge) ∧
    (multiplier * (enableValueRange h multiplier reserve).1.rangeSize_ < 2 ^ 64 →
      (enableValueRange h multiplier reserve).2 =
        multiplier * (enableValueRange h multiplier reserve).1.rangeSize_) := by
  have hd2 : 0 ≤ Int.tdiv reserve 2 := Int.tdiv_nonneg hres (by norm_num)
  have hlo' : i64Min ≤ paddedMin h.min_ (Int.tdiv reserve 2) := by
    unfold paddedMin
    split <;> omega
  have hord' : paddedMin h.min_ (Int.tdiv reserve 2) ≤ paddedMax h.max_ (Int.tdiv reserve 2) := by
    unfold paddedMin paddedMax
    unfold i64Min i64Max at *
    split <;> split <;> omega
  have hhi' : paddedMax h.max_ (Int.tdiv reserve 2) ≤ i64Max := by
    unfold paddedMax
    split <;> omega
  rw [enableValueRange_eq]
  refine ⟨rfl, rfl, rfl, rfl, rfl, ?_, ?_, ?_⟩
  · intro hfit
    exact u64wrap_eq_self (by omega) (by unfold i64Max at *; omega)
  · intro hge
    simp only [] at hge ⊢
    rw [if_pos hge]
  · intro hlt
    simp only [] at hlt ⊢
    rw [if_neg (by omega)]

/-- C4 witness: the amended theorem applied to the scenario-1 hasher
(`min = 10`, `max = 13`) with multiplier 1 and reserve 0. -/
theorem C4_enableValueRange_amended_witness :
    ((enableValueRange scenario1Analyzed 1 0).1.rangeSize_ : Int) =
      (enableValueRange scenario1Analyzed 1 0).1.max_ -
        (enableValueRange scenario1Analyzed 1 0).1.min_ + 2 ∧
    (enableValueRange scenario1Analyzed 1 0).2 =
      1 * (enableValueRange scenario1Analyzed 1 0).1.rangeSize_ := by
  have h := C4_enableValueRange_amended scenario1Analyzed 1 0 (by decide) (by decide)
    (by decide) (by decide) (by decide)
  exact ⟨h.2.2.2.2.2.1 (by decide), h.2.2.2.2.2.2.2 (by decide)⟩

/-! Claim C5 — `cardinality`. -/

/-- Closed form of the `asRange` component of `cardinality` for non-BOOLEAN
hashers. -/
theorem cardinality_asRange_eq (h : Hasher) (hk : h.typeKind_ ≠ TypeKind.boolean) :
    (cardinality h).2.1 =
      if !h.hasRange_ || h.rangeOverflow_ then kRangeTooLarge
      else if subOverflows h.max_ h.min_ then kRangeTooLarge
      else if h.max_ - h.min_ < kMaxRange then u64wrap (h.max_ - h.min_ + 2)
      else kRangeTooLarge := by
  simp only [cardinality, if_neg hk]
  split_ifs <;> rfl

/-- Closed form of the `asDistincts` component of `cardinality` for
non-BOOLEAN hashers. -/
theorem cardinality_asDistincts_eq (h : Hasher) (hk : h.typeKind_ ≠ TypeKind.boolean) :
    (cardinality h).2.2 =
      if h.distinctOverflow_ then kRangeTooLarge else h.uniqueValues_.length + 1 := by
  simp only [cardinality, if_neg hk]
  split_ifs <;> simp_all

/-- C5: `cardinality(asRange, asDistincts)` reports: for BOOLEAN,
`asRange = asDistincts = 3` and `has_range` is set; otherwise
`asRange = kRangeTooLarge` when `!has_range` or `range_overflow` or when
`max − min` overflows `i64` or is at least `kMaxRange`, else
`asRange = (max − min) + 2`; and `asDistincts = kRangeTooLarge` when
`distinct_overflow`, else `|unique_values| + 1`. -/
theorem C5_cardinality (h : Hasher) :
    (h.typeKind_ = TypeKind.boolean →
      (cardinality h).2.1 = 3 ∧ (cardinality h).2.2 = 3 ∧ (cardinality h).1.hasRange_ = true) ∧
    (h.typeKind_ ≠ TypeKind.boolean →
      ((h.hasRange_ = false ∨ h.rangeOverflow_ = true ∨ subOverflows h.max_ h.min_ = true ∨
          kMaxRange ≤ h.max_ - h.min_) → (cardinality h).2.1 = kRangeTooLarge) ∧
      (h.hasRange_ = true → h.rangeOverflow_ = false → h.min_ ≤ h.max_ →
        h.max_ - h.min_ < kMaxRange →
        ((cardinality h).2.1 : Int) = (h.max_ - h.min_) + 2) ∧
      (h.distinctOverflow_ = true → (cardinality h).2.2 = kRangeTooLarge) ∧
      (h.distinctOverflow_ = false → (cardinality h).2.2 = h.uniqueValues_.length + 1)) := by
  constructor
  · intro hk
    simp [cardinality, if_pos hk]
  · intro hk
    refine ⟨?_, ?_, ?_, ?_⟩
    · intro hc
      rw [cardinality_asRange_eq h hk]
      rcases hc with hc | hc | hc | hc
      · simp [hc]
      · simp [hc]
      · by_cases hb : (!h.hasRange_ || h.rangeOverflow_) = true
        · simp [hb]
        · simp only [Bool.not_eq_true] at hb
          simp [hb, hc]
      · by_cases hb : (!h.hasRange_ || h.rangeOverflow_) = true
        · simp [hb]
        · simp only [Bool.not_eq_true] at hb
          by_cases hs : subOverflows h.max_ h.min_ = true
          · simp [hb, hs]
          · simp only [Bool.not_eq_true] at hs
            simp [hb, hs, not_lt.mpr hc]
    · intro h1 h2 h3 h4
      have hso : subOverflows h.max_ h.min_ = false := by
        unfold subOverflows
        unfold kMaxRange at h4
        unfold i64Min i64Max
        simp only [Bool.or_eq_false_iff, decide_eq_false_iff_not]
        omega
      rw [cardinality_asRange_eq h hk]
      rw [h1, h2]
      simp only [Bool.not_true, Bool.false_or, Bool.false_eq_true, if_false, hso,
        if_pos h4]
      exact u64wrap_eq_self (by omega) (by unfold kMaxRange at h4; omega)
    · intro hd
      rw [cardinality_asDistincts_eq h hk, hd]
      rfl
    · intro hd
      rw [cardinality_asDistincts_eq h hk, hd]
      rfl

/-- C5 witness: `cardinality` on the scenario-1 hasher (i32 column,
`min = 10`, `max = 13`, 4 distinct values, no overflow). -/
theorem C5_cardinality_witness :
    ((cardinality scenario1Analyzed).2.1 : Int) =
      (scenario1Analyzed.max_ - scenario1Analyzed.min_) + 2 ∧
    (cardinality scenario1Analyzed).2.2 = scenario1Analyzed.uniqueValues_.length + 1 := by
  have h := (C5_cardinality scenario1Analyzed).2 (by decide)
  exact ⟨h.2.1 (by decide) (by decide) (by decide) (by decide), h.2.2.2 (by decide)⟩

/-! Claim C6 — `merge`. -/

/-- C6: `merge(other)` on a non-BOOLEAN hasher with both sides holding a
valid range combines the envelopes by min/max; with no distinct overflow on
either side every foreign entry absent from the local set is inserted with a
freshly assigned contiguous id at the end of the existing id range;
concretely, for A having observed `{7, 9}` and B `{9, 11}`, after
`A.merge(B)` the range is `[7, 11]` and the distinct set is `{7, 9, 11}`
with contiguous ids 1, 2, 3. -/
theorem C6_merge :
    (∀ a b : Hasher, a.typeKind_ ≠ TypeKind.boolean →
      ((a.hasRange_ = true ∧ b.hasRange_ = true ∧ a.rangeOverflow_ = false ∧
          b.rangeOverflow_ = false) →
        (merge a b).min_ = min a.min_ b.min_ ∧ (merge a b).max_ = max a.max_ b.max_) ∧
      ((a.distinctOverflow_ = false ∧ b.distinctOverflow_ = false) →
        (merge a b).distinctOverflow_ = false ∧
        (merge a b).uniqueValues_.take a.uniqueValues_.length = a.uniqueValues_ ∧
        (∀ u ∈ b.uniqueValues_, containsValue (merge a b).uniqueValues_ u.value = true) ∧
        (idsContiguous a.uniqueValues_ → idsContiguous (merge a b).uniqueValues_))) ∧
    (mergedAB.min_ = 7 ∧ mergedAB.max_ = 11 ∧
      mergedAB.uniqueValues_ =
        [{ value := .int 7, id := 1 }, { value := .int 9, id := 2 },
          { value := .int 11, id := 3 }]) := by
  constructor
  · intro a b hk
    constructor
    · rintro ⟨ha, hb, hra, hrb⟩
      have hv := @mergeRangeStep_valid a b ha hb hra hrb
      simp only [merge, if_neg hk, mergeDistinctStep_min, mergeDistinctStep_max]
      exact hv
    · rintro ⟨hda, hdb⟩
      have hd1 : (mergeRangeStep a b).distinctOverflow_ = false := by
        rw [mergeRangeStep_distinctOverflow]
        exact hda
      have key : (merge a b).distinctOverflow_ = false ∧
          (merge a b).uniqueValues_ =
            b.uniqueValues_.foldl (fun t u => insertForMerge t u.value) a.uniqueValues_ := by
        simp only [merge, if_neg hk, mergeDistinctStep_valid hd1 hdb]
        exact ⟨hd1, by rw [mergeRangeStep_uniqueValues]⟩
      refine ⟨key.1, ?_, ?_, ?_⟩
      · rw [key.2]
        rcases foldl_insertForMerge_append b.uniqueValues_ a.uniqueValues_ with ⟨ext, hext⟩
        rw [hext]
        exact List.take_left a.uniqueValues_ ext
      · intro u hu
        rw [key.2]
        exact containsValue_foldl_insertForMerge_of_mem a.uniqueValues_ hu
      · intro hids
        rw [key.2]
        exact idsContiguous_foldl_insertForMerge b.uniqueValues_ hids
  · decide

/-- C6 witness: the general part of the merge theorem applied to the
concrete scenario hashers. -/
theorem C6_merge_witness :
    (merge hasherA hasherB).min_ = min hasherA.min_ hasherB.min_ ∧
    (merge hasherA hasherB).distinctOverflow_ = false ∧
    (∀ u ∈ hasherB.uniqueValues_,
      containsValue (merge hasherA hasherB).uniqueValues_ u.value = true) := by
  have h := C6_merge.1 hasherA hasherB (by decide)
  exact ⟨(h.1 ⟨by decide, by decide, by decide, by decide⟩).1,
    (h.2 ⟨by decide, by decide⟩).1, (h.2 ⟨by decide, by decide⟩).2.2.1⟩

/-! Claim C10 — the distinct budget is not re-checked by `merge`. -/

theorem length_rangeUVs (start n : Nat) : (rangeUVs start n).length = n := by
  simp [rangeUVs]

theorem mem_rangeUVs {s n : Nat} {u : UniqueValue} (hu : u ∈ rangeUVs s n) :
    ∃ i, i < n ∧ u.value = VHValue.int ((s + i : Nat) : Int) := by
  simp only [rangeUVs, List.mem_map, List.mem_range] at hu
  rcases hu with ⟨i, hi, rfl⟩
  exact ⟨i, hi, rfl⟩

theorem rangeUVs_values_nodup (s n : Nat) : ((rangeUVs s n).map UniqueValue.value).Nodup := by
  unfold rangeUVs
  rw [List.map_map]
  apply List.Nodup.map
  · intro i j hij
    simp only [Function.comp] at hij
    have : ((s + i : Nat) : Int) = ((s + j : Nat) : Int) := by
      injection hij
    omega
  · exact List.nodup_range n

/-- C10: merging two hashers that each have `distinct_overflow = false` never
sets `distinct_overflow`, regardless of the size of the merged distinct set;
in particular two hashers with disjoint distinct sets of 6000 entries each
merge into a set of 12000 > `kMaxDistinct` entries with `distinct_overflow`
still false — the `kMaxDistinct` budget enforced by `analyze_value` is not
re-checked by `merge`. -/
theorem C10_merge_budget_not_rechecked :
    (∀ a b : Hasher, a.typeKind_ ≠ TypeKind.boolean → a.distinctOverflow_ = false →
      b.distinctOverflow_ = false → (merge a b).distinctOverflow_ = false) ∧
    (bulkHasherA.distinctOverflow_ = false ∧ bulkHasherB.distinctOverflow_ = false ∧
      (merge bulkHasherA bulkHasherB).distinctOverflow_ = false ∧
      kMaxDistinct < (merge bulkHasherA bulkHasherB).uniqueValues_.length) := by
  have hgen : ∀ a b : Hasher, a.typeKind_ ≠ TypeKind.boolean → a.distinctOverflow_ = false →
      b.distinctOverflow_ = false → (merge a b).distinctOverflow_ = false := by
    intro a b hk hda hdb
    have hd1 : (mergeRangeStep a b).distinctOverflow_ = false := by
      rw [mergeRangeStep_distinctOverflow]
      exact hda
    simp only [merge, if_neg hk, mergeDistinctStep_valid hd1 hdb]
    exact hd1
  have hba : bulkHasherA.distinctOverflow_ = false := rfl
  have hbb : bulkHasherB.distinctOverflow_ = false := rfl
  have hbk : bulkHasherA.typeKind_ ≠ TypeKind.boolean := by
    intro hc
    exact TypeKind.noConfusion hc
  refine ⟨hgen, hba, hbb, hgen _ _ hbk hba hbb, ?_⟩
  have hd1 : (mergeRangeStep bulkHasherA bulkHasherB).distinctOverflow_ = false := by
    rw [mergeRangeStep_distinctOverflow]
    exact hba
  have huvA : bulkHasherA.uniqueValues_ = rangeUVs 0 6000 := by
    unfold bulkHasherA
    rfl
  have huvB : bulkHasherB.uniqueValues_ = rangeUVs 6000 6000 := by
    unfold bulkHasherB
    rfl
  have huv : (merge bulkHasherA bulkHasherB).uniqueValues_ =
      (rangeUVs 6000 6000).foldl (fun t u => insertForMerge t u.value) (rangeUVs 0 6000) := by
    simp only [merge, if_neg hbk, mergeDistinctStep_valid hd1 hbb]
    rw [mergeRangeStep_uniqueValues, huvA, huvB]
  rw [huv]
  have hfresh : ∀ u ∈ rangeUVs 6000 6000,
      containsValue (rangeUVs 0 6000) u.value = false := by
    intro u hu
    rcases mem_rangeUVs hu with ⟨i, hi, hv⟩
    cases hcv : containsValue (rangeUVs 0 6000) u.value with
    | false => rfl
    | true =>
      exfalso
      rcases containsValue_eq_true_iff.mp hcv with ⟨w, hw, hwv⟩
      rcases mem_rangeUVs hw with ⟨j, hj, hjv⟩
      rw [hjv, hv] at hwv
      have : ((0 + j : Nat) : Int) = ((6000 + i : Nat) : Int) := by injection hwv
      omega
  rw [foldl_insertForMerge_length (rangeUVs 0 6000) hfresh
    (rangeUVs_values_nodup 6000 6000)]
  rw [length_rangeUVs, length_rangeUVs]
  decide

/-- C10 witness: the general no-overflow conjunct applied to two fresh
bigint hashers. -/
theorem C10_merge_budget_not_rechecked_witness :
    (merge (initHasher TypeKind.bigint) (initHasher TypeKind.bigint)).distinctOverflow_ =
      false :=
  C10_merge_budget_not_rechecked.1 _ _ (by decide) rfl rfl

/-! Pointwise behavior of the generic row-writer. -/

theorem writeRows_eq (f : Nat → Nat → Nat) {rows : List Nat} (result : Nat → Nat)
    (hnd : rows.Nodup) (j : Nat) :
    writeRows f rows result j = if j ∈ rows then f j (result j) else result j := by
  induction rows generalizing result with
  | nil => simp [writeRows]
  | cons r rest ih =>
    simp only [writeRows]
    rcases List.nodup_cons.mp hnd with ⟨hr, hnd'⟩
    rw [ih _ hnd']
    by_cases hj : j ∈ rest
    · have hjr : j ≠ r := fun he => hr (he ▸ hj)
      simp [hj, hjr, Function.update_noteq hjr, List.mem_cons]
    · by_cases hjr : j = r
      · subst hjr
        simp [hj, Function.update_same, List.mem_cons]
      · simp [hj, hjr, Function.update_noteq hjr, List.mem_cons]

/-! Field-preservation lemmas for the analysis operations. -/

theorem updateRange_uv (h : Hasher) (n : Int) :
    (updateRange h n).uniqueValues_ = h.uniqueValues_ := by
  unfold updateRange
  split_ifs <;> rfl

theorem updateRange_dov (h : Hasher) (n : Int) :
    (updateRange h n).distinctOverflow_ = h.distinctOverflow_ := by
  unfold updateRange
  split_ifs <;> rfl

theorem updateRange_multiplier (h : Hasher) (n : Int) :
    (updateRange h n).multiplier_ = h.multiplier_ := by
  unfold updateRange
  split_ifs <;> rfl

theorem copyStringToLocal_uv (h : Hasher) (size : Nat) :
    (copyStringToLocal h size).uniqueValues_ = h.uniqueValues_ := by
  simp only [copyStringToLocal]
  split_ifs <;> rfl

theorem copyStringToLocal_multiplier (h : Hasher) (size : Nat) :
    (copyStringToLocal h size).multiplier_ = h.multiplier_ := by
  simp only [copyStringToLocal]
  split_ifs <;> rfl

theorem copyStringToLocal_dov_of_false (h : Hasher) (size : Nat)
    (hf : (copyStringToLocal h size).distinctOverflow_ = false) :
    h.distinctOverflow_ = false := by
  revert hf
  simp only [copyStringToLocal]
  split_ifs <;> intro hf <;> simpa using hf

theorem insertDistinct_uv_append (h : Hasher) (v : VHValue) :
    ∃ ext, (insertDistinct h v).uniqueValues_ = h.uniqueValues_ ++ ext := by
  simp only [insertDistinct]
  split_ifs
  · exact ⟨[], by simp⟩
  · exact ⟨[{ value := v, id := h.uniqueValues_.length + 1 }], rfl⟩
  · exact ⟨[{ value := v, id := h.uniqueValues_.length + 1 }], rfl⟩
  · exact ⟨[], by simp⟩

theorem insertDistinct_multiplier (h : Hasher) (v : VHValue) :
    (insertDistinct h v).multiplier_ = h.multiplier_ := by
  simp only [insertDistinct]
  split_ifs <;> rfl

theorem insertDistinct_dov_of_false {h : Hasher} {v : VHValue}
    (hf : (insertDistinct h v).distinctOverflow_ = false) :
    h.distinctOverflow_ = false := by
  revert hf
  simp only [insertDistinct]
  split_ifs with h1 h2 h3 <;> intro hf
  · simpa using h1
  · simpa using h1
  · simpa using h1
  · simpa using hf

theorem insertDistinct_contains_self {h : Hasher} {v : VHValue}
    (hf : (insertDistinct h v).distinctOverflow_ = false) :
    containsValue (insertDistinct h v).uniqueValues_ v = true := by
  revert hf
  simp only [insertDistinct]
  split_ifs with h1 h2 h3 <;> intro hf
  · exact h2
  · simpa using hf
  · rw [containsValue_append]
    apply Bool.or_eq_true_iff.mpr
    right
    simp [containsValue]
  · simp only [Bool.not_eq_true'] at h1
    exact absurd hf h1

theorem insertDistinctStr_uv_append (h : Hasher) (s : List Nat) :
    ∃ ext, (insertDistinctStr h s).uniqueValues_ = h.uniqueValues_ ++ ext := by
  simp only [insertDistinctStr]
  split_ifs
  · exact ⟨[], by simp⟩
  · exact ⟨[{ value := .str s, id := h.uniqueValues_.length + 1 }], rfl⟩
  · refine ⟨[{ value := .str s, id := h.uniqueValues_.length + 1 }], ?_⟩
    rw [copyStringToLocal_uv]
  · exact ⟨[], by simp⟩

theorem insertDistinctStr_multiplier (h : Hasher) (s : List Nat) :
    (insertDistinctStr h s).multiplier_ = h.multiplier_ := by
  simp only [insertDistinctStr]
  split_ifs
  · rfl
  · rfl
  · rw [copyStringToLocal_multiplier]
  · rfl

theorem insertDistinctStr_dov_of_false {h : Hasher} {s : List Nat}
    (hf : (insertDistinctStr h s).distinctOverflow_ = false) :
    h.distinctOverflow_ = false := by
  revert hf
  simp only [insertDistinctStr]
  split_ifs with h1 h2 h3 <;> intro hf
  · simpa using h1
  · simpa using h1
  · simpa using h1
  · simpa using hf

theorem insertDistinctStr_contains_self {h : Hasher} {s : List Nat}
    (hf : (insertDistinctStr h s).distinctOverflow_ = false) :
    containsValue (insertDistinctStr h s).uniqueValues_ (.str s) = true := by
  revert hf
  simp only [insertDistinctStr]
  split_ifs with h1 h2 h3 <;> intro hf
  · exact h2
  · simpa using hf
  · rw [copyStringToLocal_uv, containsValue_append]
    apply Bool.or_eq_true_iff.mpr
    right
    simp [containsValue]
  · simp only [Bool.not_eq_true'] at h1
    exact absurd hf h1

theorem analyzeValue_uv_append (h : Hasher) (v : VHValue) :
    ∃ ext, (analyzeValue h v).uniqueValues_ = h.uniqueValues_ ++ ext := by
  cases v with
  | int n =>
    unfold analyzeValue analyzeValueInt
    rcases insertDistinct_uv_append (if !h.rangeOverflow_ then updateRange h n else h)
      (.int n) with ⟨ext, hext⟩
    refine ⟨ext, ?_⟩
    rw [hext]
    congr 1
    split_ifs
    · rw [updateRange_uv]
    · rfl
  | str s =>
    unfold analyzeValue analyzeValueStr
    rcases insertDistinctStr_uv_append
      (if !h.rangeOverflow_ then
        if s.length > kStringASRangeMaxSize then { h with rangeOverflow_ := true }
        else updateRange h (stringAsNumber s)
      else h) s with ⟨ext, hext⟩
    refine ⟨ext, ?_⟩
    rw [hext]
    congr 1
    split_ifs
    · rfl
    · rw [updateRange_uv]
    · rfl

theorem analyzeValue_contains_mono {h : Hasher} {v : VHValue} (w : VHValue)
    (hc : containsValue h.uniqueValues_ v = true) :
    containsValue (analyzeValue h w).uniqueValues_ v = true := by
  rcases analyzeValue_uv_append h w with ⟨ext, hext⟩
  rw [hext, containsValue_append, hc]
  rfl

theorem analyzeValue_multiplier (h : Hasher) (v : VHValue) :
    (analyzeValue h v).multiplier_ = h.multiplier_ := by
  cases v with
  | int n =>
    unfold analyzeValue analyzeValueInt
    rw [insertDistinct_multiplier]
    split_ifs
    · rw [updateRange_multiplier]
    · rfl
  | str s =>
    unfold analyzeValue analyzeValueStr
    rw [insertDistinctStr_multiplier]
    split_ifs
    · rfl
    · rw [updateRange_multiplier]
    · rfl

theorem analyzeValue_dov_of_false {h : Hasher} {v : VHValue}
    (hf : (analyzeValue h v).distinctOverflow_ = false) :
    h.distinctOverflow_ = false := by
  cases v with
  | int n =>
    unfold analyzeValue analyzeValueInt at hf
    have := insertDistinct_dov_of_false hf
    revert this
    split_ifs
    · rw [updateRange_dov]
      exact id
    · exact id
  | str s =>
    unfold analyzeValue analyzeValueStr at hf
    have := insertDistinctStr_dov_of_false hf
    revert this
    split_ifs
    · exact fun hx => by simpa using hx
    · rw [updateRange_dov]
      exact id
    · exact id

theorem analyzeValue_contains_self {h : Hasher} {v : VHValue}
    (hf : (analyzeValue h v).distinctOverflow_ = false) :
    containsValue (analyzeValue h v).uniqueValues_ v = true := by
  cases v with
  | int n => exact insertDistinct_contains_self hf
  | str s => exact insertDistinctStr_contains_self hf

/-! Claim C8 — the row-keyed string value-id path. -/

/-- Full characterization of the `VARCHAR` row-keyed loop: the hasher is
returned untouched, the call succeeds exactly when every non-null row value
is mappable, and on success every row slot holds its packed id. -/
theorem varcharLoop_spec (h : Hasher) (groups : List (Option (List Nat))) (i : Nat)
    (result : Nat → Nat) :
    (makeValueIdsForRowsVarcharLoop h groups i result).1 = h ∧
    ((makeValueIdsForRowsVarcharLoop h groups i result).2.2 = true ↔
      ∀ s, some s ∈ groups → valueId h (.str s) ≠ kUnmappable) ∧
    ((makeValueIdsForRowsVarcharLoop h groups i result).2.2 = true →
      (∀ j, j < i → (makeValueIdsForRowsVarcharLoop h groups i result).2.1 j = result j) ∧
      (∀ j, j < groups.length →
        (makeValueIdsForRowsVarcharLoop h groups i result).2.1 (i + j) =
          varcharRowSpec h (groups.getD j none) (result (i + j)))) := by
  induction groups generalizing i result with
  | nil =>
    refine ⟨rfl, by simp [makeValueIdsForRowsVarcharLoop], ?_⟩
    intro _
    exact ⟨fun j _ => rfl, fun j hj => absurd hj (by simp)⟩
  | cons g rest ih =>
    cases g with
    | none =>
      simp only [makeValueIdsForRowsVarcharLoop]
      rcases ih (i + 1) (if h.multiplier_ = 1 then Function.update result i 0 else result) with
        ⟨ih1, ih2, ih3⟩
      refine ⟨ih1, ?_, ?_⟩
      · rw [ih2]
        constructor
        · intro hall s hs
          rcases List.mem_cons.mp hs with he | hm
          · exact absurd he (by simp)
          · exact hall s hm
        · intro hall s hs
          exact hall s (List.mem_cons_of_mem _ hs)
      · intro htrue
        rcases ih3 htrue with ⟨hbelow, hin⟩
        constructor
        · intro j hj
          rw [hbelow j (Nat.lt_succ_of_lt hj)]
          split_ifs
          · exact Function.update_noteq (Nat.ne_of_lt hj) _ _
          · rfl
        · intro j hj
          cases j with
          | zero =>
            simp only [Nat.add_zero]
            rw [hbelow i (Nat.lt_succ_self i)]
            show _ = varcharRowSpec h none (result i)
            unfold varcharRowSpec
            split_ifs
            · exact Function.update_same i 0 result
            · rfl
          | succ k =>
            have hk : k < rest.length := by simpa using hj
            have harith : i + (k + 1) = (i + 1) + k := by omega
            rw [harith, hin k hk]
            have hne : (i + 1) + k ≠ i := by omega
            have hres1 : (if h.multiplier_ = 1 then Function.update result i 0 else result)
                ((i + 1) + k) = result ((i + 1) + k) := by
              split_ifs
              · exact Function.update_noteq hne _ _
              · rfl
            rw [hres1, List.getD_cons_succ]
    | some s =>
      simp only [makeValueIdsForRowsVarcharLoop]
      by_cases hid : valueId h (.str s) = kUnmappable
      · rw [if_pos hid]
        refine ⟨rfl, ?_, ?_⟩
        · constructor
          · intro hft
            exact absurd hft (by simp)
          · intro hall
            exact absurd hid (hall s (List.mem_cons_self _ _))
        · intro hft
          exact absurd hft (by simp)
      · rw [if_neg hid]
        rcases ih (i + 1)
          (Function.update result i (applyMult h (result i) (valueId h (.str s)))) with
          ⟨ih1, ih2, ih3⟩
        refine ⟨ih1, ?_, ?_⟩
        · rw [ih2]
          constructor
          · intro hall s' hs'
            rcases List.mem_cons.mp hs' with he | hm
            · rw [Option.some.injEq] at he
              rw [he]
              exact hid
            · exact hall s' hm
          · intro hall s' hs'
            exact hall s' (List.mem_cons_of_mem _ hs')
        · intro htrue
          rcases ih3 htrue with ⟨hbelow, hin⟩
          constructor
          · intro j hj
            rw [hbelow j (Nat.lt_succ_of_lt hj)]
            exact Function.update_noteq (Nat.ne_of_lt hj) _ _
          · intro j hj
            cases j with
            | zero =>
              simp only [Nat.add_zero]
              rw [hbelow i (Nat.lt_succ_self i)]
              show _ = varcharRowSpec h (some s) (result i)
              unfold varcharRowSpec
              exact Function.update_same i _ result
            | succ k =>
              have hk : k < rest.length := by simpa using hj
              have harith : i + (k + 1) = (i + 1) + k := by omega
              rw [harith, hin k hk]
              have hne : (i + 1) + k ≠ i := by omega
              rw [Function.update_noteq hne, List.getD_cons_succ]

/-- C8 counterexample: the claim says that for a string column, when a row's
value is unmappable the remaining rows' values are still absorbed into
analysis before `compute_value_ids_for_rows` returns `false`.  On a string
hasher whose domain is the single string `[2, 2]` and rows
`["[9,9]", "[3,3]"]`, the call returns `false` with the hasher completely
unchanged: the remaining value `[3, 3]` is not in the distinct set and
`distinct_overflow` is false, so it was never passed to `analyze_value`. -/
theorem C8_counterexample :
    (makeValueIdsForRowsVarchar strHasher [some [9, 9], some [3, 3]] fun _ => 0).2.2 = false ∧
    (makeValueIdsForRowsVarchar strHasher [some [9, 9], some [3, 3]] fun _ => 0).1 =
      strHasher ∧
    strHasher.distinctOverflow_ = false ∧
    containsValue
      (makeValueIdsForRowsVarchar strHasher [some [9, 9], some [3, 3]] fun _ => 0).1.uniqueValues_
      (.str [3, 3]) = false := by
  decide

/-- C8 (amended): `compute_value_ids_for_rows` on a string column writes
packed ids and returns the all-mapped boolean like `compute_value_ids`, but
it does not mutate analysis state on failures: an unmappable value makes it
return `false` immediately, without passing the remaining rows' values (or
the failing value itself) to `analyze_value`. -/
theorem C8_makeValueIdsForRows_amended (h : Hasher) (groups : List (Option (List Nat)))
    (result : Nat → Nat) :
    (makeValueIdsForRowsVarchar h groups result).1 = h ∧
    ((makeValueIdsForRowsVarchar h groups result).2.2 = true ↔
      ∀ s, some s ∈ groups → valueId h (.str s) ≠ kUnmappable) ∧
    ((makeValueIdsForRowsVarchar h groups result).2.2 = true →
      ∀ j, j < groups.length →
        (makeValueIdsForRowsVarchar h groups result).2.1 j =
          varcharRowSpec h (groups.getD j none) (result j)) := by
  rcases varcharLoop_spec h groups 0 result with ⟨h1, h2, h3⟩
  refine ⟨h1, h2, ?_⟩
  intro htrue j hj
  have := (h3 htrue).2 j hj
  rwa [Nat.zero_add] at this

/-- C8 witness: the amended theorem applied to the concrete string hasher
with rows `[null, "[2,2]"]`. -/
theorem C8_makeValueIdsForRows_amended_witness :
    (makeValueIdsForRowsVarchar strHasher [none, some [2, 2]] fun _ => 0).1 = strHasher ∧
    (makeValueIdsForRowsVarchar strHasher [none, some [2, 2]] fun _ => 0).2.1 1 =
      varcharRowSpec strHasher (some [2, 2]) 0 := by
  have hthm := C8_makeValueIdsForRows_amended strHasher [none, some [2, 2]] (fun _ => 0)
  refine ⟨hthm.1, ?_⟩
  have := hthm.2.2 (by decide) 1 (by decide)
  simpa using this

/-! Counterexamples to the universally-phrased parts of C2 and C3. -/

/-- C3 counterexample: the claim says that after the first unmappable value,
every later selected non-null value is still passed to `analyze_value`.  In
the dictionary-decoded path, a later row whose base entry already received a
cached id is written from the cache and skipped by analysis: with the
range-mode hasher over `[10, 13]` (value 11 mappable but never analyzed) and
the dictionary view `base = [11, 99]`, `indices = [0, 1, 0]`, row 1 fails on
99, and the later non-null row 2 (value 11) is not passed to
`analyze_value` — 11 is absent from the final distinct set even though
`distinct_overflow` is false. -/
theorem C3_counterexample :
    dictView3.isNullAt 2 = false ∧ dictView3.valueAt 2 = .int 11 ∧
    valueId rangeHasher (dictView3.valueAt 1) = kUnmappable ∧
    (makeValueIds rangeHasher dictView3 [0, 1, 2] fun _ => 0).2.2 = false ∧
    (makeValueIds rangeHasher dictView3 [0, 1, 2] fun _ => 0).1.distinctOverflow_ = false ∧
    containsValue
      (makeValueIds rangeHasher dictView3 [0, 1, 2] fun _ => 0).1.uniqueValues_
      (.int 11) = false := by
  decide

/-- C2 counterexample: the claim says `compute_value_ids` produces identical
value-ids for any two decoded views of the same logical sequence.  For the
logical values `11, 99, 11` under the range-mode hasher over `[10, 13]`
(99 unmappable), the flat view leaves `out[2]` untouched after the failure
while the dictionary view writes the cached id 2 into `out[2]`: the two runs
return the same `false` but produce different outputs. -/
theorem C2_counterexample :
    (flatView3.valueAt 0 = dictView3.valueAt 0 ∧ flatView3.valueAt 1 = dictView3.valueAt 1 ∧
      flatView3.valueAt 2 = dictView3.valueAt 2 ∧
      flatView3.isNullAt 0 = dictView3.isNullAt 0 ∧
      flatView3.isNullAt 1 = dictView3.isNullAt 1 ∧
      flatView3.isNullAt 2 = dictView3.isNullAt 2) ∧
    (makeValueIds rangeHasher flatView3 [0, 1, 2] fun _ => 0).2.2 = false ∧
    (makeValueIds rangeHasher dictView3 [0, 1, 2] fun _ => 0).2.2 = false ∧
    (makeValueIds rangeHasher flatView3 [0, 1, 2] fun _ => 0).2.1 2 = 0 ∧
    (makeValueIds rangeHasher dictView3 [0, 1, 2] fun _ => 0).2.1 2 = 2 := by
  decide

/-! Lemmas about `foldAnalyze`. -/

theorem foldAnalyze_multiplier (vs : List VHValue) (h : Hasher) :
    (foldAnalyze h vs).multiplier_ = h.multiplier_ := by
  induction vs generalizing h with
  | nil => rfl
  | cons v rest ih =>
    show (foldAnalyze (analyzeValue h v) rest).multiplier_ = h.multiplier_
    rw [ih (analyzeValue h v), analyzeValue_multiplier]

theorem foldAnalyze_dov_of_false {vs : List VHValue} {h : Hasher}
    (hf : (foldAnalyze h vs).distinctOverflow_ = false) :
    h.distinctOverflow_ = false := by
  induction vs generalizing h with
  | nil => exact hf
  | cons v rest ih =>
    exact analyzeValue_dov_of_false (ih hf)

theorem foldAnalyze_contains_mono {vs : List VHValue} {h : Hasher} {v : VHValue}
    (hc : containsValue h.uniqueValues_ v = true) :
    containsValue (foldAnalyze h vs).uniqueValues_ v = true := by
  induction vs generalizing h with
  | nil => exact hc
  | cons w rest ih =>
    exact ih (analyzeValue_contains_mono w hc)

theorem foldAnalyze_contains_mem {vs : List VHValue} {h : Hasher} {v : VHValue}
    (hv : v ∈ vs) (hf : (foldAnalyze h vs).distinctOverflow_ = false) :
    containsValue (foldAnalyze h vs).uniqueValues_ v = true := by
  induction vs generalizing h with
  | nil => cases hv
  | cons w rest ih =>
    rcases List.mem_cons.mp hv with he | hm
    · subst he
      have hf' : (foldAnalyze (analyzeValue h v) rest).distinctOverflow_ = false := hf
      have hdov : (analyzeValue h v).distinctOverflow_ = false :=
        foldAnalyze_dov_of_false hf'
      show containsValue (foldAnalyze (analyzeValue h v) rest).uniqueValues_ v = true
      exact foldAnalyze_contains_mono (analyzeValue_contains_self hdov)
    · exact ih hm hf

/-! Characterization of the flat no-nulls scalar loop. -/

theorem flatNoNullsLoop_false_spec (h : Hasher) (d : Decoded) (rows : List Nat)
    (res : Nat → Nat) :
    flatNoNullsLoop h d rows false res =
      (foldAnalyze h (rows.map (fun r => d.baseAt r)), res, false) := by
  induction rows generalizing h with
  | nil => rfl
  | cons r rest ih =>
    simp only [flatNoNullsLoop]
    exact ih (analyzeValue h (d.baseAt r))

theorem flatNoNullsLoop_spec (h : Hasher) (d : Decoded) (rows : List Nat) (res : Nat → Nat)
    (hnd : rows.Nodup) :
    ((flatNoNullsLoop h d rows true res).2.2 = true ↔
      ∀ r ∈ rows, valueId h (d.baseAt r) ≠ kUnmappable) ∧
    ((flatNoNullsLoop h d rows true res).2.2 = true →
      (flatNoNullsLoop h d rows true res).1 = h ∧
      ∀ j, (flatNoNullsLoop h d rows true res).2.1 j =
        if j ∈ rows then applyMult h (res j) (valueId h (d.baseAt j)) else res j) ∧
    (∀ r ∈ rows, valueId h (d.baseAt r) = kUnmappable →
      (flatNoNullsLoop h d rows true res).2.1 r = res r) ∧
    (∀ r ∈ rows, valueId h (d.baseAt r) = kUnmappable →
      (flatNoNullsLoop h d rows true res).1.distinctOverflow_ = false →
      containsValue (flatNoNullsLoop h d rows true res).1.uniqueValues_ (d.baseAt r) = true) := by
  induction rows generalizing res with
  | nil =>
    refine ⟨by simp [flatNoNullsLoop], ?_, by simp, by simp⟩
    intro _
    exact ⟨rfl, fun j => by simp [flatNoNullsLoop]⟩
  | cons r rest ih =>
    rcases List.nodup_cons.mp hnd with ⟨hr, hnd'⟩
    have hunf : flatNoNullsLoop h d (r :: rest) true res =
        (if valueId h (d.baseAt r) = kUnmappable then
          flatNoNullsLoop (analyzeValue h (d.baseAt r)) d rest false res
        else flatNoNullsLoop h d rest true
          (Function.update res r (applyMult h (res r) (valueId h (d.baseAt r))))) := rfl
    by_cases hid : valueId h (d.baseAt r) = kUnmappable
    · have hstep : flatNoNullsLoop h d (r :: rest) true res =
          (foldAnalyze (analyzeValue h (d.baseAt r)) (rest.map (fun x => d.baseAt x)),
            res, false) := by
        rw [hunf, if_pos hid]
        exact flatNoNullsLoop_false_spec _ d rest res
      rw [hstep]
      refine ⟨?_, ?_, ?_, ?_⟩
      · simp only [Bool.false_eq_true, false_iff]
        intro hall
        exact (hall r (List.mem_cons_self r rest)) hid
      · intro hft
        exact absurd hft (by simp)
      · intro r' _ _
        rfl
      · intro r' hr' hid' hdov
        rcases List.mem_cons.mp hr' with he | hm
        · subst he
          have hdov1 : (analyzeValue h (d.baseAt r')).distinctOverflow_ = false :=
            foldAnalyze_dov_of_false hdov
          exact foldAnalyze_contains_mono (analyzeValue_contains_self hdov1)
        · exact foldAnalyze_contains_mem (List.mem_map_of_mem _ hm) hdov
    · have hstep : flatNoNullsLoop h d (r :: rest) true res =
          flatNoNullsLoop h d rest true
            (Function.update res r (applyMult h (res r) (valueId h (d.baseAt r)))) := by
        rw [hunf, if_neg hid]
      rw [hstep]
      rcases ih (Function.update res r (applyMult h (res r) (valueId h (d.baseAt r)))) hnd' with
        ⟨ih1, ih2, ih3, ih4⟩
      refine ⟨?_, ?_, ?_, ?_⟩
      · rw [ih1]
        constructor
        · intro hall r' hr'
          rcases List.mem_cons.mp hr' with he | hm
          · subst he
            exact hid
          · exact hall r' hm
        · intro hall r' hm
          exact hall r' (List.mem_cons_of_mem _ hm)
      · intro htrue
        rcases ih2 htrue with ⟨hh, hres⟩
        refine ⟨hh, ?_⟩
        intro j
        rw [hres j]
        by_cases hjrest : j ∈ rest
        · have hjr : j ≠ r := fun he => hr (he ▸ hjrest)
          rw [if_pos hjrest, if_pos (List.mem_cons_of_mem _ hjrest),
            Function.update_noteq hjr]
        · by_cases hjr : j = r
          · subst hjr
            rw [if_neg hjrest, if_pos (List.mem_cons_self j rest), Function.update_same]
          · rw [if_neg hjrest, if_neg (by simp [hjr, hjrest]), Function.update_noteq hjr]
      · intro r' hr' hid'
        have hne : r' ≠ r := fun he => hid (he ▸ hid')
        rw [ih3 r' (List.mem_cons.mp hr' |>.resolve_left hne) hid',
          Function.update_noteq hne]
      · intro r' hr' hid' hdov
        have hne : r' ≠ r := fun he => hid (he ▸ hid')
        exact ih4 r' (List.mem_cons.mp hr' |>.resolve_left hne) hid' hdov

/-! Characterization of the flat with-nulls loop. -/

theorem flatWithNullsLoop_false_spec (h : Hasher) (d : Decoded) (rows : List Nat)
    (res : Nat → Nat) :
    (flatWithNullsLoop h d rows false res).2.2 = false ∧
    (flatWithNullsLoop h d rows false res).1 =
      foldAnalyze h ((rows.filter (fun r => !d.isNullAt r)).map (fun r => d.baseAt r)) ∧
    (∀ j, (flatWithNullsLoop h d rows false res).2.1 j =
      if j ∈ rows ∧ d.isNullAt j = true ∧ h.multiplier_ = 1 then 0 else res j) := by
  induction rows generalizing h res with
  | nil =>
    refine ⟨rfl, rfl, ?_⟩
    intro j
    simp [flatWithNullsLoop]
  | cons r rest ih =>
    have hunf : flatWithNullsLoop h d (r :: rest) false res =
        (if d.isNullAt r then
          flatWithNullsLoop h d rest false
            (if h.multiplier_ = 1 then Function.update res r 0 else res)
        else flatWithNullsLoop (analyzeValue h (d.baseAt r)) d rest false res) := rfl
    by_cases hnull : d.isNullAt r = true
    · rw [hunf, if_pos hnull]
      rcases ih h (if h.multiplier_ = 1 then Function.update res r 0 else res) with
        ⟨ih1, ih2, ih3⟩
      refine ⟨ih1, by rw [ih2, List.filter_cons_of_neg (by simp [hnull])], ?_⟩
      intro j
      rw [ih3 j]
      by_cases hj1 : j ∈ rest ∧ d.isNullAt j = true ∧ h.multiplier_ = 1
      · rw [if_pos hj1, if_pos ⟨List.mem_cons_of_mem _ hj1.1, hj1.2⟩]
      · rw [if_neg hj1]
        by_cases hjr : j = r
        · subst hjr
          by_cases hm : h.multiplier_ = 1
          · rw [if_pos hm, Function.update_same, if_pos ⟨List.mem_cons_self j rest, hnull, hm⟩]
          · rw [if_neg hm, if_neg (by rintro ⟨_, _, hc⟩; exact hm hc)]
        · have hres : (if h.multiplier_ = 1 then Function.update res r 0 else res) j = res j := by
            split_ifs
            · exact Function.update_noteq hjr _ _
            · rfl
          rw [hres, if_neg (by
            rintro ⟨hjm, hjn, hjm1⟩
            exact hj1 ⟨(List.mem_cons.mp hjm).resolve_left hjr, hjn, hjm1⟩)]
    · have hnull' : d.isNullAt r = false := by simpa using hnull
      rw [hunf, if_neg hnull]
      rcases ih (analyzeValue h (d.baseAt r)) res with ⟨ih1, ih2, ih3⟩
      refine ⟨ih1, ?_, ?_⟩
      · rw [ih2, List.filter_cons_of_pos (by simp [hnull'])]
        rfl
      · intro j
        rw [ih3 j, analyzeValue_multiplier]
        by_cases hj1 : j ∈ rest ∧ d.isNullAt j = true ∧ h.multiplier_ = 1
        · rw [if_pos hj1, if_pos ⟨List.mem_cons_of_mem _ hj1.1, hj1.2⟩]
        · rw [if_neg hj1, if_neg (by
            rintro ⟨hjm, hjn, hjm1⟩
            rcases List.mem_cons.mp hjm with he | hm
            · rw [he] at hjn
              rw [hjn] at hnull'
              exact absurd hnull' (by simp)
            · exact hj1 ⟨hm, hjn, hjm1⟩)]

theorem flatWithNullsLoop_spec (h : Hasher) (d : Decoded) (rows : List Nat) (res : Nat → Nat)
    (hnd : rows.Nodup) :
    ((flatWithNullsLoop h d rows true res).2.2 = true ↔
      ∀ r ∈ rows, d.isNullAt r = true ∨ valueId h (d.baseAt r) ≠ kUnmappable) ∧
    ((flatWithNullsLoop h d rows true res).2.2 = true →
      (flatWithNullsLoop h d rows true res).1 = h ∧
      ∀ j, (flatWithNullsLoop h d rows true res).2.1 j =
        if j ∈ rows then
          if d.isNullAt j then (if h.multiplier_ = 1 then 0 else res j)
          else applyMult h (res j) (valueId h (d.baseAt j))
        else res j) ∧
    (∀ r ∈ rows, d.isNullAt r = false → valueId h (d.baseAt r) = kUnmappable →
      (flatWithNullsLoop h d rows true res).2.1 r = res r) ∧
    (∀ r ∈ rows, d.isNullAt r = false → valueId h (d.baseAt r) = kUnmappable →
      (flatWithNullsLoop h d rows true res).1.distinctOverflow_ = false →
      containsValue (flatWithNullsLoop h d rows true res).1.uniqueValues_ (d.baseAt r) = true) ∧
    (∀ r ∈ rows, d.isNullAt r = true →
      (h.multiplier_ = 1 → (flatWithNullsLoop h d rows true res).2.1 r = 0) ∧
      (h.multiplier_ ≠ 1 → (flatWithNullsLoop h d rows true res).2.1 r = res r)) ∧
    (∀ j, j ∉ rows → (flatWithNullsLoop h d rows true res).2.1 j = res j) := by
  induction rows generalizing res with
  | nil =>
    refine ⟨by simp [flatWithNullsLoop], ?_, by simp, by simp, by simp, fun j _ => rfl⟩
    intro _
    exact ⟨rfl, fun j => by simp [flatWithNullsLoop]⟩
  | cons r rest ih =>
    rcases List.nodup_cons.mp hnd with ⟨hr, hnd'⟩
    have hunf : flatWithNullsLoop h d (r :: rest) true res =
        (if d.isNullAt r then
          flatWithNullsLoop h d rest true
            (if h.multiplier_ = 1 then Function.update res r 0 else res)
        else
          if valueId h (d.baseAt r) = kUnmappable then
            flatWithNullsLoop (analyzeValue h (d.baseAt r)) d rest false res
          else flatWithNullsLoop h d rest true
            (Function.update res r (applyMult h (res r) (valueId h (d.baseAt r))))) := rfl
    by_cases hnull : d.isNullAt r = true
    · rw [hunf, if_pos hnull]
      rcases ih (if h.multiplier_ = 1 then Function.update res r 0 else res) hnd' with
        ⟨ih1, ih2, ih3, ih4, ih5, ih6⟩
      have hresj : ∀ j, j ≠ r →
          (if h.multiplier_ = 1 then Function.update res r 0 else res) j = res j := by
        intro j hj
        split_ifs
        · exact Function.update_noteq hj _ _
        · rfl
      refine ⟨?_, ?_, ?_, ?_, ?_, ?_⟩
      · rw [ih1]
        constructor
        · intro hall r' hr'
          rcases List.mem_cons.mp hr' with he | hm
          · rw [he]
            exact Or.inl hnull
          · exact hall r' hm
        · intro hall r' hm
          exact hall r' (List.mem_cons_of_mem _ hm)
      · intro htrue
        rcases ih2 htrue with ⟨hh, hres⟩
        refine ⟨hh, ?_⟩
        intro j
        rw [hres j]
        by_cases hjrest : j ∈ rest
        · have hjr : j ≠ r := fun he => hr (he ▸ hjrest)
          rw [if_pos hjrest, if_pos (List.mem_cons_of_mem _ hjrest), hresj j hjr]
        · by_cases hjr : j = r
          · subst hjr
            rw [if_neg hjrest, if_pos (List.mem_cons_self j rest), if_pos hnull]
            split_ifs with hm
            · exact Function.update_same _ _ _
            · rfl
          · rw [if_neg hjrest, hresj j hjr, if_neg (by
              intro hmem
              rcases List.mem_cons.mp hmem with he | hm
              · exact hjr he
              · exact hjrest hm)]
      · intro r' hr' hn' hid'
        have hne : r' ≠ r := by
          intro he
          rw [he, hnull] at hn'
          exact absurd hn' (by simp)
        rw [ih3 r' ((List.mem_cons.mp hr').resolve_left hne) hn' hid', hresj r' hne]
      · intro r' hr' hn' hid' hdov
        have hne : r' ≠ r := by
          intro he
          rw [he, hnull] at hn'
          exact absurd hn' (by simp)
        exact ih4 r' ((List.mem_cons.mp hr').resolve_left hne) hn' hid' hdov
      · intro r' hr' hn'
        by_cases hne : r' = r
        · subst hne
          have hout : (flatWithNullsLoop h d rest true
              (if h.multiplier_ = 1 then Function.update res r' 0 else res)).2.1 r' =
              (if h.multiplier_ = 1 then Function.update res r' 0 else res) r' :=
            ih6 r' hr
          constructor
          · intro hm
            rw [hout, if_pos hm]
            exact Function.update_same _ _ _
          · intro hm
            rw [hout, if_neg hm]
        · rcases ih5 r' ((List.mem_cons.mp hr').resolve_left hne) hn' with ⟨hm1, hm2⟩
          exact ⟨fun hm => by rw [hm1 hm], fun hm => by rw [hm2 hm, hresj r' hne]⟩
      · intro j hj
        have hjrest : j ∉ rest := fun hm => hj (List.mem_cons_of_mem _ hm)
        have hjr : j ≠ r := fun he => hj (he ▸ List.mem_cons_self r rest)
        rw [ih6 j hjrest, hresj j hjr]
    · have hnull' : d.isNullAt r = false := by simpa using hnull
      rw [hunf, if_neg hnull]
      by_cases hid : valueId h (d.baseAt r) = kUnmappable
      · rw [if_pos hid]
        rcases flatWithNullsLoop_false_spec (analyzeValue h (d.baseAt r)) d rest res with
          ⟨hf1, hf2, hf3⟩
        refine ⟨?_, ?_, ?_, ?_, ?_, ?_⟩
        · rw [hf1]
          simp only [Bool.false_eq_true, false_iff]
          intro hall
          rcases hall r (List.mem_cons_self r rest) with hn | hv
          · rw [hn] at hnull'
            exact absurd hnull' (by simp)
          · exact hv hid
        · intro hft
          rw [hf1] at hft
          exact absurd hft (by simp)
        · intro r' _ hn' _
          rw [hf3 r', if_neg (by rintro ⟨_, hjn, _⟩; rw [hn'] at hjn; exact absurd hjn (by simp))]
        · intro r' hr' hn' hid' hdov
          rw [hf2] at hdov ⊢
          rcases List.mem_cons.mp hr' with he | hm
          · subst he
            have hdov1 : (analyzeValue h (d.baseAt r')).distinctOverflow_ = false :=
              foldAnalyze_dov_of_false hdov
            exact foldAnalyze_contains_mono (analyzeValue_contains_self hdov1)
          · have hmem : d.baseAt r' ∈
                (rest.filter (fun x => !d.isNullAt x)).map (fun x => d.baseAt x) :=
              List.mem_map_of_mem _ (List.mem_filter.mpr ⟨hm, by simp [hn']⟩)
            exact foldAnalyze_contains_mem hmem hdov
        · intro r' hr' hn'
          have hne : r' ≠ r := by
            intro he
            rw [he] at hn'
            rw [hn'] at hnull'
            exact absurd hnull' (by simp)
          have hrm : r' ∈ rest := (List.mem_cons.mp hr').resolve_left hne
          constructor
          · intro hm
            rw [hf3 r', if_pos ⟨hrm, hn', by rw [analyzeValue_multiplier]; exact hm⟩]
          · intro hm
            rw [hf3 r', if_neg (by
              rintro ⟨_, _, hc⟩
              rw [analyzeValue_multiplier] at hc
              exact hm hc)]
        · intro j hj
          have hjrest : j ∉ rest := fun hm => hj (List.mem_cons_of_mem _ hm)
          rw [hf3 j, if_neg (by rintro ⟨hjm, _, _⟩; exact hjrest hjm)]
      · rw [if_neg hid]
        rcases ih (Function.update res r (applyMult h (res r) (valueId h (d.baseAt r)))) hnd'
          with ⟨ih1, ih2, ih3, ih4, ih5, ih6⟩
        refine ⟨?_, ?_, ?_, ?_, ?_, ?_⟩
        · rw [ih1]
          constructor
          · intro hall r' hr'
            rcases List.mem_cons.mp hr' with he | hm
            · rw [he]
              exact Or.inr hid
            · exact hall r' hm
          · intro hall r' hm
            exact hall r' (List.mem_cons_of_mem _ hm)
        · intro htrue
          rcases ih2 htrue with ⟨hh, hres⟩
          refine ⟨hh, ?_⟩
          intro j
          rw [hres j]
          by_cases hjrest : j ∈ rest
          · have hjr : j ≠ r := fun he => hr (he ▸ hjrest)
            rw [if_pos hjrest, if_pos (List.mem_cons_of_mem _ hjrest),
              Function.update_noteq hjr]
          · by_cases hjr : j = r
            · subst hjr
              rw [if_neg hjrest, if_pos (List.mem_cons_self j rest), if_neg (by
                rw [hnull']
                simp), Function.update_same]
            · rw [if_neg hjrest, Function.update_noteq hjr, if_neg (by
                intro hmem
                rcases List.mem_cons.mp hmem with he | hm
                · exact hjr he
                · exact hjrest hm)]
        · intro r' hr' hn' hid'
          have hne : r' ≠ r := fun he => hid (he ▸ hid')
          rw [ih3 r' ((List.mem_cons.mp hr').resolve_left hne) hn' hid',
            Function.update_noteq hne]
        · intro r' hr' hn' hid' hdov
          have hne : r' ≠ r := fun he => hid (he ▸ hid')
          exact ih4 r' ((List.mem_cons.mp hr').resolve_left hne) hn' hid' hdov
        · intro r' hr' hn'
          have hne : r' ≠ r := by
            intro he
            rw [he] at hn'
            rw [hn'] at hnull'
            exact absurd hnull' (by simp)
          rcases ih5 r' ((List.mem_cons.mp hr').resolve_left hne) hn' with ⟨hm1, hm2⟩
          exact ⟨fun hm => by rw [hm1 hm], fun hm => by
            rw [hm2 hm, Function.update_noteq hne]⟩
        · intro j hj
          have hjrest : j ∉ rest := fun hm => hj (List.mem_cons_of_mem _ hm)
          have hjr : j ≠ r := fun he => hj (he ▸ List.mem_cons_self r rest)
          rw [ih6 j hjrest, Function.update_noteq hjr]

/-! Characterization of the decoded (dictionary) loop. -/

theorem applyMult_eq_of_multiplier {h1 h2 : Hasher} (e : h1.multiplier_ = h2.multiplier_)
    (old id : Nat) : applyMult h1 old id = applyMult h2 old id := by
  unfold applyMult
  rw [e]

theorem decodedLoop_false_spec (h : Hasher) (d : Decoded) (may : Bool) (rows : List Nat)
    (cache res : Nat → Nat) (hnd : rows.Nodup) :
    (decodedLoop h d may rows false cache res).2.2 = false ∧
    (decodedLoop h d may rows false cache res).1 =
      foldAnalyze h
        ((rows.filter (fun r => !(may && d.isNullAt r) && cache (d.index r) == 0)).map
          (fun r => d.baseAt (d.index r))) ∧
    (∀ j, (decodedLoop h d may rows false cache res).2.1 j =
      if j ∈ rows ∧ (may && d.isNullAt j) = true ∧ h.multiplier_ = 1 then 0
      else if j ∈ rows ∧ (may && d.isNullAt j) = false ∧ cache (d.index j) ≠ 0 then
        applyMult h (res j) (cache (d.index j))
      else res j) := by
  induction rows generalizing h res with
  | nil =>
    refine ⟨rfl, rfl, ?_⟩
    intro j
    simp [decodedLoop]
  | cons r rest ih =>
    rcases List.nodup_cons.mp hnd with ⟨hrnotin, hnd'⟩
    have hunf : decodedLoop h d may (r :: rest) false cache res =
        (if may && d.isNullAt r then
          decodedLoop h d may rest false cache
            (if h.multiplier_ = 1 then Function.update res r 0 else res)
        else if cache (d.index r) = 0 then
          decodedLoop (analyzeValue h (d.baseAt (d.index r))) d may rest false cache res
        else decodedLoop h d may rest false cache
          (Function.update res r (applyMult h (res r) (cache (d.index r))))) := rfl
    have hptw : ∀ (h1 : Hasher) (res1 : Nat → Nat) (hrval : Nat),
        h1.multiplier_ = h.multiplier_ →
        (∀ j, j ≠ r → res1 j = res j) →
        res1 r = hrval →
        ((may && d.isNullAt r) = true → h.multiplier_ = 1 → hrval = 0) →
        ((may && d.isNullAt r) = true → h.multiplier_ ≠ 1 → hrval = res r) →
        ((may && d.isNullAt r) = false → cache (d.index r) ≠ 0 →
          hrval = applyMult h (res r) (cache (d.index r))) →
        ((may && d.isNullAt r) = false → cache (d.index r) = 0 → hrval = res r) →
        ∀ j, (if j ∈ rest ∧ (may && d.isNullAt j) = true ∧ h1.multiplier_ = 1 then 0
          else if j ∈ rest ∧ (may && d.isNullAt j) = false ∧ cache (d.index j) ≠ 0 then
            applyMult h1 (res1 j) (cache (d.index j))
          else res1 j) =
          (if j ∈ r :: rest ∧ (may && d.isNullAt j) = true ∧ h.multiplier_ = 1 then 0
          else if j ∈ r :: rest ∧ (may && d.isNullAt j) = false ∧ cache (d.index j) ≠ 0 then
            applyMult h (res j) (cache (d.index j))
          else res j) := by
      intro h1 res1 hrval hm1 hother hres1r hz hzz hcc hcz j
      by_cases hjr : j = r
      · subst hjr
        have hn1 : ¬(j ∈ rest ∧ (may && d.isNullAt j) = true ∧ h1.multiplier_ = 1) := by
          rintro ⟨hjm, _, _⟩
          exact hrnotin hjm
        have hn2 : ¬(j ∈ rest ∧ (may && d.isNullAt j) = false ∧ cache (d.index j) ≠ 0) := by
          rintro ⟨hjm, _, _⟩
          exact hrnotin hjm
        rw [if_neg hn1, if_neg hn2, hres1r]
        by_cases hg : (may && d.isNullAt j) = true
        · by_cases hm : h.multiplier_ = 1
          · rw [if_pos ⟨List.mem_cons_self j rest, hg, hm⟩]
            exact hz hg hm
          · have hn3 : ¬(j ∈ j :: rest ∧ (may && d.isNullAt j) = true ∧
                h.multiplier_ = 1) := by
              rintro ⟨_, _, hc⟩
              exact hm hc
            have hn4 : ¬(j ∈ j :: rest ∧ (may && d.isNullAt j) = false ∧
                cache (d.index j) ≠ 0) := by
              rintro ⟨_, hjg, _⟩
              rw [hg] at hjg
              exact absurd hjg (by simp)
            rw [if_neg hn3, if_neg hn4]
            exact hzz hg hm
        · have hg' : (may && d.isNullAt j) = false := by simpa using hg
          have hn3 : ¬(j ∈ j :: rest ∧ (may && d.isNullAt j) = true ∧
              h.multiplier_ = 1) := by
            rintro ⟨_, hjg, _⟩
            rw [hg'] at hjg
            exact absurd hjg (by simp)
          rw [if_neg hn3]
          by_cases hc : cache (d.index j) ≠ 0
          · rw [if_pos ⟨List.mem_cons_self j rest, hg', hc⟩]
            exact hcc hg' hc
          · have hcx : cache (d.index j) = 0 := by
              by_cases hy : cache (d.index j) = 0
              · exact hy
              · exact absurd hy hc
            have hn4 : ¬(j ∈ j :: rest ∧ (may && d.isNullAt j) = false ∧
                cache (d.index j) ≠ 0) := by
              rintro ⟨_, _, hcy⟩
              exact hcy hcx
            rw [if_neg hn4]
            exact hcz hg' hcx
      · rw [hm1, hother j hjr]
        by_cases hj1 : j ∈ rest ∧ (may && d.isNullAt j) = true ∧ h.multiplier_ = 1
        · rw [if_pos hj1, if_pos ⟨List.mem_cons_of_mem _ hj1.1, hj1.2⟩]
        · have hn1 : ¬(j ∈ r :: rest ∧ (may && d.isNullAt j) = true ∧
              h.multiplier_ = 1) := by
            rintro ⟨hjm, hrest⟩
            exact hj1 ⟨(List.mem_cons.mp hjm).resolve_left hjr, hrest⟩
          rw [if_neg hj1, if_neg hn1]
          by_cases hj2 : j ∈ rest ∧ (may && d.isNullAt j) = false ∧ cache (d.index j) ≠ 0
          · rw [if_pos hj2, if_pos ⟨List.mem_cons_of_mem _ hj2.1, hj2.2⟩]
            exact applyMult_eq_of_multiplier hm1 _ _
          · have hn2 : ¬(j ∈ r :: rest ∧ (may && d.isNullAt j) = false ∧
                cache (d.index j) ≠ 0) := by
              rintro ⟨hjm, hrest⟩
              exact hj2 ⟨(List.mem_cons.mp hjm).resolve_left hjr, hrest⟩
            rw [if_neg hj2, if_neg hn2]
    by_cases hg : (may && d.isNullAt r) = true
    · rw [hunf, if_pos hg]
      rcases ih h (if h.multiplier_ = 1 then Function.update res r 0 else res) hnd' with
        ⟨ih1, ih2, ih3⟩
      refine ⟨ih1, by rw [ih2, List.filter_cons_of_neg (by simp [hg])], ?_⟩
      intro j
      rw [ih3 j]
      refine hptw h _ (if h.multiplier_ = 1 then 0 else res r) rfl
        (fun j' hj' => by
          split_ifs
          · exact Function.update_noteq hj' _ _
          · rfl)
        (by
          split_ifs with hm
          · exact Function.update_same _ _ _
          · rfl)
        (fun _ hm => by rw [if_pos hm])
        (fun _ hm => by rw [if_neg hm])
        (fun hx _ => by simp [hg] at hx)
        (fun hx _ => by simp [hg] at hx) j
    · have hg' : (may && d.isNullAt r) = false := by simpa using hg
      rw [hunf, if_neg hg]
      by_cases hc0 : cache (d.index r) = 0
      · rw [if_pos hc0]
        rcases ih (analyzeValue h (d.baseAt (d.index r))) res hnd' with ⟨ih1, ih2, ih3⟩
        refine ⟨ih1, ?_, ?_⟩
        · rw [ih2, List.filter_cons_of_pos (by simp [hg', hc0])]
          rfl
        · intro j
          rw [ih3 j]
          refine hptw (analyzeValue h (d.baseAt (d.index r))) res (res r)
            (analyzeValue_multiplier h _) (fun _ _ => rfl) rfl
            (fun hx _ => by simp [hg'] at hx)
            (fun hx _ => by simp [hg'] at hx)
            (fun _ hcx => absurd hc0 hcx)
            (fun _ _ => rfl) j
      · rw [if_neg hc0]
        rcases ih h (Function.update res r (applyMult h (res r) (cache (d.index r)))) hnd'
          with ⟨ih1, ih2, ih3⟩
        refine ⟨ih1, by rw [ih2, List.filter_cons_of_neg (by simp [hg', hc0])], ?_⟩
        intro j
        rw [ih3 j]
        refine hptw h _ (applyMult h (res r) (cache (d.index r))) rfl
          (fun j' hj' => Function.update_noteq hj' _ _)
          (Function.update_same _ _ _)
          (fun hx _ => by simp [hg'] at hx)
          (fun hx _ => by simp [hg'] at hx)
          (fun _ _ => rfl)
          (fun _ hcx => absurd hcx hc0) j

theorem decodedLoop_spec (h : Hasher) (d : Decoded) (may : Bool) (rows : List Nat)
    (cache res : Nat → Nat) (hnd : rows.Nodup) (hca : CacheOK h d cache) :
    ((decodedLoop h d may rows true cache res).2.2 = true ↔
      ∀ r ∈ rows, (may && d.isNullAt r) = true ∨
        valueId h (d.baseAt (d.index r)) ≠ kUnmappable) ∧
    ((decodedLoop h d may rows true cache res).2.2 = true →
      (decodedLoop h d may rows true cache res).1 = h ∧
      ∀ j, (decodedLoop h d may rows true cache res).2.1 j =
        if j ∈ rows then
          if may && d.isNullAt j then (if h.multiplier_ = 1 then 0 else res j)
          else applyMult h (res j) (valueId h (d.baseAt (d.index j)))
        else res j) ∧
    (∀ r ∈ rows, (may && d.isNullAt r) = false →
      valueId h (d.baseAt (d.index r)) = kUnmappable →
      (decodedLoop h d may rows true cache res).2.1 r = res r) ∧
    (∀ r ∈ rows, (may && d.isNullAt r) = false →
      valueId h (d.baseAt (d.index r)) = kUnmappable →
      (decodedLoop h d may rows true cache res).1.distinctOverflow_ = false →
      containsValue (decodedLoop h d may rows true cache res).1.uniqueValues_
        (d.baseAt (d.index r)) = true) ∧
    (∀ r ∈ rows, (may && d.isNullAt r) = true →
      (h.multiplier_ = 1 → (decodedLoop h d may rows true cache res).2.1 r = 0) ∧
      (h.multiplier_ ≠ 1 → (decodedLoop h d may rows true cache res).2.1 r = res r)) ∧
    (∀ j, j ∉ rows → (decodedLoop h d may rows true cache res).2.1 j = res j) := by
  induction rows generalizing cache res with
  | nil =>
    refine ⟨by simp [decodedLoop], ?_, by simp, by simp, by simp, fun j _ => rfl⟩
    intro _
    exact ⟨rfl, fun j => by simp [decodedLoop]⟩
  | cons r rest ih =>
    rcases List.nodup_cons.mp hnd with ⟨hrnotin, hnd'⟩
    have hunf : decodedLoop h d may (r :: rest) true cache res =
        (if may && d.isNullAt r then
          decodedLoop h d may rest true cache
            (if h.multiplier_ = 1 then Function.update res r 0 else res)
        else if cache (d.index r) = 0 then
          (if valueId h (d.baseAt (d.index r)) = kUnmappable then
            decodedLoop (analyzeValue h (d.baseAt (d.index r))) d may rest false cache res
          else decodedLoop h d may rest true
            (Function.update cache (d.index r) (valueId h (d.baseAt (d.index r))))
            (Function.update res r
              (applyMult h (res r) (valueId h (d.baseAt (d.index r))))))
        else decodedLoop h d may rest true cache
          (Function.update res r (applyMult h (res r) (cache (d.index r))))) := rfl
    by_cases hg : (may && d.isNullAt r) = true
    · rw [hunf, if_pos hg]
      rcases ih cache (if h.multiplier_ = 1 then Function.update res r 0 else res) hnd' hca
        with ⟨ih1, ih2, ih3, ih4, ih5, ih6⟩
      have hresj : ∀ j, j ≠ r →
          (if h.multiplier_ = 1 then Function.update res r 0 else res) j = res j := by
        intro j hj
        split_ifs
        · exact Function.update_noteq hj _ _
        · rfl
      refine ⟨?_, ?_, ?_, ?_, ?_, ?_⟩
      · rw [ih1]
        constructor
        · intro hall r' hr'
          rcases List.mem_cons.mp hr' with he | hm
          · rw [he]
            exact Or.inl hg
          · exact hall r' hm
        · intro hall r' hm
          exact hall r' (List.mem_cons_of_mem _ hm)
      · intro htrue
        rcases ih2 htrue with ⟨hh, hres⟩
        refine ⟨hh, ?_⟩
        intro j
        rw [hres j]
        by_cases hjrest : j ∈ rest
        · have hjr : j ≠ r := fun he => hrnotin (he ▸ hjrest)
          rw [if_pos hjrest, if_pos (List.mem_cons_of_mem _ hjrest), hresj j hjr]
        · by_cases hjr : j = r
          · subst hjr
            rw [if_neg hjrest, if_pos (List.mem_cons_self j rest), if_pos hg]
            split_ifs with hm
            · exact Function.update_same _ _ _
            · rfl
          · rw [if_neg hjrest, hresj j hjr, if_neg (by
              intro hmem
              rcases List.mem_cons.mp hmem with he | hm
              · exact hjr he
              · exact hjrest hm)]
      · intro r' hr' hg' hid'
        have hne : r' ≠ r := by
          intro he
          rw [he, hg] at hg'
          exact absurd hg' (by simp)
        rw [ih3 r' ((List.mem_cons.mp hr').resolve_left hne) hg' hid', hresj r' hne]
      · intro r' hr' hg' hid' hdov
        have hne : r' ≠ r := by
          intro he
          rw [he, hg] at hg'
          exact absurd hg' (by simp)
        exact ih4 r' ((List.mem_cons.mp hr').resolve_left hne) hg' hid' hdov
      · intro r' hr' hg'
        by_cases hne : r' = r
        · subst hne
          have hout := ih6 r' hrnotin
          constructor
          · intro hm
            rw [hout, if_pos hm]
            exact Function.update_same _ _ _
          · intro hm
            rw [hout, if_neg hm]
        · rcases ih5 r' ((List.mem_cons.mp hr').resolve_left hne) hg' with ⟨hm1, hm2⟩
          exact ⟨fun hm => by rw [hm1 hm], fun hm => by rw [hm2 hm, hresj r' hne]⟩
      · intro j hj
        have hjrest : j ∉ rest := fun hm => hj (List.mem_cons_of_mem _ hm)
        have hjr : j ≠ r := fun he => hj (he ▸ List.mem_cons_self r rest)
        rw [ih6 j hjrest, hresj j hjr]
    · have hg' : (may && d.isNullAt r) = false := by simpa using hg
      rw [hunf, if_neg hg]
      by_cases hc0 : cache (d.index r) = 0
      · rw [if_pos hc0]
        by_cases hid : valueId h (d.baseAt (d.index r)) = kUnmappable
        · rw [if_pos hid]
          rcases decodedLoop_false_spec (analyzeValue h (d.baseAt (d.index r))) d may rest
            cache res hnd' with ⟨hf1, hf2, hf3⟩
          have hcache0 : ∀ r', valueId h (d.baseAt (d.index r')) = kUnmappable →
              cache (d.index r') = 0 := by
            intro r' hid'
            by_cases hcx : cache (d.index r') = 0
            · exact hcx
            · exact absurd (hca (d.index r') hcx).2 (by rw [hid']; simp)
          refine ⟨?_, ?_, ?_, ?_, ?_, ?_⟩
          · rw [hf1]
            simp only [Bool.false_eq_true, false_iff]
            intro hall
            rcases hall r (List.mem_cons_self r rest) with hn | hv
            · rw [hn] at hg'
              exact absurd hg' (by simp)
            · exact hv hid
          · intro hft
            rw [hf1] at hft
            exact absurd hft (by simp)
          · intro r' hr' hgr' hid'
            have hn1 : ¬(r' ∈ rest ∧ (may && d.isNullAt r') = true ∧
                (analyzeValue h (d.baseAt (d.index r))).multiplier_ = 1) := by
              rintro ⟨_, hjg, _⟩
              rw [hgr'] at hjg
              exact absurd hjg (by simp)
            have hn2 : ¬(r' ∈ rest ∧ (may && d.isNullAt r') = false ∧
                cache (d.index r') ≠ 0) := by
              rintro ⟨_, _, hcx⟩
              exact hcx (hcache0 r' hid')
            rw [hf3 r', if_neg hn1, if_neg hn2]
          · intro r' hr' hgr' hid' hdov
            rw [hf2] at hdov ⊢
            rcases List.mem_cons.mp hr' with he | hm
            · subst he
              have hdov1 : (analyzeValue h (d.baseAt (d.index r'))).distinctOverflow_ =
                  false := foldAnalyze_dov_of_false hdov
              exact foldAnalyze_contains_mono (analyzeValue_contains_self hdov1)
            · have hmem : d.baseAt (d.index r') ∈
                  (rest.filter (fun x => !(may && d.isNullAt x) && cache (d.index x) == 0)).map
                    (fun x => d.baseAt (d.index x)) :=
                List.mem_map_of_mem _
                  (List.mem_filter.mpr ⟨hm, by simp [hgr', hcache0 r' hid']⟩)
              exact foldAnalyze_contains_mem hmem hdov
          · intro r' hr' hgr'
            have hne : r' ≠ r := by
              intro he
              rw [he] at hgr'
              rw [hgr'] at hg'
              exact absurd hg' (by simp)
            have hrm : r' ∈ rest := (List.mem_cons.mp hr').resolve_left hne
            constructor
            · intro hm
              have hp1 : r' ∈ rest ∧ (may && d.isNullAt r') = true ∧
                  (analyzeValue h (d.baseAt (d.index r))).multiplier_ = 1 :=
                ⟨hrm, hgr', by rw [analyzeValue_multiplier]; exact hm⟩
              rw [hf3 r', if_pos hp1]
            · intro hm
              have hn1 : ¬(r' ∈ rest ∧ (may && d.isNullAt r') = true ∧
                  (analyzeValue h (d.baseAt (d.index r))).multiplier_ = 1) := by
                rintro ⟨_, _, hc⟩
                rw [analyzeValue_multiplier] at hc
                exact hm hc
              have hn2 : ¬(r' ∈ rest ∧ (may && d.isNullAt r') = false ∧
                  cache (d.index r') ≠ 0) := by
                rintro ⟨_, hjg, _⟩
                rw [hgr'] at hjg
                exact absurd hjg (by simp)
              rw [hf3 r', if_neg hn1, if_neg hn2]
          · intro j hj
            have hjrest : j ∉ rest := fun hm => hj (List.mem_cons_of_mem _ hm)
            have hn1 : ¬(j ∈ rest ∧ (may && d.isNullAt j) = true ∧
                (analyzeValue h (d.baseAt (d.index r))).multiplier_ = 1) := by
              rintro ⟨hjm, _, _⟩
              exact hjrest hjm
            have hn2 : ¬(j ∈ rest ∧ (may && d.isNullAt j) = false ∧
                cache (d.index j) ≠ 0) := by
              rintro ⟨hjm, _, _⟩
              exact hjrest hjm
            rw [hf3 j, if_neg hn1, if_neg hn2]
        · rw [if_neg hid]
          have hca1 : CacheOK h d
              (Function.update cache (d.index r) (valueId h (d.baseAt (d.index r)))) := by
            intro b hb
            by_cases hbe : b = d.index r
            · subst hbe
              rw [Function.update_same] at hb ⊢
              exact ⟨rfl, hid⟩
            · rw [Function.update_noteq hbe] at hb ⊢
              exact hca b hb
          rcases ih (Function.update cache (d.index r) (valueId h (d.baseAt (d.index r))))
            (Function.update res r (applyMult h (res r) (valueId h (d.baseAt (d.index r)))))
            hnd' hca1 with ⟨ih1, ih2, ih3, ih4, ih5, ih6⟩
          refine ⟨?_, ?_, ?_, ?_, ?_, ?_⟩
          · rw [ih1]
            constructor
            · intro hall r' hr'
              rcases List.mem_cons.mp hr' with he | hm
              · rw [he]
                exact Or.inr hid
              · exact hall r' hm
            · intro hall r' hm
              exact hall r' (List.mem_cons_of_mem _ hm)
          · intro htrue
            rcases ih2 htrue with ⟨hh, hres⟩
            refine ⟨hh, ?_⟩
            intro j
            rw [hres j]
            by_cases hjrest : j ∈ rest
            · have hjr : j ≠ r := fun he => hrnotin (he ▸ hjrest)
              rw [if_pos hjrest, if_pos (List.mem_cons_of_mem _ hjrest),
                Function.update_noteq hjr]
            · by_cases hjr : j = r
              · subst hjr
                rw [if_neg hjrest, if_pos (List.mem_cons_self j rest), if_neg (by
                  rw [hg']
                  simp), Function.update_same]
              · rw [if_neg hjrest, Function.update_noteq hjr, if_neg (by
                  intro hmem
                  rcases List.mem_cons.mp hmem with he | hm
                  · exact hjr he
                  · exact hjrest hm)]
          · intro r' hr' hgr' hid'
            have hne : r' ≠ r := fun he => hid (he ▸ hid')
            rw [ih3 r' ((List.mem_cons.mp hr').resolve_left hne) hgr' hid',
              Function.update_noteq hne]
          · intro r' hr' hgr' hid' hdov
            have hne : r' ≠ r := fun he => hid (he ▸ hid')
            exact ih4 r' ((List.mem_cons.mp hr').resolve_left hne) hgr' hid' hdov
          · intro r' hr' hgr'
            have hne : r' ≠ r := by
              intro he
              rw [he] at hgr'
              rw [hgr'] at hg'
              exact absurd hg' (by simp)
            rcases ih5 r' ((List.mem_cons.mp hr').resolve_left hne) hgr' with ⟨hm1, hm2⟩
            exact ⟨fun hm => by rw [hm1 hm], fun hm => by
              rw [hm2 hm, Function.update_noteq hne]⟩
          · intro j hj
            have hjrest : j ∉ rest := fun hm => hj (List.mem_cons_of_mem _ hm)
            have hjr : j ≠ r := fun he => hj (he ▸ List.mem_cons_self r rest)
            rw [ih6 j hjrest, Function.update_noteq hjr]
      · rw [if_neg hc0]
        rcases hca (d.index r) hc0 with ⟨hcv, hcm⟩
        rcases ih cache
          (Function.update res r (applyMult h (res r) (cache (d.index r)))) hnd' hca with
          ⟨ih1, ih2, ih3, ih4, ih5, ih6⟩
        refine ⟨?_, ?_, ?_, ?_, ?_, ?_⟩
        · rw [ih1]
          constructor
          · intro hall r' hr'
            rcases List.mem_cons.mp hr' with he | hm
            · rw [he]
              exact Or.inr hcm
            · exact hall r' hm
          · intro hall r' hm
            exact hall r' (List.mem_cons_of_mem _ hm)
        · intro htrue
          rcases ih2 htrue with ⟨hh, hres⟩
          refine ⟨hh, ?_⟩
          intro j
          rw [hres j]
          by_cases hjrest : j ∈ rest
          · have hjr : j ≠ r := fun he => hrnotin (he ▸ hjrest)
            rw [if_pos hjrest, if_pos (List.mem_cons_of_mem _ hjrest),
              Function.update_noteq hjr]
          · by_cases hjr : j = r
            · subst hjr
              rw [if_neg hjrest, if_pos (List.mem_cons_self j rest), if_neg (by
                rw [hg']
                simp), Function.update_same, hcv]
            · rw [if_neg hjrest, Function.update_noteq hjr, if_neg (by
                intro hmem
                rcases List.mem_cons.mp hmem with he | hm
                · exact hjr he
                · exact hjrest hm)]
        · intro r' hr' hgr' hid'
          have hne : r' ≠ r := by
            intro he
            rw [he] at hid'
            exact hcm hid'
          rw [ih3 r' ((List.mem_cons.mp hr').resolve_left hne) hgr' hid',
            Function.update_noteq hne]
        · intro r' hr' hgr' hid' hdov
          have hne : r' ≠ r := by
            intro he
            rw [he] at hid'
            exact hcm hid'
          exact ih4 r' ((List.mem_cons.mp hr').resolve_left hne) hgr' hid' hdov
        · intro r' hr' hgr'
          have hne : r' ≠ r := by
            intro he
            rw [he] at hgr'
            rw [hgr'] at hg'
            exact absurd hg' (by simp)
          rcases ih5 r' ((List.mem_cons.mp hr').resolve_left hne) hgr' with ⟨hm1, hm2⟩
          exact ⟨fun hm => by rw [hm1 hm], fun hm => by
            rw [hm2 hm, Function.update_noteq hne]⟩
        · intro j hj
          have hjrest : j ∉ rest := fun hm => hj (List.mem_cons_of_mem _ hm)
          have hjr : j ≠ r := fun he => hj (he ▸ List.mem_cons_self r rest)
          rw [ih6 j hjrest, Function.update_noteq hjr]

theorem kUnmappable_ne_zero : kUnmappable ≠ 0 := by decide

theorem applyMult_zero (h : Hasher) {old : Nat} (hold : old < 2 ^ 64) :
    applyMult h old 0 = if h.multiplier_ = 1 then 0 else old := by
  unfold applyMult
  split_ifs
  · rfl
  · rw [Nat.mul_zero, Nat.add_zero, Nat.mod_eq_of_lt hold]

theorem flatNoNullsLoop_frame (h : Hasher) (d : Decoded) (rows : List Nat) (s : Bool)
    (res : Nat → Nat) (j : Nat) (hj : j ∉ rows) :
    (flatNoNullsLoop h d rows s res).2.1 j = res j := by
  induction rows generalizing h s res with
  | nil => rfl
  | cons r rest ih =>
    have hjr : j ≠ r := fun he => hj (he ▸ List.mem_cons_self r rest)
    have hjrest : j ∉ rest := fun hm => hj (List.mem_cons_of_mem _ hm)
    simp only [flatNoNullsLoop]
    split_ifs
    · exact ih _ _ _ hjrest
    · exact ih _ _ _ hjrest
    · rw [ih _ _ _ hjrest, Function.update_noteq hjr]

theorem makeValueIdsConstant_eq (h : Hasher) (d : Decoded) (rows : List Nat)
    (res : Nat → Nat) :
    makeValueIdsConstant h d rows res =
      (if (if d.isNullAt (rows.headD 0) then 0 else valueId h (d.valueAt (rows.headD 0)))
          = kUnmappable then
        (analyzeValue h (d.valueAt (rows.headD 0)), res, false)
      else
        (h, writeRows (fun _ old => applyMult h old
            (if d.isNullAt (rows.headD 0) then 0 else valueId h (d.valueAt (rows.headD 0))))
          rows res, true)) := rfl

theorem makeValueIdsFlatNoNulls_eq (h : Hasher) (d : Decoded) (rows : List Nat)
    (res : Nat → Nat) :
    makeValueIdsFlatNoNulls h d rows res =
      if h.isRange_ = true ∧
          rows.all (fun r => valueId h (d.baseAt r) != kUnmappable) = true then
        (h, writeRows (fun r old => applyMult h old (valueId h (d.baseAt r))) rows res, true)
      else flatNoNullsLoop h d rows true res := by
  unfold makeValueIdsFlatNoNulls tryMapToRange
  by_cases hr : h.isRange_ = true
  · rw [if_pos hr]
    by_cases hall : rows.all (fun r => valueId h (d.baseAt r) != kUnmappable) = true
    · rw [if_pos hall, if_pos ⟨hr, hall⟩]
    · rw [if_neg hall, if_neg (fun hc => hall hc.2)]
  · rw [if_neg hr, if_neg (fun hc => hr hc.1)]

theorem makeValueIds_spec (h : Hasher) (d : Decoded) (rows : List Nat) (res : Nat → Nat)
    (hwf : d.wfOn rows) (hnd : rows.Nodup) (hne : rows ≠ []) (hb : ∀ j, res j < 2 ^ 64) :
    ((makeValueIds h d rows res).2.2 = true ↔
      ∀ r ∈ rows, d.isNullAt r = true ∨ valueId h (d.valueAt r) ≠ kUnmappable) ∧
    ((makeValueIds h d rows res).2.2 = true →
      (makeValueIds h d rows res).1 = h ∧
      ∀ j, (makeValueIds h d rows res).2.1 j =
        if j ∈ rows then
          if d.isNullAt j then (if h.multiplier_ = 1 then 0 else res j)
          else applyMult h (res j) (valueId h (d.valueAt j))
        else res j) ∧
    (∀ r ∈ rows, d.isNullAt r = false → valueId h (d.valueAt r) = kUnmappable →
      (makeValueIds h d rows res).2.1 r = res r) ∧
    (∀ r ∈ rows, d.isNullAt r = false → valueId h (d.valueAt r) = kUnmappable →
      (makeValueIds h d rows res).1.distinctOverflow_ = false →
      containsValue (makeValueIds h d rows res).1.uniqueValues_ (d.valueAt r) = true) ∧
    (∀ r ∈ rows, d.isNullAt r = true →
      (h.multiplier_ = 1 → (makeValueIds h d rows res).2.1 r = 0) ∧
      (h.multiplier_ ≠ 1 → (makeValueIds h d rows res).2.1 r = res r)) ∧
    (∀ j, j ∉ rows → (makeValueIds h d rows res).2.1 j = res j) := by
  obtain ⟨hwfI, hwfC, hwfN⟩ := hwf
  by_cases hcm : d.constantMapping = true
  · have hbm : rows.headD 0 ∈ rows := by
      cases rows with
      | nil => exact absurd rfl hne
      | cons x xs => exact List.mem_cons_self x xs
    have heq0 : makeValueIds h d rows res = makeValueIdsConstant h d rows res := by
      unfold makeValueIds
      rw [if_pos hcm]
    by_cases hnb : d.isNullAt (rows.headD 0) = true
    · have hallnull : ∀ r ∈ rows, d.isNullAt r = true := fun r hr => by
        rw [(hwfC hcm r hr (rows.headD 0) hbm).1, hnb]
      have heq : makeValueIds h d rows res =
          (h, writeRows (fun _ old => applyMult h old 0) rows res, true) := by
        rw [heq0, makeValueIdsConstant_eq, if_pos hnb,
          if_neg (show (0 : Nat) ≠ kUnmappable from fun hc => kUnmappable_ne_zero hc.symm)]
      have h1 : (makeValueIds h d rows res).2.2 = true := by rw [heq]
      have hh : (makeValueIds h d rows res).1 = h := by rw [heq]
      have hres : ∀ j, (makeValueIds h d rows res).2.1 j =
          writeRows (fun _ old => applyMult h old 0) rows res j := fun j => by rw [heq]
      refine ⟨⟨fun _ r hr => Or.inl (hallnull r hr), fun _ => h1⟩, ?_, ?_, ?_, ?_, ?_⟩
      · intro _
        refine ⟨hh, fun j => ?_⟩
        rw [hres j, writeRows_eq _ res hnd j]
        by_cases hj : j ∈ rows
        · rw [if_pos hj, if_pos hj, if_pos (hallnull j hj), applyMult_zero h (hb j)]
        · rw [if_neg hj, if_neg hj]
      · intro r hr hrn _
        rw [hallnull r hr] at hrn
        exact absurd hrn (by simp)
      · intro r hr hrn _ _
        rw [hallnull r hr] at hrn
        exact absurd hrn (by simp)
      · intro r hr _
        constructor
        · intro hm
          rw [hres r, writeRows_eq _ res hnd r, if_pos hr, applyMult_zero h (hb r), if_pos hm]
        · intro hm
          rw [hres r, writeRows_eq _ res hnd r, if_pos hr, applyMult_zero h (hb r), if_neg hm]
      · intro j hj
        rw [hres j, writeRows_eq _ res hnd j, if_neg hj]
    · have hnb' : d.isNullAt (rows.headD 0) = false := by simpa using hnb
      have hallnn : ∀ r ∈ rows, d.isNullAt r = false := fun r hr => by
        rw [(hwfC hcm r hr (rows.headD 0) hbm).1, hnb']
      have hallv : ∀ r ∈ rows, d.valueAt r = d.valueAt (rows.headD 0) := fun r hr =>
        (hwfC hcm r hr (rows.headD 0) hbm).2
      by_cases hid : valueId h (d.valueAt (rows.headD 0)) = kUnmappable
      · have heq : makeValueIds h d rows res =
            (analyzeValue h (d.valueAt (rows.headD 0)), res, false) := by
          rw [heq0, makeValueIdsConstant_eq, if_neg hnb, if_pos hid]
        have hret : (makeValueIds h d rows res).2.2 = false := by rw [heq]
        have hh' : (makeValueIds h d rows res).1 =
            analyzeValue h (d.valueAt (rows.headD 0)) := by rw [heq]
        have hres' : ∀ j, (makeValueIds h d rows res).2.1 j = res j := fun j => by rw [heq]
        refine ⟨?_, ?_, fun r _ _ _ => hres' r, ?_, ?_, fun j _ => hres' j⟩
        · rw [hret]
          simp only [Bool.false_eq_true, false_iff]
          intro hall
          rcases hall (rows.headD 0) hbm with hn | hv
          · rw [hnb'] at hn
            exact absurd hn (by simp)
          · exact hv hid
        · intro hft
          rw [hret] at hft
          exact absurd hft (by simp)
        · intro r hr _ _ hdov
          rw [hh'] at hdov ⊢
          rw [hallv r hr]
          exact analyzeValue_contains_self hdov
        · intro r hr hrn
          rw [hallnn r hr] at hrn
          exact absurd hrn (by simp)
      · have heq : makeValueIds h d rows res =
            (h, writeRows (fun _ old => applyMult h old
              (valueId h (d.valueAt (rows.headD 0)))) rows res, true) := by
          rw [heq0, makeValueIdsConstant_eq, if_neg hnb, if_neg hid]
        have h1 : (makeValueIds h d rows res).2.2 = true := by rw [heq]
        have hh : (makeValueIds h d rows res).1 = h := by rw [heq]
        have hres : ∀ j, (makeValueIds h d rows res).2.1 j =
            writeRows (fun _ old => applyMult h old
              (valueId h (d.valueAt (rows.headD 0)))) rows res j := fun j => by rw [heq]
        refine ⟨⟨fun _ r hr => Or.inr (by rw [hallv r hr]; exact hid), fun _ => h1⟩,
          ?_, ?_, ?_, ?_, ?_⟩
        · intro _
          refine ⟨hh, fun j => ?_⟩
          rw [hres j, writeRows_eq _ res hnd j]
          by_cases hj : j ∈ rows
          · rw [if_pos hj, if_pos hj,
              if_neg (show ¬(d.isNullAt j = true) by rw [hallnn j hj]; simp), hallv j hj]
          · rw [if_neg hj, if_neg hj]
        · intro r hr _ hru
          rw [hallv r hr] at hru
          exact absurd hru hid
        · intro r hr _ hru _
          rw [hallv r hr] at hru
          exact absurd hru hid
        · intro r hr hrn
          rw [hallnn r hr] at hrn
          exact absurd hrn (by simp)
        · intro j hj
          rw [hres j, writeRows_eq _ res hnd j, if_neg hj]
  · by_cases him : d.identityMapping = true
    · have hval : ∀ r ∈ rows, d.valueAt r = d.baseAt r := fun r hr => by
        show d.baseAt (d.index r) = d.baseAt r
        rw [hwfI him r hr]
      by_cases hmn : d.mayHaveNulls = true
      · have heq : makeValueIds h d rows res = flatWithNullsLoop h d rows true res := by
          unfold makeValueIds
          rw [if_neg hcm, if_pos him, if_pos hmn]
        rcases flatWithNullsLoop_spec h d rows res hnd with ⟨f1, f2, f3, f4, f5, f6⟩
        refine ⟨?_, ?_, ?_, ?_, ?_, ?_⟩
        · rw [heq, f1]
          constructor
          · intro ha r hr
            rcases ha r hr with hn | hv
            · exact Or.inl hn
            · refine Or.inr ?_
              rw [hval r hr]
              exact hv
          · intro ha r hr
            rcases ha r hr with hn | hv
            · exact Or.inl hn
            · refine Or.inr ?_
              rw [← hval r hr]
              exact hv
        · intro htrue
          rw [heq] at htrue ⊢
          rcases f2 htrue with ⟨hh2, hres2⟩
          refine ⟨hh2, fun j => ?_⟩
          rw [hres2 j]
          by_cases hj : j ∈ rows
          · rw [if_pos hj, if_pos hj]
            by_cases hnull : d.isNullAt j = true
            · rw [if_pos hnull, if_pos hnull]
            · rw [if_neg hnull, if_neg hnull, hval j hj]
          · rw [if_neg hj, if_neg hj]
        · intro r hr hrn hru
          rw [hval r hr] at hru
          rw [heq]
          exact f3 r hr hrn hru
        · intro r hr hrn hru hdov
          rw [hval r hr] at hru
          rw [heq] at hdov ⊢
          rw [hval r hr]
          exact f4 r hr hrn hru hdov
        · intro r hr hrn
          rw [heq]
          exact f5 r hr hrn
        · intro j hj
          rw [heq]
          exact f6 j hj
      · have hmn' : d.mayHaveNulls = false := by simpa using hmn
        have hnn : ∀ r ∈ rows, d.isNullAt r = false := hwfN hmn'
        have heq : makeValueIds h d rows res = makeValueIdsFlatNoNulls h d rows res := by
          unfold makeValueIds
          rw [if_neg hcm, if_pos him, if_neg hmn]
        rw [makeValueIdsFlatNoNulls_eq] at heq
        by_cases hfast : h.isRange_ = true ∧
            rows.all (fun r => valueId h (d.baseAt r) != kUnmappable) = true
        · rw [if_pos hfast] at heq
          have hallmap : ∀ r ∈ rows, valueId h (d.baseAt r) ≠ kUnmappable := by
            intro r hr
            have hx : (valueId h (d.baseAt r) != kUnmappable) = true := by
              have hall := hfast.2
              simp only [List.all_eq_true] at hall
              exact hall r hr
            simpa using hx
          have h1 : (makeValueIds h d rows res).2.2 = true := by rw [heq]
          have hh : (makeValueIds h d rows res).1 = h := by rw [heq]
          have hres : ∀ j, (makeValueIds h d rows res).2.1 j =
              writeRows (fun r old => applyMult h old (valueId h (d.baseAt r))) rows res j :=
            fun j => by rw [heq]
          refine ⟨⟨fun _ r hr => Or.inr (by rw [hval r hr]; exact hallmap r hr),
            fun _ => h1⟩, ?_, ?_, ?_, ?_, ?_⟩
          · intro _
            refine ⟨hh, fun j => ?_⟩
            rw [hres j, writeRows_eq _ res hnd j]
            by_cases hj : j ∈ rows
            · rw [if_pos hj, if_pos hj,
                if_neg (show ¬(d.isNullAt j = true) by rw [hnn j hj]; simp), hval j hj]
            · rw [if_neg hj, if_neg hj]
          · intro r hr _ hru
            rw [hval r hr] at hru
            exact absurd hru (hallmap r hr)
          · intro r hr _ hru _
            rw [hval r hr] at hru
            exact absurd hru (hallmap r hr)
          · intro r hr hrn
            rw [hnn r hr] at hrn
            exact absurd hrn (by simp)
          · intro j hj
            rw [hres j, writeRows_eq _ res hnd j, if_neg hj]
        · rw [if_neg hfast] at heq
          rcases flatNoNullsLoop_spec h d rows res hnd with ⟨f1, f2, f3, f4⟩
          refine ⟨?_, ?_, ?_, ?_, ?_, ?_⟩
          · rw [heq, f1]
            constructor
            · intro ha r hr
              refine Or.inr ?_
              rw [hval r hr]
              exact ha r hr
            · intro ha r hr
              rcases ha r hr with hn | hv
              · rw [hnn r hr] at hn
                exact absurd hn (by simp)
              · rw [← hval r hr]
                exact hv
          · intro htrue
            rw [heq] at htrue ⊢
            rcases f2 htrue with ⟨hh2, hres2⟩
            refine ⟨hh2, fun j => ?_⟩
            rw [hres2 j]
            by_cases hj : j ∈ rows
            · rw [if_pos hj, if_pos hj,
                if_neg (show ¬(d.isNullAt j = true) by rw [hnn j hj]; simp), hval j hj]
            · rw [if_neg hj, if_neg hj]
          · intro r hr _ hru
            rw [hval r hr] at hru
            rw [heq]
            exact f3 r hr hru
          · intro r hr _ hru hdov
            rw [hval r hr] at hru
            rw [heq] at hdov ⊢
            rw [hval r hr]
            exact f4 r hr hru hdov
          · intro r hr hrn
            rw [hnn r hr] at hrn
            exact absurd hrn (by simp)
          · intro j hj
            rw [heq]
            exact flatNoNullsLoop_frame h d rows true res j hj
    · have heq : makeValueIds h d rows res =
          decodedLoop h d d.mayHaveNulls rows true (fun _ => 0) res := by
        unfold makeValueIds makeValueIdsDecoded
        rw [if_neg hcm, if_neg him]
      have hca0 : CacheOK h d (fun _ => 0) := fun b hb => absurd rfl hb
      have hv : ∀ r, d.valueAt r = d.baseAt (d.index r) := fun r => rfl
      rcases decodedLoop_spec h d d.mayHaveNulls rows (fun _ => 0) res hnd hca0 with
        ⟨f1, f2, f3, f4, f5, f6⟩
      have hnulleq : ∀ r ∈ rows, (d.mayHaveNulls && d.isNullAt r) = d.isNullAt r := by
        intro r hr
        cases hmh : d.mayHaveNulls with
        | false =>
          rw [hwfN hmh r hr]
          simp
        | true => simp
      refine ⟨?_, ?_, ?_, ?_, ?_, ?_⟩
      · rw [heq, f1]
        constructor
        · intro ha r hr
          rcases ha r hr with hn | hv2
          · rw [hnulleq r hr] at hn
            exact Or.inl hn
          · refine Or.inr ?_
            rw [hv r]
            exact hv2
        · intro ha r hr
          rcases ha r hr with hn | hv2
          · rw [hnulleq r hr]
            exact Or.inl hn
          · refine Or.inr ?_
            rw [← hv r]
            exact hv2
      · intro htrue
        rw [heq] at htrue ⊢
        rcases f2 htrue with ⟨hh2, hres2⟩
        refine ⟨hh2, fun j => ?_⟩
        rw [hres2 j]
        by_cases hj : j ∈ rows
        · rw [if_pos hj, if_pos hj, hnulleq j hj]
          by_cases hnull : d.isNullAt j = true
          · rw [if_pos hnull, if_pos hnull]
          · rw [if_neg hnull, if_neg hnull, hv j]
        · rw [if_neg hj, if_neg hj]
      · intro r hr hrn hru
        rw [hv r] at hru
        rw [heq]
        refine f3 r hr ?_ hru
        rw [hnulleq r hr]
        exact hrn
      · intro r hr hrn hru hdov
        rw [hv r] at hru
        rw [heq] at hdov ⊢
        rw [hv r]
        refine f4 r hr ?_ hru hdov
        rw [hnulleq r hr]
        exact hrn
      · intro r hr hrn
        rw [heq]
        refine f5 r hr ?_
        rw [hnulleq r hr]
        exact hrn
      · intro j hj
        rw [heq]
        exact f6 j hj

theorem mem_selectedRows {s : SelectivityVector} {r : Nat} :
    r ∈ s.selectedRows ↔ r < s.endRow ∧ s.beginRow ≤ r ∧ s.isValid r = true := by
  unfold SelectivityVector.selectedRows
  simp [List.mem_filter, List.mem_range, and_assoc]

theorem selectedRows_nodup (s : SelectivityVector) : s.selectedRows.Nodup :=
  (List.nodup_range _).filter _

theorem isValid_setValid_false_self (s : SelectivityVector) (r : Nat) :
    (s.setValid r false).isValid r = false := by
  unfold SelectivityVector.setValid SelectivityVector.isValid
  by_cases hr : r < s.bits.length
  · rw [List.getD_eq_getElem?_getD, List.getElem?_set_self (by simpa using hr)]
    rfl
  · have hl : s.bits.length ≤ r := Nat.le_of_not_lt hr
    rw [List.getD_eq_getElem?_getD, List.getElem?_eq_none (by simpa using hl)]
    rfl

theorem isValid_setValid_ne (s : SelectivityVector) (r : Nat) (v : Bool) {j : Nat}
    (hj : j ≠ r) : (s.setValid r v).isValid j = s.isValid j := by
  unfold SelectivityVector.setValid SelectivityVector.isValid
  rw [List.getD_eq_getElem?_getD, List.getD_eq_getElem?_getD,
    List.getElem?_set_ne (Ne.symm hj)]

theorem pairwise_lt_le_getLastD (l : List Nat) :
    l.Pairwise (· < ·) → ∀ r ∈ l, ∀ dflt, r ≤ l.getLastD dflt := by
  induction l with
  | nil =>
    intro _ r hr
    cases hr
  | cons x xs ih =>
    intro hp r hr dflt
    rcases List.pairwise_cons.mp hp with ⟨hall, hp'⟩
    rw [List.getLastD_cons]
    rcases List.mem_cons.mp hr with he | hm
    · subst he
      cases xs with
      | nil => exact Nat.le_refl _
      | cons y ys =>
        exact Nat.le_trans (Nat.le_of_lt (hall y (List.mem_cons_self y ys)))
          (ih hp' y (List.mem_cons_self y ys) r)
    · exact ih hp' r hm x

theorem pairwise_lt_headD_le (l : List Nat) :
    l.Pairwise (· < ·) → ∀ r ∈ l, l.headD 0 ≤ r := by
  intro hp r hr
  cases l with
  | nil => cases hr
  | cons x xs =>
    rcases List.mem_cons.mp hr with he | hm
    · subst he
      exact Nat.le_refl _
    · exact Nat.le_of_lt ((List.pairwise_cons.mp hp).1 r hm)

theorem isValid_mem_filter_range {s : SelectivityVector} {r : Nat} :
    r ∈ (List.range s.bits.length).filter (fun j => s.isValid j) ↔ s.isValid r = true := by
  constructor
  · intro hx
    exact (List.mem_filter.mp hx).2
  · intro hx
    refine List.mem_filter.mpr ⟨List.mem_range.mpr ?_, hx⟩
    by_contra hlen
    have hl : s.bits.length ≤ r := Nat.le_of_not_lt hlen
    unfold SelectivityVector.isValid at hx
    rw [List.getD_eq_getElem?_getD, List.getElem?_eq_none hl] at hx
    exact absurd hx (by simp)

theorem mem_updateBounds_selectedRows (s : SelectivityVector) (r : Nat) :
    r ∈ s.updateBounds.selectedRows ↔ s.isValid r = true := by
  have hpl : ((List.range s.bits.length).filter (fun j => s.isValid j)).Pairwise (· < ·) :=
    (List.pairwise_lt_range _).filter _
  by_cases hl : (List.range s.bits.length).filter (fun j => s.isValid j) = []
  · have hub : s.updateBounds = { s with beginRow := 0, endRow := 0 } := by
      simp only [SelectivityVector.updateBounds]
      rw [if_pos hl]
    rw [hub]
    constructor
    · intro hx
      rcases mem_selectedRows.mp hx with ⟨hx1, _, _⟩
      exact absurd hx1 (by simp)
    · intro hx
      have hmem := isValid_mem_filter_range.mpr hx
      rw [hl] at hmem
      cases hmem
  · obtain ⟨x, xs, hxs⟩ : ∃ x xs,
        (List.range s.bits.length).filter (fun j => s.isValid j) = x :: xs := by
      cases hfl : (List.range s.bits.length).filter (fun j => s.isValid j) with
      | nil => exact absurd hfl hl
      | cons a as => exact ⟨a, as, rfl⟩
    have hub : s.updateBounds =
        { s with beginRow := x, endRow := (x :: xs).getLastD 0 + 1 } := by
      simp only [SelectivityVector.updateBounds]
      rw [hxs, if_neg (by simp)]
      rfl
    rw [hub, mem_selectedRows]
    have hval : ({ s with beginRow := x, endRow := (x :: xs).getLastD 0 + 1 }
        : SelectivityVector).isValid r = s.isValid r := rfl
    rw [hval]
    show r < (x :: xs).getLastD 0 + 1 ∧ x ≤ r ∧ s.isValid r = true ↔ s.isValid r = true
    constructor
    · rintro ⟨_, _, hv⟩
      exact hv
    · intro hv
      have hrmem : r ∈ x :: xs := by
        rw [← hxs]
        exact isValid_mem_filter_range.mpr hv

      have hpl' : (x :: xs).Pairwise (· < ·) := hxs ▸ hpl
      refine ⟨Nat.lt_succ_of_le (pairwise_lt_le_getLastD _ hpl' r hrmem 0), ?_, hv⟩
      exact pairwise_lt_headD_le _ hpl' r hrmem

theorem lookupIdentityLoop_spec (h : Hasher) (d : Decoded) (rows : List Nat)
    (s : SelectivityVector) (res : Nat → Nat) (hnd : rows.Nodup) :
    (∀ r, (lookupIdentityLoop h d rows s res).1.isValid r =
      if r ∈ rows ∧ d.isNullAt r = false ∧ lookupValueId h (d.valueAt r) = kUnmappable
      then false else s.isValid r) ∧
    (∀ j, (lookupIdentityLoop h d rows s res).2 j =
      if j ∈ rows then
        if d.isNullAt j then (if h.multiplier_ = 1 then 0 else res j)
        else if lookupValueId h (d.valueAt j) = kUnmappable then res j
        else applyMult h (res j) (lookupValueId h (d.valueAt j))
      else res j) := by
  induction rows generalizing s res with
  | nil =>
    exact ⟨fun r => by simp [lookupIdentityLoop], fun j => by simp [lookupIdentityLoop]⟩
  | cons r rest ih =>
    rcases List.nodup_cons.mp hnd with ⟨hrn, hnd'⟩
    have hunf : lookupIdentityLoop h d (r :: rest) s res =
        (if d.isNullAt r then
          lookupIdentityLoop h d rest s
            (if h.multiplier_ = 1 then Function.update res r 0 else res)
        else if lookupValueId h (d.valueAt r) = kUnmappable then
          lookupIdentityLoop h d rest (s.setValid r false) res
        else lookupIdentityLoop h d rest s
          (Function.update res r (applyMult h (res r) (lookupValueId h (d.valueAt r))))) := rfl
    by_cases hnull : d.isNullAt r = true
    · rw [hunf, if_pos hnull]
      rcases ih s (if h.multiplier_ = 1 then Function.update res r 0 else res) hnd' with
        ⟨ih1, ih2⟩
      have hresj : ∀ j, j ≠ r →
          (if h.multiplier_ = 1 then Function.update res r 0 else res) j = res j := by
        intro j hj
        split_ifs
        · exact Function.update_noteq hj _ _
        · rfl
      constructor
      · intro r'
        rw [ih1 r']
        by_cases hc : r' ∈ rest ∧ d.isNullAt r' = false ∧
            lookupValueId h (d.valueAt r') = kUnmappable
        · rw [if_pos hc, if_pos ⟨List.mem_cons_of_mem _ hc.1, hc.2⟩]
        · have hnc : ¬(r' ∈ r :: rest ∧ d.isNullAt r' = false ∧
              lookupValueId h (d.valueAt r') = kUnmappable) := by
            rintro ⟨hm, hn2, hu⟩
            rcases List.mem_cons.mp hm with he | hm'
            · rw [he, hnull] at hn2
              exact absurd hn2 (by simp)
            · exact hc ⟨hm', hn2, hu⟩
          rw [if_neg hc, if_neg hnc]
      · intro j
        rw [ih2 j]
        by_cases hj : j ∈ rest
        · have hjr : j ≠ r := fun he => hrn (he ▸ hj)
          rw [if_pos hj, if_pos (List.mem_cons_of_mem _ hj), hresj j hjr]
        · by_cases hjr : j = r
          · subst hjr
            rw [if_neg hj, if_pos (List.mem_cons_self j rest), if_pos hnull]
            split_ifs with hm
            · exact Function.update_same _ _ _
            · rfl
          · have hnm : ¬(j ∈ r :: rest) := by
              intro hmem
              rcases List.mem_cons.mp hmem with he | hm'
              · exact hjr he
              · exact hj hm'
            rw [if_neg hj, hresj j hjr, if_neg hnm]
    · have hnull' : d.isNullAt r = false := by simpa using hnull
      rw [hunf, if_neg hnull]
      by_cases hu : lookupValueId h (d.valueAt r) = kUnmappable
      · rw [if_pos hu]
        rcases ih (s.setValid r false) res hnd' with ⟨ih1, ih2⟩
        constructor
        · intro r'
          rw [ih1 r']
          by_cases hc : r' ∈ rest ∧ d.isNullAt r' = false ∧
              lookupValueId h (d.valueAt r') = kUnmappable
          · rw [if_pos hc, if_pos ⟨List.mem_cons_of_mem _ hc.1, hc.2⟩]
          · rw [if_neg hc]
            by_cases hre : r' = r
            · subst hre
              rw [if_pos ⟨List.mem_cons_self r' rest, hnull', hu⟩]
              exact isValid_setValid_false_self s r'
            · have hnc : ¬(r' ∈ r :: rest ∧ d.isNullAt r' = false ∧
                  lookupValueId h (d.valueAt r') = kUnmappable) := by
                rintro ⟨hm, hn2, hu2⟩
                rcases List.mem_cons.mp hm with he | hm'
                · exact hre he
                · exact hc ⟨hm', hn2, hu2⟩
              rw [if_neg hnc]
              exact isValid_setValid_ne s r false hre
        · intro j
          rw [ih2 j]
          by_cases hj : j ∈ rest
          · rw [if_pos hj, if_pos (List.mem_cons_of_mem _ hj)]
          · by_cases hjr : j = r
            · subst hjr
              rw [if_neg hj, if_pos (List.mem_cons_self j rest), if_neg (by
                  rw [hnull']
                  simp), if_pos hu]
            · have hnm : ¬(j ∈ r :: rest) := by
                intro hmem
                rcases List.mem_cons.mp hmem with he | hm'
                · exact hjr he
                · exact hj hm'
              rw [if_neg hj, if_neg hnm]
      · rw [if_neg hu]
        rcases ih s
          (Function.update res r (applyMult h (res r) (lookupValueId h (d.valueAt r))))
          hnd' with ⟨ih1, ih2⟩
        constructor
        · intro r'
          rw [ih1 r']
          by_cases hc : r' ∈ rest ∧ d.isNullAt r' = false ∧
              lookupValueId h (d.valueAt r') = kUnmappable
          · rw [if_pos hc, if_pos ⟨List.mem_cons_of_mem _ hc.1, hc.2⟩]
          · have hnc : ¬(r' ∈ r :: rest ∧ d.isNullAt r' = false ∧
                lookupValueId h (d.valueAt r') = kUnmappable) := by
              rintro ⟨hm, hn2, hu2⟩
              rcases List.mem_cons.mp hm with he | hm'
              · rw [he] at hu2
                exact hu hu2
              · exact hc ⟨hm', hn2, hu2⟩
            rw [if_neg hc, if_neg hnc]
        · intro j
          rw [ih2 j]
          by_cases hj : j ∈ rest
          · have hjr : j ≠ r := fun he => hrn (he ▸ hj)
            rw [if_pos hj, if_pos (List.mem_cons_of_mem _ hj), Function.update_noteq hjr]
          · by_cases hjr : j = r
            · subst hjr
              rw [if_neg hj, if_pos (List.mem_cons_self j rest), if_neg (by
                  rw [hnull']
                  simp), if_neg hu]
              exact Function.update_same _ _ _
            · have hnm : ¬(j ∈ r :: rest) := by
                intro hmem
                rcases List.mem_cons.mp hmem with he | hm'
                · exact hjr he
                · exact hj hm'
              rw [if_neg hj, Function.update_noteq hjr, if_neg hnm]

theorem lookupDecodedLoop_spec (h : Hasher) (d : Decoded) (rows : List Nat)
    (s : SelectivityVector) (cache res : Nat → Nat) (hnd : rows.Nodup)
    (hca : CacheOK h d cache) :
    (∀ r, (lookupDecodedLoop h d rows s cache res).1.isValid r =
      if r ∈ rows ∧ d.isNullAt r = false ∧ lookupValueId h (d.valueAt r) = kUnmappable
      then false else s.isValid r) ∧
    (∀ j, (lookupDecodedLoop h d rows s cache res).2 j =
      if j ∈ rows then
        if d.isNullAt j then (if h.multiplier_ = 1 then 0 else res j)
        else if lookupValueId h (d.valueAt j) = kUnmappable then res j
        else applyMult h (res j) (lookupValueId h (d.valueAt j))
      else res j) := by
  induction rows generalizing s cache res with
  | nil =>
    exact ⟨fun r => by simp [lookupDecodedLoop], fun j => by simp [lookupDecodedLoop]⟩
  | cons r rest ih =>
    rcases List.nodup_cons.mp hnd with ⟨hrn, hnd'⟩
    have hunf : lookupDecodedLoop h d (r :: rest) s cache res =
        (if d.isNullAt r then
          lookupDecodedLoop h d rest s cache
            (if h.multiplier_ = 1 then Function.update res r 0 else res)
        else if cache (d.index r) = 0 then
          (if lookupValueId h (d.valueAt r) = kUnmappable then
            lookupDecodedLoop h d rest (s.setValid r false) cache res
          else lookupDecodedLoop h d rest s
            (Function.update cache (d.index r) (lookupValueId h (d.valueAt r)))
            (Function.update res r (applyMult h (res r) (lookupValueId h (d.valueAt r)))))
        else lookupDecodedLoop h d rest s cache
          (Function.update res r (applyMult h (res r) (cache (d.index r))))) := rfl
    by_cases hnull : d.isNullAt r = true
    · rw [hunf, if_pos hnull]
      rcases ih s cache (if h.multiplier_ = 1 then Function.update res r 0 else res)
        hnd' hca with ⟨ih1, ih2⟩
      have hresj : ∀ j, j ≠ r →
          (if h.multiplier_ = 1 then Function.update res r 0 else res) j = res j := by
        intro j hj
        split_ifs
        · exact Function.update_noteq hj _ _
        · rfl
      constructor
      · intro r'
        rw [ih1 r']
        by_cases hc : r' ∈ rest ∧ d.isNullAt r' = false ∧
            lookupValueId h (d.valueAt r') = kUnmappable
        · rw [if_pos hc, if_pos ⟨List.mem_cons_of_mem _ hc.1, hc.2⟩]
        · have hnc : ¬(r' ∈ r :: rest ∧ d.isNullAt r' = false ∧
              lookupValueId h (d.valueAt r') = kUnmappable) := by
            rintro ⟨hm, hn2, hu⟩
            rcases List.mem_cons.mp hm with he | hm'
            · rw [he, hnull] at hn2
              exact absurd hn2 (by simp)
            · exact hc ⟨hm', hn2, hu⟩
          rw [if_neg hc, if_neg hnc]
      · intro j
        rw [ih2 j]
        by_cases hj : j ∈ rest
        · have hjr : j ≠ r := fun he => hrn (he ▸ hj)
          rw [if_pos hj, if_pos (List.mem_cons_of_mem _ hj), hresj j hjr]
        · by_cases hjr : j = r
          · subst hjr
            rw [if_neg hj, if_pos (List.mem_cons_self j rest), if_pos hnull]
            split_ifs with hm
            · exact Function.update_same _ _ _
            · rfl
          · have hnm : ¬(j ∈ r :: rest) := by
              intro hmem
              rcases List.mem_cons.mp hmem with he | hm'
              · exact hjr he
              · exact hj hm'
            rw [if_neg hj, hresj j hjr, if_neg hnm]
    · have hnull' : d.isNullAt r = false := by simpa using hnull
      rw [hunf, if_neg hnull]
      by_cases hcz : cache (d.index r) = 0
      · rw [if_pos hcz]
        by_cases hu : lookupValueId h (d.valueAt r) = kUnmappable
        · rw [if_pos hu]
          rcases ih (s.setValid r false) cache res hnd' hca with ⟨ih1, ih2⟩
          constructor
          · intro r'
            rw [ih1 r']
            by_cases hc : r' ∈ rest ∧ d.isNullAt r' = false ∧
                lookupValueId h (d.valueAt r') = kUnmappable
            · rw [if_pos hc, if_pos ⟨List.mem_cons_of_mem _ hc.1, hc.2⟩]
            · rw [if_neg hc]
              by_cases hre : r' = r
              · subst hre
                rw [if_pos ⟨List.mem_cons_self r' rest, hnull', hu⟩]
                exact isValid_setValid_false_self s r'
              · have hnc : ¬(r' ∈ r :: rest ∧ d.isNullAt r' = false ∧
                    lookupValueId h (d.valueAt r') = kUnmappable) := by
                  rintro ⟨hm, hn2, hu2⟩
                  rcases List.mem_cons.mp hm with he | hm'
                  · exact hre he
                  · exact hc ⟨hm', hn2, hu2⟩
                rw [if_neg hnc]
                exact isValid_setValid_ne s r false hre
          · intro j
            rw [ih2 j]
            by_cases hj : j ∈ rest
            · rw [if_pos hj, if_pos (List.mem_cons_of_mem _ hj)]
            · by_cases hjr : j = r
              · subst hjr
                rw [if_neg hj, if_pos (List.mem_cons_self j rest), if_neg (by
                    rw [hnull']
                    simp), if_pos hu]
              · have hnm : ¬(j ∈ r :: rest) := by
                  intro hmem
                  rcases List.mem_cons.mp hmem with he | hm'
                  · exact hjr he
                  · exact hj hm'
                rw [if_neg hj, if_neg hnm]
        · rw [if_neg hu]
          have hca1 : CacheOK h d
              (Function.update cache (d.index r) (lookupValueId h (d.valueAt r))) := by
            intro b hbz
            by_cases hbe : b = d.index r
            · subst hbe
              rw [Function.update_same] at hbz ⊢
              exact ⟨rfl, hu⟩
            · rw [Function.update_noteq hbe] at hbz ⊢
              exact hca b hbz
          rcases ih s (Function.update cache (d.index r) (lookupValueId h (d.valueAt r)))
            (Function.update res r (applyMult h (res r) (lookupValueId h (d.valueAt r))))
            hnd' hca1 with ⟨ih1, ih2⟩
          constructor
          · intro r'
            rw [ih1 r']
            by_cases hc : r' ∈ rest ∧ d.isNullAt r' = false ∧
                lookupValueId h (d.valueAt r') = kUnmappable
            · rw [if_pos hc, if_pos ⟨List.mem_cons_of_mem _ hc.1, hc.2⟩]
            · have hnc : ¬(r' ∈ r :: rest ∧ d.isNullAt r' = false ∧
                  lookupValueId h (d.valueAt r') = kUnmappable) := by
                rintro ⟨hm, hn2, hu2⟩
                rcases List.mem_cons.mp hm with he | hm'
                · rw [he] at hu2
                  exact hu hu2
                · exact hc ⟨hm', hn2, hu2⟩
              rw [if_neg hc, if_neg hnc]
          · intro j
            rw [ih2 j]
            by_cases hj : j ∈ rest
            · have hjr : j ≠ r := fun he => hrn (he ▸ hj)
              rw [if_pos hj, if_pos (List.mem_cons_of_mem _ hj), Function.update_noteq hjr]
            · by_cases hjr : j = r
              · subst hjr
                rw [if_neg hj, if_pos (List.mem_cons_self j rest), if_neg (by
                    rw [hnull']
                    simp), if_neg hu]
                exact Function.update_same _ _ _
              · have hnm : ¬(j ∈ r :: rest) := by
                  intro hmem
                  rcases List.mem_cons.mp hmem with he | hm'
                  · exact hjr he
                  · exact hj hm'
                rw [if_neg hj, Function.update_noteq hjr, if_neg hnm]
      · rw [if_neg hcz]
        have hcv : cache (d.index r) = lookupValueId h (d.valueAt r) := (hca (d.index r) hcz).1
        have hcm2 : lookupValueId h (d.valueAt r) ≠ kUnmappable := (hca (d.index r) hcz).2
        rcases ih s cache
          (Function.update res r (applyMult h (res r) (cache (d.index r)))) hnd' hca with
          ⟨ih1, ih2⟩
        constructor
        · intro r'
          rw [ih1 r']
          by_cases hc : r' ∈ rest ∧ d.isNullAt r' = false ∧
              lookupValueId h (d.valueAt r') = kUnmappable
          · rw [if_pos hc, if_pos ⟨List.mem_cons_of_mem _ hc.1, hc.2⟩]
          · have hnc : ¬(r' ∈ r :: rest ∧ d.isNullAt r' = false ∧
                lookupValueId h (d.valueAt r') = kUnmappable) := by
              rintro ⟨hm, hn2, hu2⟩
              rcases List.mem_cons.mp hm with he | hm'
              · rw [he] at hu2
                exact hcm2 hu2
              · exact hc ⟨hm', hn2, hu2⟩
            rw [if_neg hc, if_neg hnc]
        · intro j
          rw [ih2 j]
          by_cases hj : j ∈ rest
          · have hjr : j ≠ r := fun he => hrn (he ▸ hj)
            rw [if_pos hj, if_pos (List.mem_cons_of_mem _ hj), Function.update_noteq hjr]
          · by_cases hjr : j = r
            · subst hjr
              rw [if_neg hj, if_pos (List.mem_cons_self j rest), if_neg (by
                  rw [hnull']
                  simp), if_neg hcm2, Function.update_same, hcv]
            · have hnm : ¬(j ∈ r :: rest) := by
                intro hmem
                rcases List.mem_cons.mp hmem with he | hm'
                · exact hjr he
                · exact hj hm'
              rw [if_neg hj, Function.update_noteq hjr, if_neg hnm]

/-- **C3 (amended).** `compute_value_ids` returns `true` iff every selected
row is null or mappable; when some selected non-null value yields
`kUnmappable` the call returns `false`, `out[row]` is left unchanged for
every such row, and every such unmappable value is still passed to
`analyze_value` (so a retry with a domain grown over the failures can
succeed in one pass).  Later selected values are *not* all re-analyzed:
in the decoded path a row whose base entry already holds a cached id is
written from the cache and skipped by analysis. -/
theorem C3_computeValueIds_amended (h : Hasher) (d : Decoded) (rows : List Nat)
    (res : Nat → Nat) (hwf : d.wfOn rows) (hnd : rows.Nodup) (hne : rows ≠ [])
    (hb : ∀ j, res j < 2 ^ 64) :
    ((computeValueIds h d rows res).2.2 = true ↔
      ∀ r ∈ rows, d.isNullAt r = true ∨ valueId h (d.valueAt r) ≠ kUnmappable) ∧
    (∀ r ∈ rows, d.isNullAt r = false → valueId h (d.valueAt r) = kUnmappable →
      (computeValueIds h d rows res).2.1 r = res r) ∧
    (∀ r ∈ rows, d.isNullAt r = false → valueId h (d.valueAt r) = kUnmappable →
      (computeValueIds h d rows res).1.distinctOverflow_ = false →
      containsValue (computeValueIds h d rows res).1.uniqueValues_ (d.valueAt r) = true) := by
  rcases makeValueIds_spec h d rows res hwf hnd hne hb with ⟨f1, _, f3, f4, _, _⟩
  exact ⟨f1, f3, f4⟩

/-- C3 witness: the amended theorem applied to the range-mode hasher over
`[10, 13]` and the dictionary view of `11, 99, 11`: row 1 (value 99) is
unmappable, so the call returns `false`, leaves `out[1]` at its previous
value 0, and 99 ends up analyzed into the distinct set. -/
theorem C3_computeValueIds_amended_witness :
    (computeValueIds rangeHasher dictView3 [0, 1, 2] fun _ => 0).2.2 = false ∧
    (computeValueIds rangeHasher dictView3 [0, 1, 2] fun _ => 0).2.1 1 = 0 ∧
    containsValue (computeValueIds rangeHasher dictView3 [0, 1, 2] fun _ => 0).1.uniqueValues_
      (.int 99) = true := by
  have hthm := C3_computeValueIds_amended rangeHasher dictView3 [0, 1, 2] (fun _ => 0)
    (by decide) (by decide) (by decide) (by intro j; show (0 : Nat) < 2 ^ 64; decide)
  refine ⟨?_, ?_, ?_⟩
  · cases hret : (computeValueIds rangeHasher dictView3 [0, 1, 2] fun _ => 0).2.2 with
    | false => rfl
    | true =>
      rcases hthm.1.mp hret 1 (by decide) with hn | hv
      · exact absurd hn (by decide)
      · exact absurd (by decide) hv
  · have hx := hthm.2.1 1 (by decide) (by decide) (by decide)
    simpa using hx
  · have hdov : (computeValueIds rangeHasher dictView3 [0, 1, 2]
        fun _ => 0).1.distinctOverflow_ = false := by decide
    have hx := hthm.2.2 1 (by decide) (by decide) (by decide) hdov
    have hval : dictView3.valueAt 1 = .int 99 := by decide
    rwa [hval] at hx

/-- **C9.** For every selected null row, `compute_value_ids` writes
`out[row] = 0` when the multiplier is 1 and leaves `out[row]` unchanged
otherwise (id 0 contributes 0 to the packed sum), in every encoding path
(constant, flat-with-nulls, decoded). -/
theorem C9_null_rows (h : Hasher) (d : Decoded) (rows : List Nat) (res : Nat → Nat)
    (hwf : d.wfOn rows) (hnd : rows.Nodup) (hne : rows ≠ []) (hb : ∀ j, res j < 2 ^ 64) :
    ∀ r ∈ rows, d.isNullAt r = true →
      (h.multiplier_ = 1 → (computeValueIds h d rows res).2.1 r = 0) ∧
      (h.multiplier_ ≠ 1 → (computeValueIds h d rows res).2.1 r = res r) := by
  rcases makeValueIds_spec h d rows res hwf hnd hne hb with ⟨_, _, _, _, f5, _⟩
  exact f5

/-- C9 witness: the i32 batch `[10, 12, 11, null, 13]` under the fresh
integer hasher (multiplier 1) gets `out[3] = 0` for the null row. -/
theorem C9_null_rows_witness :
    (computeValueIds (initHasher TypeKind.integer) scenario1Decoded [0, 1, 2, 3, 4]
      fun _ => 0).2.1 3 = 0 := by
  have hthm := C9_null_rows (initHasher TypeKind.integer) scenario1Decoded [0, 1, 2, 3, 4]
    (fun _ => 0) (by decide) (by decide) (by decide) (by intro j; show (0 : Nat) < 2 ^ 64; decide)
  exact (hthm 3 (by decide) (by decide)).1 (by decide)

theorem hashDictLoop_spec (H : VHValue → Nat) (M : Nat → Nat → Nat) (d : Decoded)
    (mix : Bool) (rows : List Nat) (cache res : Nat → Nat) (hnd : rows.Nodup)
    (hca : ∀ b, cache b ≠ kNullHash → cache b = H (d.baseAt b)) :
    ∀ j, hashDictLoop H M d mix rows cache res j = hashWriteSpec H M d mix rows res j := by
  induction rows generalizing cache res with
  | nil =>
    intro j
    simp [hashDictLoop, hashWriteSpec]
  | cons r rest ih =>
    rcases List.nodup_cons.mp hnd with ⟨hrn, hnd'⟩
    have hunf : hashDictLoop H M d mix (r :: rest) cache res =
        (if d.isNullAt r then
          hashDictLoop H M d mix rest cache
            (Function.update res r (mixOrSet M mix (res r) kNullHash))
        else if cache (d.index r) = kNullHash then
          hashDictLoop H M d mix rest
            (Function.update cache (d.index r) (H (d.valueAt r)))
            (Function.update res r (mixOrSet M mix (res r) (H (d.valueAt r))))
        else
          hashDictLoop H M d mix rest cache
            (Function.update res r (mixOrSet M mix (res r) (cache (d.index r))))) := rfl
    intro j
    by_cases hnull : d.isNullAt r = true
    · rw [hunf, if_pos hnull, ih cache _ hnd' hca j]
      unfold hashWriteSpec
      by_cases hj : j ∈ rest
      · have hjr : j ≠ r := fun he => hrn (he ▸ hj)
        rw [if_pos hj, if_pos (List.mem_cons_of_mem _ hj), Function.update_noteq hjr]
      · by_cases hjr : j = r
        · subst hjr
          rw [if_neg hj, if_pos (List.mem_cons_self j rest), Function.update_same,
            if_pos hnull]
        · have hnm : ¬(j ∈ r :: rest) := by
            intro hmem
            rcases List.mem_cons.mp hmem with he | hm'
            · exact hjr he
            · exact hj hm'
          rw [if_neg hj, Function.update_noteq hjr, if_neg hnm]
    · rw [hunf, if_neg hnull]
      by_cases hcz : cache (d.index r) = kNullHash
      · rw [if_pos hcz]
        have hca1 : ∀ b, Function.update cache (d.index r) (H (d.valueAt r)) b ≠ kNullHash →
            Function.update cache (d.index r) (H (d.valueAt r)) b = H (d.baseAt b) := by
          intro b hb
          by_cases hbe : b = d.index r
          · subst hbe
            rw [Function.update_same]
            rfl
          · rw [Function.update_noteq hbe] at hb ⊢
            exact hca b hb
        rw [ih _ _ hnd' hca1 j]
        unfold hashWriteSpec
        by_cases hj : j ∈ rest
        · have hjr : j ≠ r := fun he => hrn (he ▸ hj)
          rw [if_pos hj, if_pos (List.mem_cons_of_mem _ hj), Function.update_noteq hjr]
        · by_cases hjr : j = r
          · subst hjr
            rw [if_neg hj, if_pos (List.mem_cons_self j rest), Function.update_same,
              if_neg hnull]
          · have hnm : ¬(j ∈ r :: rest) := by
              intro hmem
              rcases List.mem_cons.mp hmem with he | hm'
              · exact hjr he
              · exact hj hm'
            rw [if_neg hj, Function.update_noteq hjr, if_neg hnm]
      · rw [if_neg hcz, ih cache _ hnd' hca j]
        unfold hashWriteSpec
        by_cases hj : j ∈ rest
        · have hjr : j ≠ r := fun he => hrn (he ▸ hj)
          rw [if_pos hj, if_pos (List.mem_cons_of_mem _ hj), Function.update_noteq hjr]
        · by_cases hjr : j = r
          · subst hjr
            rw [if_neg hj, if_pos (List.mem_cons_self j rest), Function.update_same,
              if_neg hnull, hca (d.index j) hcz]
            rfl
          · have hnm : ¬(j ∈ r :: rest) := by
              intro hmem
              rcases List.mem_cons.mp hmem with he | hm'
              · exact hjr he
              · exact hj hm'
            rw [if_neg hj, Function.update_noteq hjr, if_neg hnm]

theorem hashValues_spec (H : VHValue → Nat) (M : Nat → Nat → Nat) (d : Decoded)
    (rows : List Nat) (mix : Bool) (res : Nat → Nat) (hwf : d.wfOn rows)
    (hnd : rows.Nodup) (hne : rows ≠ []) :
    ∀ j, hashValues H M d rows mix res j = hashWriteSpec H M d mix rows res j := by
  obtain ⟨hwfI, hwfC, hwfN⟩ := hwf
  intro j
  by_cases hcm : d.constantMapping = true
  · have hbm : rows.headD 0 ∈ rows := by
      cases rows with
      | nil => exact absurd rfl hne
      | cons x xs => exact List.mem_cons_self x xs
    have heq : hashValues H M d rows mix res =
        writeRows (fun _ old => mixOrSet M mix old
          (if d.isNullAt (rows.headD 0) then kNullHash else H (d.valueAt (rows.headD 0))))
          rows res := by
      simp only [hashValues]
      rw [if_pos hcm]
    rw [heq, writeRows_eq _ res hnd j]
    unfold hashWriteSpec
    by_cases hj : j ∈ rows
    · rw [if_pos hj, if_pos hj, (hwfC hcm (rows.headD 0) hbm j hj).1,
        (hwfC hcm (rows.headD 0) hbm j hj).2]
    · rw [if_neg hj, if_neg hj]
  · by_cases him : d.identityMapping = true
    · have heq : hashValues H M d rows mix res =
          writeRows (fun r old => mixOrSet M mix old
            (if d.isNullAt r then kNullHash else H (d.valueAt r))) rows res := by
        simp only [hashValues]
        rw [if_neg hcm, if_pos him]
      rw [heq, writeRows_eq _ res hnd j]
      unfold hashWriteSpec
      by_cases hj : j ∈ rows
      · rw [if_pos hj]
      · rw [if_neg hj]
    · have heq : hashValues H M d rows mix res =
          hashDictLoop H M d mix rows (fun _ => kNullHash) res := by
        simp only [hashValues]
        rw [if_neg hcm, if_neg him]
      rw [heq, hashDictLoop_spec H M d mix rows _ res hnd (fun b hb => absurd rfl hb) j]

/-- **C2 (amended).** Encoding invariance holds for `hash` unconditionally
and for `compute_value_ids` up to the return flag and the all-mapped
outputs: two well-formed decoded views showing the same logical values and
nulls on the selected rows produce identical hash outputs, the same
all-mapped boolean, and identical value-id outputs whenever that boolean is
`true`.  After a failed call the value-id outputs may differ between
encodings: the dictionary-cached path keeps writing cached ids after the
failure where the flat path leaves rows untouched. -/
theorem C2_encoding_invariance (H : VHValue → Nat) (M : Nat → Nat → Nat) (h : Hasher)
    (d1 d2 : Decoded) (rows : List Nat) (mix : Bool) (res : Nat → Nat)
    (hwf1 : d1.wfOn rows) (hwf2 : d2.wfOn rows) (hnd : rows.Nodup) (hne : rows ≠ [])
    (hb : ∀ j, res j < 2 ^ 64)
    (hlog : ∀ r ∈ rows, d1.isNullAt r = d2.isNullAt r ∧ d1.valueAt r = d2.valueAt r) :
    (∀ j, hashValues H M d1 rows mix res j = hashValues H M d2 rows mix res j) ∧
    (computeValueIds h d1 rows res).2.2 = (computeValueIds h d2 rows res).2.2 ∧
    ((computeValueIds h d1 rows res).2.2 = true →
      ∀ j, (computeValueIds h d1 rows res).2.1 j = (computeValueIds h d2 rows res).2.1 j) := by
  rcases makeValueIds_spec h d1 rows res hwf1 hnd hne hb with ⟨g1, g2, _, _, _, _⟩
  rcases makeValueIds_spec h d2 rows res hwf2 hnd hne hb with ⟨k1, k2, _, _, _, _⟩
  have hpred : (∀ r ∈ rows, d1.isNullAt r = true ∨ valueId h (d1.valueAt r) ≠ kUnmappable) ↔
      (∀ r ∈ rows, d2.isNullAt r = true ∨ valueId h (d2.valueAt r) ≠ kUnmappable) := by
    constructor
    · intro ha r hr
      rcases ha r hr with hn | hv
      · rw [(hlog r hr).1] at hn
        exact Or.inl hn
      · rw [(hlog r hr).2] at hv
        exact Or.inr hv
    · intro ha r hr
      rcases ha r hr with hn | hv
      · rw [← (hlog r hr).1] at hn
        exact Or.inl hn
      · rw [← (hlog r hr).2] at hv
        exact Or.inr hv
  simp only [computeValueIds]
  refine ⟨?_, ?_, ?_⟩
  · intro j
    rw [hashValues_spec H M d1 rows mix res hwf1 hnd hne j,
      hashValues_spec H M d2 rows mix res hwf2 hnd hne j]
    unfold hashWriteSpec
    by_cases hj : j ∈ rows
    · rw [if_pos hj, if_pos hj, (hlog j hj).1, (hlog j hj).2]
    · rw [if_neg hj, if_neg hj]
  · cases hb1 : (makeValueIds h d1 rows res).2.2 with
    | true =>
      exact (k1.mpr (hpred.mp (g1.mp hb1))).symm
    | false =>
      cases hb2 : (makeValueIds h d2 rows res).2.2 with
      | false => rfl
      | true =>
        have hx := g1.mpr (hpred.mpr (k1.mp hb2))
        rw [hb1] at hx
        exact absurd hx (by simp)
  · intro htrue
    have htrue2 : (makeValueIds h d2 rows res).2.2 = true :=
      k1.mpr (hpred.mp (g1.mp htrue))
    rcases g2 htrue with ⟨_, hres1⟩
    rcases k2 htrue2 with ⟨_, hres2⟩
    intro j
    rw [hres1 j, hres2 j]
    by_cases hj : j ∈ rows
    · rw [if_pos hj, if_pos hj, (hlog j hj).1, (hlog j hj).2]
    · rw [if_neg hj, if_neg hj]

/-- C2 witness: the amended theorem applied to the flat and dictionary
views of the logical values `11, 99, 11` under the range-mode hasher over
`[10, 99]`, where every value is mappable. -/
theorem C2_encoding_invariance_witness :
    (∀ j, hashValues (fun _ => 7) (fun a b => a + b) flatView3 [0, 1, 2] false
        (fun _ => 0) j =
      hashValues (fun _ => 7) (fun a b => a + b) dictView3 [0, 1, 2] false
        (fun _ => 0) j) ∧
    (computeValueIds wideHasher flatView3 [0, 1, 2] fun _ => 0).2.2 =
      (computeValueIds wideHasher dictView3 [0, 1, 2] fun _ => 0).2.2 ∧
    ((computeValueIds wideHasher flatView3 [0, 1, 2] fun _ => 0).2.2 = true →
      ∀ j, (computeValueIds wideHasher flatView3 [0, 1, 2] fun _ => 0).2.1 j =
        (computeValueIds wideHasher dictView3 [0, 1, 2] fun _ => 0).2.1 j) :=
  C2_encoding_invariance (fun _ => 7) (fun a b => a + b) wideHasher flatView3 dictView3
    [0, 1, 2] false (fun _ => 0) (by decide) (by decide) (by decide) (by decide)
    (by intro j; show (0 : Nat) < 2 ^ 64; decide) (by decide)

/-- **C7.** `lookup_value_ids` is read-only on the hasher (the value-id
domain is never extended) and instead filters the caller's selection: every
selected row whose non-null value misses the current domain is removed from
the live selection, which is then rebounded; null rows write 0 under
multiplier 1 and are untouched otherwise; and mapped rows receive exactly
the id that `compute_value_ids` would assign. -/
theorem C7_lookupValueIds (h : Hasher) (d : Decoded) (s : SelectivityVector)
    (res : Nat → Nat) (hwf : d.wfOn s.selectedRows) (hne : s.selectedRows ≠ [])
    (hb : ∀ j, res j < 2 ^ 64)
    (hout : ∀ r, s.isValid r = true → r ∈ s.selectedRows) :
    (lookupValueIdsTyped h d s res).1 = h ∧
    (∀ r, r ∈ (lookupValueIdsTyped h d s res).2.1.selectedRows ↔
      r ∈ s.selectedRows ∧
        (d.isNullAt r = true ∨ lookupValueId h (d.valueAt r) ≠ kUnmappable)) ∧
    (∀ j, (lookupValueIdsTyped h d s res).2.2 j =
      if j ∈ s.selectedRows then
        if d.isNullAt j then (if h.multiplier_ = 1 then 0 else res j)
        else if lookupValueId h (d.valueAt j) = kUnmappable then res j
        else applyMult h (res j) (lookupValueId h (d.valueAt j))
      else res j) ∧
    ((computeValueIds h d s.selectedRows res).2.2 = true →
      ∀ j, (lookupValueIdsTyped h d s res).2.2 j =
        (computeValueIds h d s.selectedRows res).2.1 j) := by
  have hnd : s.selectedRows.Nodup := selectedRows_nodup s
  have main : (lookupValueIdsTyped h d s res).1 = h ∧
      (∀ r, r ∈ (lookupValueIdsTyped h d s res).2.1.selectedRows ↔
        r ∈ s.selectedRows ∧
          (d.isNullAt r = true ∨ lookupValueId h (d.valueAt r) ≠ kUnmappable)) ∧
      (∀ j, (lookupValueIdsTyped h d s res).2.2 j =
        if j ∈ s.selectedRows then
          if d.isNullAt j then (if h.multiplier_ = 1 then 0 else res j)
          else if lookupValueId h (d.valueAt j) = kUnmappable then res j
          else applyMult h (res j) (lookupValueId h (d.valueAt j))
        else res j) := by
    obtain ⟨hwfI, hwfC, hwfN⟩ := hwf
    by_cases hcm : d.constantMapping = true
    · have hbm : s.selectedRows.headD 0 ∈ s.selectedRows := by
        cases hsel : s.selectedRows with
        | nil => exact absurd hsel hne
        | cons x xs => exact List.mem_cons_self x xs
      by_cases hnb : d.isNullAt (s.selectedRows.headD 0) = true
      · have hallnull : ∀ r ∈ s.selectedRows, d.isNullAt r = true := fun r hr => by
          rw [(hwfC hcm r hr (s.selectedRows.headD 0) hbm).1, hnb]
        have heq : lookupValueIdsTyped h d s res =
            (h, s, if h.multiplier_ = 1 then
              writeRows (fun _ _ => 0) s.selectedRows res else res) := by
          simp only [lookupValueIdsTyped]
          rw [if_pos hcm, if_pos hnb]
        have hh : (lookupValueIdsTyped h d s res).1 = h := by rw [heq]
        have hsv : (lookupValueIdsTyped h d s res).2.1 = s := by rw [heq]
        have hres : (lookupValueIdsTyped h d s res).2.2 =
            (if h.multiplier_ = 1 then writeRows (fun _ _ => 0) s.selectedRows res
             else res) := by rw [heq]
        refine ⟨hh, ?_, ?_⟩
        · intro r
          rw [hsv]
          exact ⟨fun hr => ⟨hr, Or.inl (hallnull r hr)⟩, fun hx => hx.1⟩
        · intro j
          rw [hres]
          by_cases hm : h.multiplier_ = 1
          · rw [if_pos hm, writeRows_eq _ res hnd j]
            by_cases hj : j ∈ s.selectedRows
            · rw [if_pos hj, if_pos hj, if_pos (hallnull j hj), if_pos hm]
            · rw [if_neg hj, if_neg hj]
          · rw [if_neg hm]
            by_cases hj : j ∈ s.selectedRows
            · rw [if_pos hj, if_pos (hallnull j hj), if_neg hm]
            · rw [if_neg hj]
      · have hnb' : d.isNullAt (s.selectedRows.headD 0) = false := by simpa using hnb
        have hallnn : ∀ r ∈ s.selectedRows, d.isNullAt r = false := fun r hr => by
          rw [(hwfC hcm r hr (s.selectedRows.headD 0) hbm).1, hnb']
        have hallv : ∀ r ∈ s.selectedRows,
            d.valueAt r = d.valueAt (s.selectedRows.headD 0) := fun r hr =>
          (hwfC hcm r hr (s.selectedRows.headD 0) hbm).2
        by_cases hid : lookupValueId h (d.valueAt (s.selectedRows.headD 0)) = kUnmappable
        · have heq : lookupValueIdsTyped h d s res = (h, s.clearAll, res) := by
            simp only [lookupValueIdsTyped]
            rw [if_pos hcm, if_neg hnb, if_pos hid]
          have hh : (lookupValueIdsTyped h d s res).1 = h := by rw [heq]
          have hsv : (lookupValueIdsTyped h d s res).2.1 = s.clearAll := by rw [heq]
          have hres : (lookupValueIdsTyped h d s res).2.2 = res := by rw [heq]
          refine ⟨hh, ?_, ?_⟩
          · intro r
            rw [hsv]
            constructor
            · intro hrx
              rcases mem_selectedRows.mp hrx with ⟨hlt, _, _⟩
              have hz : s.clearAll.endRow = 0 := rfl
              rw [hz] at hlt
              exact absurd hlt (by simp)
            · rintro ⟨hr, hor⟩
              rcases hor with hn | hv
              · rw [hallnn r hr] at hn
                exact absurd hn (by simp)
              · rw [hallv r hr] at hv
                exact absurd hid hv
          · intro j
            rw [hres]
            by_cases hj : j ∈ s.selectedRows
            · have hju : lookupValueId h (d.valueAt j) = kUnmappable := by
                rw [hallv j hj]
                exact hid
              rw [if_pos hj, if_neg (show ¬(d.isNullAt j = true) by
                  rw [hallnn j hj]
                  simp), if_pos hju]
            · rw [if_neg hj]
        · have heq : lookupValueIdsTyped h d s res =
              (h, s, writeRows (fun _ old => applyMult h old
                (lookupValueId h (d.valueAt (s.selectedRows.headD 0))))
                s.selectedRows res) := by
            simp only [lookupValueIdsTyped]
            rw [if_pos hcm, if_neg hnb, if_neg hid]
          have hh : (lookupValueIdsTyped h d s res).1 = h := by rw [heq]
          have hsv : (lookupValueIdsTyped h d s res).2.1 = s := by rw [heq]
          have hres : (lookupValueIdsTyped h d s res).2.2 =
              writeRows (fun _ old => applyMult h old
                (lookupValueId h (d.valueAt (s.selectedRows.headD 0))))
                s.selectedRows res := by rw [heq]
          refine ⟨hh, ?_, ?_⟩
          · intro r
            rw [hsv]
            constructor
            · intro hr
              refine ⟨hr, Or.inr ?_⟩
              rw [hallv r hr]
              exact hid
            · exact fun hx => hx.1
          · intro j
            rw [hres, writeRows_eq _ res hnd j]
            by_cases hj : j ∈ s.selectedRows
            · have hjm : ¬(lookupValueId h (d.valueAt j) = kUnmappable) := by
                rw [hallv j hj]
                exact hid
              rw [if_pos hj, if_pos hj, if_neg (show ¬(d.isNullAt j = true) by
                  rw [hallnn j hj]
                  simp), if_neg hjm, hallv j hj]
            · rw [if_neg hj, if_neg hj]
    · by_cases him : d.identityMapping = true
      · have hsel2 : (lookupValueIdsTyped h d s res).2.1 =
            (lookupIdentityLoop h d s.selectedRows s res).1.updateBounds := by
          simp only [lookupValueIdsTyped]
          rw [if_neg hcm, if_pos him]
        have hres2 : (lookupValueIdsTyped h d s res).2.2 =
            (lookupIdentityLoop h d s.selectedRows s res).2 := by
          simp only [lookupValueIdsTyped]
          rw [if_neg hcm, if_pos him]
        have hh2 : (lookupValueIdsTyped h d s res).1 = h := by
          simp only [lookupValueIdsTyped]
          rw [if_neg hcm, if_pos him]
        rcases lookupIdentityLoop_spec h d s.selectedRows s res hnd with ⟨l1, l2⟩
        refine ⟨hh2, ?_, ?_⟩
        · intro r
          rw [hsel2, mem_updateBounds_selectedRows, l1 r]
          by_cases hc : r ∈ s.selectedRows ∧ d.isNullAt r = false ∧
              lookupValueId h (d.valueAt r) = kUnmappable
          · rw [if_pos hc]
            simp only [Bool.false_eq_true, false_iff]
            rintro ⟨hr, hor⟩
            rcases hor with hn | hv
            · rw [hc.2.1] at hn
              exact absurd hn (by simp)
            · exact hv hc.2.2
          · rw [if_neg hc]
            constructor
            · intro hv
              have hr := hout r hv
              refine ⟨hr, ?_⟩
              by_cases hnn : d.isNullAt r = true
              · exact Or.inl hnn
              · exact Or.inr fun hu => hc ⟨hr, by simpa using hnn, hu⟩
            · rintro ⟨hr, _⟩
              exact (mem_selectedRows.mp hr).2.2
        · intro j
          rw [hres2, l2 j]
      · have hca0 : CacheOK h d (fun _ => 0) := fun b hbz => absurd rfl hbz
        have hsel2 : (lookupValueIdsTyped h d s res).2.1 =
            (lookupDecodedLoop h d s.selectedRows s (fun _ => 0) res).1.updateBounds := by
          simp only [lookupValueIdsTyped]
          rw [if_neg hcm, if_neg him]
        have hres2 : (lookupValueIdsTyped h d s res).2.2 =
            (lookupDecodedLoop h d s.selectedRows s (fun _ => 0) res).2 := by
          simp only [lookupValueIdsTyped]
          rw [if_neg hcm, if_neg him]
        have hh2 : (lookupValueIdsTyped h d s res).1 = h := by
          simp only [lookupValueIdsTyped]
          rw [if_neg hcm, if_neg him]
        rcases lookupDecodedLoop_spec h d s.selectedRows s (fun _ => 0) res hnd hca0 with
          ⟨l1, l2⟩
        refine ⟨hh2, ?_, ?_⟩
        · intro r
          rw [hsel2, mem_updateBounds_selectedRows, l1 r]
          by_cases hc : r ∈ s.selectedRows ∧ d.isNullAt r = false ∧
              lookupValueId h (d.valueAt r) = kUnmappable
          · rw [if_pos hc]
            simp only [Bool.false_eq_true, false_iff]
            rintro ⟨hr, hor⟩
            rcases hor with hn | hv
            · rw [hc.2.1] at hn
              exact absurd hn (by simp)
            · exact hv hc.2.2
          · rw [if_neg hc]
            constructor
            · intro hv
              have hr := hout r hv
              refine ⟨hr, ?_⟩
              by_cases hnn : d.isNullAt r = true
              · exact Or.inl hnn
              · exact Or.inr fun hu => hc ⟨hr, by simpa using hnn, hu⟩
            · rintro ⟨hr, _⟩
              exact (mem_selectedRows.mp hr).2.2
        · intro j
          rw [hres2, l2 j]
  refine ⟨main.1, main.2.1, main.2.2, ?_⟩
  simp only [computeValueIds]
  intro htrue j
  rcases makeValueIds_spec h d s.selectedRows res hwf hnd hne hb with ⟨m1, m2, _, _, _, _⟩
  rcases m2 htrue with ⟨_, hmres⟩
  have hall := m1.mp htrue
  rw [main.2.2 j, hmres j]
  by_cases hj : j ∈ s.selectedRows
  · rw [if_pos hj, if_pos hj]
    by_cases hn : d.isNullAt j = true
    · rw [if_pos hn, if_pos hn]
    · rw [if_neg hn, if_neg hn]
      rcases hall j hj with hn2 | hv
      · exact absurd hn2 hn
      · have hnu : ¬(lookupValueId h (d.valueAt j) = kUnmappable) := hv
        rw [if_neg hnu]
        rfl
  · rw [if_neg hj, if_neg hj]

theorem isValid_mem_selectedRows {s : SelectivityVector} (hb0 : s.beginRow = 0)
    (hel : s.bits.length ≤ s.endRow) : ∀ r, s.isValid r = true → r ∈ s.selectedRows := by
  intro r hv
  have hmem := isValid_mem_filter_range.mpr hv
  have hlt : r < s.bits.length := List.mem_range.mp (List.mem_filter.mp hmem).1
  exact mem_selectedRows.mpr
    ⟨Nat.lt_of_lt_of_le hlt hel, by rw [hb0]; exact Nat.zero_le r, hv⟩

/-- C7 witness: the theorem applied to the probe view `[11, 200]` under the
range-mode hasher over `[10, 99]` with both rows selected: the hasher comes
back unchanged, row 0 (value 11) stays selected and receives its id, row 1
(value 200) is removed from the selection. -/
theorem C7_lookupValueIds_witness :
    (lookupValueIdsTyped wideHasher lookupView lookupSel (fun _ => 0)).1 = wideHasher ∧
    0 ∈ (lookupValueIdsTyped wideHasher lookupView lookupSel (fun _ => 0)).2.1.selectedRows ∧
    1 ∉ (lookupValueIdsTyped wideHasher lookupView lookupSel (fun _ => 0)).2.1.selectedRows ∧
    (lookupValueIdsTyped wideHasher lookupView lookupSel (fun _ => 0)).2.2 0 =
      applyMult wideHasher 0 (lookupValueId wideHasher (.int 11)) := by
  have hthm := C7_lookupValueIds wideHasher lookupView lookupSel (fun _ => 0)
    (by decide) (by decide) (by intro j; show (0 : Nat) < 2 ^ 64; decide)
    (isValid_mem_selectedRows (by decide) (by decide))
  refine ⟨hthm.1, ?_, ?_, ?_⟩
  · exact (hthm.2.1 0).mpr ⟨by decide, Or.inr (by decide)⟩
  · intro hmem
    rcases (hthm.2.1 1).mp hmem with ⟨_, hor⟩
    rcases hor with hn | hv
    · exact absurd hn (by decide)
    · exact hv (by decide)
  · rw [hthm.2.2.1 0]
    decide

end Velox

